import Mathlib

/-!
Verification of the Sudoku constraint-satisfaction core of the SudokuGame
repository (`src/web/sudoku.js`, with the set-based variant in
`src/sudoku.js`).  Grids are flat arrays of naturals (`0` = empty); the
solver keeps one bitmask per row/column/box.  JavaScript arrays are
modelled as `List ℕ`, the mask arrays as functions `ℕ → ℕ` (extensional
arrays), and the two effectful inputs are modelled as oracles threaded
through the code: `σ : ℕ → List ℕ → List ℕ` supplies the result of each
`shuffled` call (indexed by a running counter, one increment per call)
and `τ : ℕ → ℕ` supplies the result of each `nowMs()` call.  Bit
operations are on `ℕ`; this agrees with the 32-bit JavaScript semantics
for every board size the program supports (digits below 32).
-/

namespace Sudoku

/-- JavaScript `g[i]` on a flat grid array (in range in all reachable code). -/
def cell (g : List ℕ) (i : ℕ) : ℕ := g.getD i 0

/-- `ROW_OF[i] = Math.floor(i / N)` from `buildIndexMaps`. -/
def rowOf (n i : ℕ) : ℕ := i / n

/-- `COL_OF[i] = i % N` from `buildIndexMaps`. -/
def colOf (n i : ℕ) : ℕ := i % n

/-- `BOX_OF[i] = Math.floor(r / B) * B + Math.floor(c / B)` from `buildIndexMaps`. -/
def boxOf (n b i : ℕ) : ℕ := (i / n / b) * b + i % n / b

/-- `bit(v) = 1 << (v - 1)` from `buildIndexMaps`. -/
def bit (v : ℕ) : ℕ := 1 <<< (v - 1)

/-- `FULL_MASK = (1 << N) - 1` from `buildIndexMaps`. -/
def fullMask (n : ℕ) : ℕ := (1 <<< n) - 1

/-- Fuel-indexed Hamming-weight worker (the fuel only bounds the recursion
depth; `m` itself is always enough). -/
def popcountFuel : ℕ → ℕ → ℕ
  | 0, _ => 0
  | fuel + 1, m => if m = 0 then 0 else m % 2 + popcountFuel fuel (m / 2)

/-- `popcount(m)` from `buildIndexMaps`: Hamming weight of a 32-bit mask
(the SWAR implementation in the source computes exactly this). -/
def popcount (m : ℕ) : ℕ := popcountFuel m m

theorem popcountFuel_eq (m : ℕ) : ∀ fuel, m ≤ fuel → popcountFuel fuel m = popcount m := by
  induction m using Nat.strong_induction_on with
  | _ m ih =>
    intro fuel hf
    cases m with
    | zero =>
      cases fuel with
      | zero => rfl
      | succ f =>
        show (if (0 : ℕ) = 0 then 0 else (0 : ℕ) % 2 + popcountFuel f (0 / 2)) = popcount 0
        rw [if_pos rfl]
        rfl
    | succ m' =>
      cases fuel with
      | zero => omega
      | succ f =>
        show (if m' + 1 = 0 then 0 else (m' + 1) % 2 + popcountFuel f ((m' + 1) / 2)) =
          popcount (m' + 1)
        rw [if_neg (by omega)]
        have hd : (m' + 1) / 2 < m' + 1 := Nat.div_lt_self (by omega) (by omega)
        have h1 : popcountFuel f ((m' + 1) / 2) = popcount ((m' + 1) / 2) :=
          ih _ hd _ (by omega)
        have h2 : popcountFuel m' ((m' + 1) / 2) = popcount ((m' + 1) / 2) :=
          ih _ hd _ (by omega)
        have hrhs : popcount (m' + 1) = (m' + 1) % 2 + popcountFuel m' ((m' + 1) / 2) := by
          show (if m' + 1 = 0 then 0 else (m' + 1) % 2 + popcountFuel m' ((m' + 1) / 2)) = _
          rw [if_neg (by omega)]
        rw [hrhs, h1, h2]

theorem popcount_zero : popcount 0 = 0 := rfl

theorem popcount_succ (m : ℕ) :
    popcount (m + 1) = (m + 1) % 2 + popcount ((m + 1) / 2) := by
  show (if m + 1 = 0 then 0 else (m + 1) % 2 + popcountFuel m ((m + 1) / 2)) = _
  rw [if_neg (by omega), popcountFuel_eq _ _ (by omega)]

/-- `maskToDigits(m)` from `buildIndexMaps`: the digits `1..N` whose bit is set. -/
def maskToDigits (n m : ℕ) : List ℕ :=
  (List.range n).filterMap fun k => if m.testBit k then some (k + 1) else none

/-- The three bitmask arrays `{rows, cols, boxes}`, one `N`-bit mask per unit. -/
structure Masks where
  rows : ℕ → ℕ
  cols : ℕ → ℕ
  boxes : ℕ → ℕ

/-- Pointwise update of one mask array (JavaScript `arr[k] = x`). -/
def upd (f : ℕ → ℕ) (k x : ℕ) : ℕ → ℕ := fun j => if j = k then x else f j

/-- One iteration of the scan in `computeMasks`: OR the bit of the value at
cell `i` (if non-zero) into its row, column and box mask. -/
def cmStep (n b : ℕ) (g : List ℕ) (m : Masks) (i : ℕ) : Masks :=
  let v := cell g i
  if v = 0 then m
  else
    { rows := upd m.rows (rowOf n i) (m.rows (rowOf n i) ||| bit v)
      cols := upd m.cols (colOf n i) (m.cols (colOf n i) ||| bit v)
      boxes := upd m.boxes (boxOf n b i) (m.boxes (boxOf n b i) ||| bit v) }

/-- `computeMasks(g, M)` from the source: a single scan over the grid. -/
def computeMasks (n b : ℕ) (g : List ℕ) : Masks :=
  (List.range g.length).foldl (cmStep n b g) ⟨fun _ => 0, fun _ => 0, fun _ => 0⟩

/-- `candidateMask(i, masks, M)`: set bits are the digits still allowed at `i`. -/
def candidateMask (n b : ℕ) (i : ℕ) (m : Masks) : ℕ :=
  fullMask n ^^^ (m.rows (rowOf n i) ||| m.cols (colOf n i) ||| m.boxes (boxOf n b i))

/-- Two cell indices share a row, a column or a box. -/
def sameUnit (n b i j : ℕ) : Prop :=
  rowOf n i = rowOf n j ∨ colOf n i = colOf n j ∨ boxOf n b i = boxOf n b j

instance (n b i j : ℕ) : Decidable (sameUnit n b i j) := by
  unfold sameUnit; infer_instance

/-- A grid is internally consistent: no two equal non-zero values share a unit. -/
def Consistent (n b : ℕ) (g : List ℕ) : Prop :=
  ∀ i < g.length, ∀ j < g.length, i ≠ j → sameUnit n b i j → cell g i ≠ 0 →
    cell g i ≠ cell g j

instance (n b : ℕ) (g : List ℕ) : Decidable (Consistent n b g) := by
  haveI : Decidable (∀ i < g.length, ∀ j < g.length, i ≠ j → sameUnit n b i j →
      ¬(cell g i ≠ 0 ∧ cell g i = cell g j)) :=
    @Nat.decidableBallLT g.length _ fun i _ =>
      @Nat.decidableBallLT g.length _ fun j _ => by infer_instance
  refine decidable_of_iff (∀ i < g.length, ∀ j < g.length, i ≠ j → sameUnit n b i j →
    ¬(cell g i ≠ 0 ∧ cell g i = cell g j)) ?_
  unfold Consistent
  constructor
  · intro H i hi j hj hne hsu h0 heq
    exact H i hi j hj hne hsu ⟨h0, heq⟩
  · rintro H i hi j hj hne hsu ⟨h0, heq⟩
    exact H i hi j hj hne hsu h0 heq

/-- A fully populated constraint-satisfying grid: every cell holds a digit
`1..n` and no unit has a repeat. -/
def ValidComplete (n b : ℕ) (g : List ℕ) : Prop :=
  (∀ i < g.length, 1 ≤ cell g i ∧ cell g i ≤ n) ∧ Consistent n b g

instance (n b : ℕ) (g : List ℕ) : Decidable (ValidComplete n b g) := by
  unfold ValidComplete; infer_instance

/-- `h` is a valid completion of the puzzle `p`: same length, agrees with
every given (non-zero) cell of `p`, and is a complete valid grid. -/
def Completes (n b : ℕ) (p h : List ℕ) : Prop :=
  h.length = p.length ∧ (∀ i < p.length, cell p i ≠ 0 → cell h i = cell p i) ∧
    ValidComplete n b h

instance (n b : ℕ) (p h : List ℕ) : Decidable (Completes n b p h) := by
  unfold Completes; infer_instance

/-- All lists of length `L` over the alphabet `1..n` (the candidate space in
which completions live). -/
def allFull (n : ℕ) : ℕ → Finset (List ℕ)
  | 0 => {[]}
  | L + 1 => (Finset.Icc 1 n).biUnion fun v => ((allFull n L).image (v :: ·))

/-- The finite set of valid completions of a puzzle. -/
def completions (n b : ℕ) (p : List ℕ) : Finset (List ℕ) :=
  (allFull n p.length).filter fun h => Completes n b p h

/-- The number of valid completions of a puzzle. -/
def nComp (n b : ℕ) (p : List ℕ) : ℕ := (completions n b p).card

/-- Number of empty cells of a grid (bounds the recursion depth of the search). -/
def countZeros (g : List ℕ) : ℕ := g.count 0

/- ------------------------------------------------------------------ -/
/- Basic lemmas about `cell` and `List.set`.                           -/
/- ------------------------------------------------------------------ -/

theorem cell_nil (i : ℕ) : cell [] i = 0 := by cases i <;> rfl

theorem cell_cons_zero (a : ℕ) (g : List ℕ) : cell (a :: g) 0 = a := rfl

theorem cell_cons_succ (a : ℕ) (g : List ℕ) (i : ℕ) :
    cell (a :: g) (i + 1) = cell g i := rfl

theorem cell_set (g : List ℕ) (i j v : ℕ) :
    cell (g.set i v) j = if i = j ∧ i < g.length then v else cell g j := by
  induction g generalizing i j with
  | nil => simp [cell_nil]
  | cons a g ih =>
    cases i with
    | zero =>
      cases j with
      | zero => simp [List.set, cell_cons_zero]
      | succ j => simp [List.set, cell_cons_succ]
    | succ i =>
      cases j with
      | zero => simp [List.set, cell_cons_zero]
      | succ j =>
        simp only [List.set, cell_cons_succ, ih, List.length_cons]
        have hc : (i = j ∧ i < g.length) ↔ (i + 1 = j + 1 ∧ i + 1 < g.length + 1) := by
          omega
        rw [if_congr hc rfl rfl]

theorem cell_set_self (g : List ℕ) (i v : ℕ) (h : i < g.length) :
    cell (g.set i v) i = v := by simp [cell_set, h]

theorem cell_set_ne (g : List ℕ) {i j : ℕ} (v : ℕ) (h : i ≠ j) :
    cell (g.set i v) j = cell g j := by simp [cell_set, h]

theorem set_cell_self (g : List ℕ) (i : ℕ) : g.set i (cell g i) = g := by
  induction g generalizing i with
  | nil => rfl
  | cons a g ih =>
    cases i with
    | zero => simp [List.set, cell_cons_zero]
    | succ i => simp [List.set, cell_cons_succ, ih]

theorem set_zero_of_cell_zero (g : List ℕ) (i : ℕ) (h : cell g i = 0) :
    g.set i 0 = g := by
  have := set_cell_self g i
  rwa [h] at this

theorem cell_lt_of_bound {g : List ℕ} {n i : ℕ}
    (hb : ∀ j < g.length, cell g j ≤ n) (hi : i < g.length) : cell g i ≤ n :=
  hb i hi

theorem cell_of_ge_length (g : List ℕ) (i : ℕ) (h : g.length ≤ i) :
    cell g i = 0 := by
  unfold cell
  rw [List.getD_eq_default]
  exact h

theorem countZeros_set (g : List ℕ) (i v : ℕ) (hi : i < g.length)
    (h0 : cell g i = 0) (hv : v ≠ 0) :
    countZeros (g.set i v) + 1 = countZeros g := by
  induction g generalizing i with
  | nil => simp at hi
  | cons a g ih =>
    cases i with
    | zero =>
      have : a = 0 := h0
      subst this
      simp [countZeros, List.set, List.count_cons, hv]
    | succ i =>
      have hi' : i < g.length := by simpa using hi
      have h0' : cell g i = 0 := h0
      simp only [countZeros, List.set, List.count_cons] at *
      have := ih i hi' h0'
      omega

theorem countZeros_le_length (g : List ℕ) : countZeros g ≤ g.length :=
  List.count_le_length 0 g

theorem cell_eq_getElem (g : List ℕ) (i : ℕ) (h : i < g.length) :
    cell g i = g[i] := by
  simp [cell, List.getD_eq_getElem?_getD, List.getElem?_eq_getElem h]

theorem countZeros_pos_iff (g : List ℕ) :
    0 < countZeros g ↔ ∃ i < g.length, cell g i = 0 := by
  unfold countZeros
  rw [List.count_pos_iff]
  rw [List.mem_iff_getElem]
  constructor
  · rintro ⟨i, hi, hval⟩
    exact ⟨i, hi, by rw [cell_eq_getElem g i hi, hval]⟩
  · rintro ⟨i, hi, h0⟩
    exact ⟨i, hi, by rw [← cell_eq_getElem g i hi, h0]⟩

/- ------------------------------------------------------------------ -/
/- Bit-level lemmas: `bit`, `fullMask`, `popcount`, `maskToDigits`.    -/
/- ------------------------------------------------------------------ -/

theorem bit_eq_two_pow (v : ℕ) : bit v = 2 ^ (v - 1) := by
  unfold bit; exact Nat.one_shiftLeft _

theorem testBit_bit (v k : ℕ) : (bit v).testBit k = decide (k = v - 1) := by
  rw [bit_eq_two_pow]
  by_cases h : v - 1 = k
  · subst h; simp [Nat.testBit_two_pow_self]
  · simp [Nat.testBit_two_pow_of_ne h, Ne.symm h]

theorem testBit_fullMask (n k : ℕ) : (fullMask n).testBit k = decide (k < n) := by
  unfold fullMask
  rw [Nat.one_shiftLeft]
  exact Nat.testBit_two_pow_sub_one n k

theorem testBit_false_of_lt {m : ℕ} {k : ℕ} (h : m < 2 ^ k) : m.testBit k = false := by
  unfold Nat.testBit
  have : m >>> k = 0 := by
    rw [Nat.shiftRight_eq_div_pow]
    exact Nat.div_eq_of_lt h
  simp [this]

theorem testBit_false_of_lt_of_le {m n k : ℕ} (h : m < 2 ^ n) (hk : n ≤ k) :
    m.testBit k = false :=
  testBit_false_of_lt (lt_of_lt_of_le h (Nat.pow_le_pow_right (by norm_num) hk))

theorem popcount_eq_countP : ∀ (n m : ℕ), m < 2 ^ n →
    popcount m = (List.range n).countP (m.testBit ·) := by
  intro n
  induction n with
  | zero =>
    intro m hm
    interval_cases m
    simp [popcount_zero]
  | succ n ih =>
    intro m hm
    cases m with
    | zero => simp [popcount_zero, Nat.zero_testBit]
    | succ m' =>
      have hstep : popcount (m' + 1) = (m' + 1) % 2 + popcount ((m' + 1) / 2) :=
        popcount_succ m'
      have hdiv : (m' + 1) / 2 < 2 ^ n := by
        rw [Nat.div_lt_iff_lt_mul (by norm_num)]
        calc m' + 1 < 2 ^ (n + 1) := hm
        _ = 2 ^ n * 2 := by ring
      rw [hstep, ih _ hdiv, List.range_succ_eq_map, List.countP_cons, List.countP_map]
      have hcomp : (List.range n).countP ((fun x => (m' + 1).testBit x) ∘ Nat.succ) =
          (List.range n).countP (fun k => ((m' + 1) / 2).testBit k) := by
        apply List.countP_congr
        intro k _
        simp [Function.comp, Nat.testBit_succ]
      rw [hcomp]
      have h0 : (m' + 1).testBit 0 = decide ((m' + 1) % 2 = 1) := Nat.testBit_zero _
      rw [h0]
      by_cases hpar : (m' + 1) % 2 = 1
      · simp [hpar]
        omega
      · have hz : (m' + 1) % 2 = 0 := by omega
        rw [hz]
        simp

theorem maskToDigits_eq_map_filter (n m : ℕ) :
    maskToDigits n m = ((List.range n).filter (m.testBit ·)).map (· + 1) := by
  unfold maskToDigits
  induction (List.range n) with
  | nil => rfl
  | cons a l ih =>
    by_cases h : m.testBit a <;>
      simp [List.filterMap_cons, List.filter_cons, h, ih]

theorem mem_maskToDigits {n m v : ℕ} :
    v ∈ maskToDigits n m ↔ 1 ≤ v ∧ v ≤ n ∧ m.testBit (v - 1) = true := by
  rw [maskToDigits_eq_map_filter]
  simp only [List.mem_map, List.mem_filter, List.mem_range]
  constructor
  · rintro ⟨k, ⟨hk, hbit⟩, rfl⟩
    exact ⟨by omega, by omega, by simpa using hbit⟩
  · rintro ⟨h1, hn, hbit⟩
    exact ⟨v - 1, ⟨by omega, hbit⟩, by omega⟩

theorem nodup_maskToDigits (n m : ℕ) : (maskToDigits n m).Nodup := by
  rw [maskToDigits_eq_map_filter]
  exact ((List.nodup_range n).filter _).map (fun a b => by omega)

theorem length_maskToDigits {n m : ℕ} (hm : m < 2 ^ n) :
    (maskToDigits n m).length = popcount m := by
  rw [maskToDigits_eq_map_filter, List.length_map, ← List.countP_eq_length_filter,
    popcount_eq_countP n m hm]

theorem maskToDigits_nil_of_popcount_zero {n m : ℕ} (hm : m < 2 ^ n)
    (h : popcount m = 0) : maskToDigits n m = [] := by
  have := length_maskToDigits hm
  rw [h] at this
  exact List.eq_nil_of_length_eq_zero this

/- ------------------------------------------------------------------ -/
/- Characterization of `computeMasks`: a bit is set in a unit's mask   -/
/- exactly when some cell of that unit holds the corresponding digit.  -/
/- ------------------------------------------------------------------ -/

/-- One `computeMasks` iteration projected onto a single mask array with
unit function `u` (`rowOf`, `colOf` or `boxOf`). -/
def unitStep (g : List ℕ) (u : ℕ → ℕ) (f : ℕ → ℕ) (i : ℕ) : ℕ → ℕ :=
  if cell g i = 0 then f else upd f (u i) (f (u i) ||| bit (cell g i))

theorem cmStep_rows (n b : ℕ) (g : List ℕ) (m : Masks) (i : ℕ) :
    (cmStep n b g m i).rows = unitStep g (rowOf n) m.rows i := by
  unfold cmStep unitStep
  by_cases h : cell g i = 0 <;> simp [h]

theorem cmStep_cols (n b : ℕ) (g : List ℕ) (m : Masks) (i : ℕ) :
    (cmStep n b g m i).cols = unitStep g (colOf n) m.cols i := by
  unfold cmStep unitStep
  by_cases h : cell g i = 0 <;> simp [h]

theorem cmStep_boxes (n b : ℕ) (g : List ℕ) (m : Masks) (i : ℕ) :
    (cmStep n b g m i).boxes = unitStep g (boxOf n b) m.boxes i := by
  unfold cmStep unitStep
  by_cases h : cell g i = 0 <;> simp [h]

theorem foldl_cmStep_rows (n b : ℕ) (g : List ℕ) (l : List ℕ) :
    ∀ m : Masks, (l.foldl (cmStep n b g) m).rows = l.foldl (unitStep g (rowOf n)) m.rows := by
  induction l with
  | nil => intro m; rfl
  | cons a l ih => intro m; simp only [List.foldl_cons, ih, cmStep_rows]

theorem foldl_cmStep_cols (n b : ℕ) (g : List ℕ) (l : List ℕ) :
    ∀ m : Masks, (l.foldl (cmStep n b g) m).cols = l.foldl (unitStep g (colOf n)) m.cols := by
  induction l with
  | nil => intro m; rfl
  | cons a l ih => intro m; simp only [List.foldl_cons, ih, cmStep_cols]

theorem foldl_cmStep_boxes (n b : ℕ) (g : List ℕ) (l : List ℕ) :
    ∀ m : Masks, (l.foldl (cmStep n b g) m).boxes = l.foldl (unitStep g (boxOf n b)) m.boxes := by
  induction l with
  | nil => intro m; rfl
  | cons a l ih => intro m; simp only [List.foldl_cons, ih, cmStep_boxes]

theorem upd_apply (f : ℕ → ℕ) (k x j : ℕ) : upd f k x j = if j = k then x else f j := rfl

theorem unitStep_testBit (g : List ℕ) (u : ℕ → ℕ) (f : ℕ → ℕ) (i r k : ℕ) :
    ((unitStep g u f i) r).testBit k = true ↔
      ((f r).testBit k = true ∨ (u i = r ∧ cell g i ≠ 0 ∧ k = cell g i - 1)) := by
  unfold unitStep
  by_cases h0 : cell g i = 0
  · rw [if_pos h0]
    simp [h0]
  · rw [if_neg h0, upd_apply]
    by_cases hr : r = u i
    · subst hr
      rw [if_pos rfl, Nat.testBit_or, testBit_bit, Bool.or_eq_true, decide_eq_true_eq]
      constructor
      · rintro (hf | hk)
        · exact Or.inl hf
        · exact Or.inr ⟨rfl, h0, hk⟩
      · rintro (hf | ⟨_, _, hk⟩)
        · exact Or.inl hf
        · exact Or.inr hk
    · rw [if_neg hr]
      constructor
      · exact Or.inl
      · rintro (hf | ⟨hu, _, _⟩)
        · exact hf
        · exact absurd hu.symm hr

theorem foldl_unitStep_testBit (g : List ℕ) (u : ℕ → ℕ) :
    ∀ (L : ℕ) (f0 : ℕ → ℕ) (r k : ℕ),
      (((List.range L).foldl (unitStep g u) f0) r).testBit k = true ↔
        ((f0 r).testBit k = true ∨ ∃ i < L, u i = r ∧ cell g i ≠ 0 ∧ k = cell g i - 1) := by
  intro L
  induction L with
  | zero => simp
  | succ L ih =>
    intro f0 r k
    rw [List.range_succ, List.foldl_append, List.foldl_cons, List.foldl_nil,
      unitStep_testBit, ih]
    constructor
    · rintro ((hf | ⟨i, hi, hrest⟩) | ⟨hu, hc, hk⟩)
      · exact Or.inl hf
      · exact Or.inr ⟨i, by omega, hrest⟩
      · exact Or.inr ⟨L, by omega, hu, hc, hk⟩
    · rintro (hf | ⟨i, hi, hui, hci, hk⟩)
      · exact Or.inl (Or.inl hf)
      · rcases Nat.lt_succ_iff_lt_or_eq.mp hi with h | h
        · exact Or.inl (Or.inr ⟨i, h, hui, hci, hk⟩)
        · subst h; exact Or.inr ⟨hui, hci, hk⟩

theorem computeMasks_rows_testBit (n b : ℕ) (g : List ℕ) (r k : ℕ) :
    ((computeMasks n b g).rows r).testBit k = true ↔
      ∃ i < g.length, rowOf n i = r ∧ cell g i ≠ 0 ∧ k = cell g i - 1 := by
  unfold computeMasks
  rw [foldl_cmStep_rows, foldl_unitStep_testBit]
  simp [Nat.zero_testBit]

theorem computeMasks_cols_testBit (n b : ℕ) (g : List ℕ) (c k : ℕ) :
    ((computeMasks n b g).cols c).testBit k = true ↔
      ∃ i < g.length, colOf n i = c ∧ cell g i ≠ 0 ∧ k = cell g i - 1 := by
  unfold computeMasks
  rw [foldl_cmStep_cols, foldl_unitStep_testBit]
  simp [Nat.zero_testBit]

theorem computeMasks_boxes_testBit (n b : ℕ) (g : List ℕ) (x k : ℕ) :
    ((computeMasks n b g).boxes x).testBit k = true ↔
      ∃ i < g.length, boxOf n b i = x ∧ cell g i ≠ 0 ∧ k = cell g i - 1 := by
  unfold computeMasks
  rw [foldl_cmStep_boxes, foldl_unitStep_testBit]
  simp [Nat.zero_testBit]

/-- The union of the three unit masks seen from cell `i` (the `used` value
inside `candidateMask`). -/
def usedMask (n b : ℕ) (i : ℕ) (m : Masks) : ℕ :=
  m.rows (rowOf n i) ||| m.cols (colOf n i) ||| m.boxes (boxOf n b i)

theorem candidateMask_eq (n b : ℕ) (i : ℕ) (m : Masks) :
    candidateMask n b i m = fullMask n ^^^ usedMask n b i m := rfl

theorem usedMask_testBit (n b : ℕ) (g : List ℕ) (i k : ℕ) :
    (usedMask n b i (computeMasks n b g)).testBit k = true ↔
      ∃ j < g.length, sameUnit n b i j ∧ cell g j ≠ 0 ∧ k = cell g j - 1 := by
  unfold usedMask
  rw [Nat.testBit_or, Nat.testBit_or]
  rw [Bool.or_eq_true, Bool.or_eq_true]
  rw [computeMasks_rows_testBit, computeMasks_cols_testBit, computeMasks_boxes_testBit]
  unfold sameUnit
  constructor
  · rintro ((⟨j, hj, hu, hc, hk⟩ | ⟨j, hj, hu, hc, hk⟩) | ⟨j, hj, hu, hc, hk⟩)
    · exact ⟨j, hj, Or.inl hu.symm, hc, hk⟩
    · exact ⟨j, hj, Or.inr (Or.inl hu.symm), hc, hk⟩
    · exact ⟨j, hj, Or.inr (Or.inr hu.symm), hc, hk⟩
  · rintro ⟨j, hj, (hu | hu | hu), hc, hk⟩
    · exact Or.inl (Or.inl ⟨j, hj, hu.symm, hc, hk⟩)
    · exact Or.inl (Or.inr ⟨j, hj, hu.symm, hc, hk⟩)
    · exact Or.inr ⟨j, hj, hu.symm, hc, hk⟩

theorem usedMask_lt {n b : ℕ} {g : List ℕ} {i : ℕ}
    (hb : ∀ j < g.length, cell g j ≤ n) :
    usedMask n b i (computeMasks n b g) < 2 ^ n := by
  apply Nat.lt_pow_two_of_testBit
  intro k hk
  by_contra hbit
  rw [Bool.not_eq_false] at hbit
  obtain ⟨j, hj, _, hc, hkv⟩ := (usedMask_testBit n b g i k).mp hbit
  have := hb j hj
  omega

/-- Characterization of `candidateMask` over masks computed from the grid:
bit `v-1` is set exactly when no cell sharing a unit with `i` holds `v`. -/
theorem candidateMask_testBit {n b : ℕ} {g : List ℕ} {i : ℕ}
    {v : ℕ} (h1 : 1 ≤ v) (hn : v ≤ n) :
    (candidateMask n b i (computeMasks n b g)).testBit (v - 1) = true ↔
      ∀ j < g.length, sameUnit n b i j → cell g j ≠ v := by
  rw [candidateMask_eq, Nat.testBit_xor, testBit_fullMask]
  have hlt : v - 1 < n := by omega
  rw [decide_eq_true hlt]
  constructor
  · intro h j hj hu hv
    have hset : (usedMask n b i (computeMasks n b g)).testBit (v - 1) = true :=
      (usedMask_testBit n b g i (v - 1)).mpr ⟨j, hj, hu, by omega, by omega⟩
    rw [hset] at h
    simp at h
  · intro h
    have hclear : (usedMask n b i (computeMasks n b g)).testBit (v - 1) = false := by
      by_contra hbit
      rw [Bool.not_eq_false] at hbit
      obtain ⟨j, hj, hu, hc, hkv⟩ := (usedMask_testBit n b g i (v - 1)).mp hbit
      exact h j hj hu (by omega)
    rw [hclear]
    rfl

theorem candidateMask_lt {n b : ℕ} {g : List ℕ} {i : ℕ}
    (hb : ∀ j < g.length, cell g j ≤ n) :
    candidateMask n b i (computeMasks n b g) < 2 ^ n := by
  apply Nat.lt_pow_two_of_testBit
  intro k hk
  rw [candidateMask_eq, Nat.testBit_xor, testBit_fullMask]
  rw [testBit_false_of_lt_of_le (usedMask_lt hb) hk]
  simp [Nat.not_lt.mpr hk]

/-- Membership in the candidate list at an empty cell: `v` is a legal digit
exactly when `1 ≤ v ≤ n` and no cell sharing a unit with `i` already holds `v`. -/
theorem mem_candidates {n b : ℕ} {g : List ℕ} {i : ℕ} {v : ℕ} :
    v ∈ maskToDigits n (candidateMask n b i (computeMasks n b g)) ↔
      1 ≤ v ∧ v ≤ n ∧ ∀ j < g.length, sameUnit n b i j → cell g j ≠ v := by
  rw [mem_maskToDigits]
  constructor
  · rintro ⟨h1, hn, hbit⟩
    exact ⟨h1, hn, (candidateMask_testBit h1 hn).mp hbit⟩
  · rintro ⟨h1, hn, hfree⟩
    exact ⟨h1, hn, (candidateMask_testBit h1 hn).mpr hfree⟩

/- ------------------------------------------------------------------ -/
/- The space of completions and its one-cell decomposition.            -/
/- ------------------------------------------------------------------ -/

theorem mem_allFull {n : ℕ} : ∀ {L : ℕ} {h : List ℕ},
    h ∈ allFull n L ↔ h.length = L ∧ ∀ x ∈ h, 1 ≤ x ∧ x ≤ n := by
  intro L
  induction L with
  | zero =>
    intro h
    simp only [allFull, Finset.mem_singleton]
    constructor
    · rintro rfl; simp
    · rintro ⟨hlen, _⟩
      exact List.eq_nil_of_length_eq_zero hlen
  | succ L ih =>
    intro h
    simp only [allFull, Finset.mem_biUnion, Finset.mem_image, Finset.mem_Icc]
    constructor
    · rintro ⟨v, hv, t, ht, rfl⟩
      obtain ⟨hlen, hall⟩ := ih.mp ht
      refine ⟨by simp [hlen], ?_⟩
      intro x hx
      rcases List.mem_cons.mp hx with rfl | hx
      · exact hv
      · exact hall x hx
    · rintro ⟨hlen, hall⟩
      cases h with
      | nil => simp at hlen
      | cons a t =>
        refine ⟨a, hall a (by simp), t, ih.mpr ⟨by simpa using hlen, ?_⟩, rfl⟩
        intro x hx
        exact hall x (List.mem_cons_of_mem a hx)

theorem mem_completions {n b : ℕ} {p h : List ℕ} :
    h ∈ completions n b p ↔ Completes n b p h := by
  unfold completions
  rw [Finset.mem_filter]
  constructor
  · exact And.right
  · intro hc
    refine ⟨mem_allFull.mpr ⟨hc.1, ?_⟩, hc⟩
    intro x hx
    obtain ⟨i, hi, rfl⟩ := List.mem_iff_getElem.mp hx
    rw [← cell_eq_getElem h i hi]
    exact hc.2.2.1 i hi

/-- A complete consistent grid is its own unique completion. -/
theorem completions_of_complete {n b : ℕ} {g : List ℕ}
    (hvc : ValidComplete n b g) : completions n b g = {g} := by
  apply Finset.ext
  intro h
  rw [mem_completions, Finset.mem_singleton]
  constructor
  · rintro ⟨hlen, hext, _⟩
    apply List.ext_getElem hlen
    intro i hi hi'
    rw [← cell_eq_getElem h i hi, ← cell_eq_getElem g i hi']
    exact hext i hi' (by have := hvc.1 i hi'; omega)
  · rintro rfl
    exact ⟨rfl, fun i _ _ => rfl, hvc⟩

theorem nComp_of_complete {n b : ℕ} {g : List ℕ}
    (hvc : ValidComplete n b g) : nComp n b g = 1 := by
  unfold nComp
  rw [completions_of_complete hvc]
  rfl

/-- Setting an empty cell: completions of the restricted puzzle are exactly
those of the original that place `v` at `i`. -/
theorem completes_set_iff {n b : ℕ} {p h : List ℕ} {i v : ℕ}
    (hi : i < p.length) (h0 : cell p i = 0) (hv : v ≠ 0) :
    Completes n b (p.set i v) h ↔ Completes n b p h ∧ cell h i = v := by
  unfold Completes
  rw [List.length_set]
  constructor
  · rintro ⟨hlen, hext, hvc⟩
    have hhi : cell h i = v := by
      have := hext i hi (by rw [cell_set_self p i v hi]; exact hv)
      rwa [cell_set_self p i v hi] at this
    refine ⟨⟨hlen, ?_, hvc⟩, hhi⟩
    intro j hj hj0
    by_cases hij : i = j
    · subst hij; rw [hhi]; exact absurd h0 hj0
    · have := hext j hj (by rwa [cell_set_ne p v hij])
      rwa [cell_set_ne p v hij] at this
  · rintro ⟨⟨hlen, hext, hvc⟩, hhi⟩
    refine ⟨hlen, ?_, hvc⟩
    intro j hj _
    by_cases hij : i = j
    · subst hij; rw [cell_set_self p i v hi]; exact hhi
    · rw [cell_set_ne p v hij]
      by_cases hj0 : cell p j = 0
      · exfalso
        have hne : cell (p.set i v) j ≠ 0 := by assumption
        rw [cell_set_ne p v hij] at hne
        exact hne hj0
      · exact hext j hj hj0

/-- If `v` conflicts with an existing value in a unit of `i`, the restricted
puzzle has no completions. -/
theorem completions_set_empty {n b : ℕ} {p : List ℕ} {i v : ℕ}
    (hi : i < p.length) (h0 : cell p i = 0) (h1 : 1 ≤ v)
    (hconf : ∃ j < p.length, sameUnit n b i j ∧ cell p j = v) :
    completions n b (p.set i v) = ∅ := by
  apply Finset.eq_empty_of_forall_not_mem
  intro h hmem
  rw [mem_completions, completes_set_iff hi h0 (by omega)] at hmem
  obtain ⟨⟨hlen, hext, hvals, hcons⟩, hhi⟩ := hmem
  obtain ⟨j, hj, hu, hjv⟩ := hconf
  have hij : i ≠ j := fun he => by rw [he, hjv] at h0; omega
  have hhj : cell h j = v := by
    rw [hext j hj (by omega)]; exact hjv
  have := hcons i (by omega) j (by omega) hij hu (by omega)
  rw [hhi, hhj] at this
  exact this rfl

/-- Key decomposition: the completion count of a puzzle with an empty cell
`i` is the sum of the completion counts over the legal candidates at `i`. -/
theorem nComp_decompose {n b : ℕ} {p : List ℕ} {i : ℕ}
    (hi : i < p.length) (h0 : cell p i = 0) :
    nComp n b p =
      ((maskToDigits n (candidateMask n b i (computeMasks n b p))).map
        (fun v => nComp n b (p.set i v))).sum := by
  classical
  have hfib : (completions n b p).card =
      ∑ v ∈ Finset.Icc 1 n, ((completions n b p).filter (fun h => cell h i = v)).card := by
    apply Finset.card_eq_sum_card_fiberwise
    intro h hmem
    rw [mem_completions] at hmem
    have hlen : i < h.length := by rw [hmem.1]; exact hi
    have := hmem.2.2.1 i hlen
    rw [Finset.mem_Icc]
    omega
  have hfilter : ∀ v, 1 ≤ v → v ≤ n →
      ((completions n b p).filter (fun h => cell h i = v)) = completions n b (p.set i v) := by
    intro v h1 hn
    apply Finset.ext
    intro h
    rw [Finset.mem_filter, mem_completions, mem_completions,
      completes_set_iff hi h0 (by omega)]
  have hzero : ∀ v ∈ Finset.Icc 1 n,
      v ∉ maskToDigits n (candidateMask n b i (computeMasks n b p)) →
      (completions n b (p.set i v)).card = 0 := by
    intro v hv hnot
    rw [Finset.mem_Icc] at hv
    rw [mem_candidates] at hnot
    push_neg at hnot
    obtain ⟨j, hj, hu, hjv⟩ := hnot hv.1 hv.2
    rw [completions_set_empty hi h0 hv.1 ⟨j, hj, hu, hjv⟩]
    rfl
  have hsub : (maskToDigits n (candidateMask n b i (computeMasks n b p))).toFinset ⊆
      Finset.Icc 1 n := by
    intro v hv
    rw [List.mem_toFinset, mem_candidates] at hv
    rw [Finset.mem_Icc]
    exact ⟨hv.1, hv.2.1⟩
  unfold nComp
  rw [hfib]
  have h2 : ∑ v ∈ Finset.Icc 1 n, ((completions n b p).filter (fun h => cell h i = v)).card
      = ∑ v ∈ Finset.Icc 1 n, (completions n b (p.set i v)).card := by
    apply Finset.sum_congr rfl
    intro v hv
    rw [hfilter v (Finset.mem_Icc.mp hv).1 (Finset.mem_Icc.mp hv).2]
  rw [h2]
  rw [← Finset.sum_subset hsub
    (fun v hv hnot => hzero v hv (fun hmem => hnot (List.mem_toFinset.mpr hmem)))]
  rw [List.sum_toFinset _ (nodup_maskToDigits _ _)]

/- ------------------------------------------------------------------ -/
/- The backtracking search core (`solveBacktrackingCore`).             -/
/- ------------------------------------------------------------------ -/

/-- Mutable state of one `solveBacktrackingCore` call: the working grid,
the three masks, the two counters, the first solution found, and the
counter indexing the `shuffled` oracle (JavaScript's global RNG). -/
structure BtState where
  g : List ℕ
  m : Masks
  solutions : ℕ
  nodes : ℕ
  solvedOnce : Option (List ℕ)
  rng : ℕ

/-- The return statement closing `selectMRV`: recompute the candidate mask
of the best cell, or report no cell (`bestIdx === -1`). -/
def selectFinish (n b : ℕ) (m : Masks) : Option ℕ → Option ℕ × ℕ × ℕ
  | none => (none, 0, 0)
  | some j => (some j, candidateMask n b j m, popcount (candidateMask n b j m))

/-- The scan loop of `selectMRV` in `solveBacktrackingCore` (also the one in
`generateFullSolution`, which scans its `order` list instead of `empties`):
skip filled cells, return a zero-candidate cell at once, track the cell with
the fewest candidates, and stop as soon as the tracked minimum is `1`. -/
def selectScan (n b : ℕ) (g : List ℕ) (m : Masks) :
    List ℕ → Option ℕ → ℕ → Option ℕ × ℕ × ℕ
  | [], best, _ => selectFinish n b m best
  | i :: rest, best, bestCnt =>
    if cell g i ≠ 0 then selectScan n b g m rest best bestCnt
    else
      let cm := candidateMask n b i m
      let cnt := popcount cm
      if cnt = 0 then (some i, cm, 0)
      else
        let best' := if cnt < bestCnt then some i else best
        let bestCnt' := if cnt < bestCnt then cnt else bestCnt
        if bestCnt' = 1 then selectFinish n b m best'
        else selectScan n b g m rest best' bestCnt'

/-- `selectMRV()` from `solveBacktrackingCore`: scan the entry-time list of
empty cells, `bestCount` starting at `1e9`. -/
def selectMRV (n b : ℕ) (empties : List ℕ) (g : List ℕ) (m : Masks) :
    Option ℕ × ℕ × ℕ :=
  selectScan n b g m empties none 1000000000

/-- `assign(i, v)`: write `v` into the grid and OR its bit into the three
unit masks. -/
def assign (n b i v : ℕ) (g : List ℕ) (m : Masks) : List ℕ × Masks :=
  (g.set i v,
    ⟨upd m.rows (rowOf n i) (m.rows (rowOf n i) ||| bit v),
     upd m.cols (colOf n i) (m.cols (colOf n i) ||| bit v),
     upd m.boxes (boxOf n b i) (m.boxes (boxOf n b i) ||| bit v)⟩)

/-- `a & ~b` on masks: clear from `a` every bit set in `b` (same function
as `Nat.ldiff`, spelled with xor/and). -/
def andNot (a b : ℕ) : ℕ := a ^^^ (a &&& b)

theorem testBit_andNot (a b k : ℕ) :
    (andNot a b).testBit k = (a.testBit k && !(b.testBit k)) := by
  unfold andNot
  rw [Nat.testBit_xor, Nat.testBit_and]
  cases a.testBit k <;> cases b.testBit k <;> rfl

/-- `unassign(i, v)`: clear the grid cell and AND-NOT the bit out of the
three unit masks (JavaScript `mask &= ~b`). -/
def unassign (n b i v : ℕ) (g : List ℕ) (m : Masks) : List ℕ × Masks :=
  (g.set i 0,
    ⟨upd m.rows (rowOf n i) (andNot (m.rows (rowOf n i)) (bit v)),
     upd m.cols (colOf n i) (andNot (m.cols (colOf n i)) (bit v)),
     upd m.boxes (boxOf n b i) (andNot (m.boxes (boxOf n b i)) (bit v))⟩)

/-- The `for` loop over the shuffled candidates inside `bt()`: assign, count
a node, recurse through `next`, and unassign on failure.  `next` is the
recursive call one fuel level down. -/
def btLoop (n b : ℕ) (next : BtState → Option (Bool × BtState)) (i : ℕ) :
    List ℕ → BtState → Option (Bool × BtState)
  | [], s => some (false, s)
  | v :: rest, s =>
    let a := assign n b i v s.g s.m
    let s1 : BtState := { s with g := a.1, m := a.2, nodes := s.nodes + 1 }
    match next s1 with
    | none => none
    | some (true, s2) => some (true, s2)
    | some (false, s2) =>
      let u := unassign n b i v s2.g s2.m
      btLoop n b next i rest { s2 with g := u.1, m := u.2 }

/-- The recursive `bt()` of `solveBacktrackingCore`.  The source recursion
always terminates (at most one frame per empty cell); the embedding makes
that explicit with a fuel parameter that callers set above the empty-cell
count, and `bt_some` below proves the fuel never runs out. -/
def bt (n b : ℕ) (countOnly : Bool) (maxSolutions : ℕ) (σ : ℕ → List ℕ → List ℕ)
    (empties : List ℕ) : ℕ → BtState → Option (Bool × BtState)
  | 0, _ => none
  | fuel + 1, s =>
    if s.g.all (· != 0) then
      let sols := s.solutions + 1
      let so := if !countOnly && s.solvedOnce.isNone then some s.g else s.solvedOnce
      some ((countOnly && decide (maxSolutions ≤ sols)) || !countOnly,
        { s with solutions := sols, solvedOnce := so })
    else
      match selectMRV n b empties s.g s.m with
      | (none, _, _) => some (false, s)
      | (some i, cm, cnt) =>
        if cnt = 0 then some (false, s)
        else
          let cand := σ s.rng (maskToDigits n cm)
          btLoop n b (bt n b countOnly maxSolutions σ empties fuel) i cand
            { s with rng := s.rng + 1 }

/-- Result record of `solveBacktrackingCore`. -/
structure SolveResult where
  solved : Bool
  solution : Option (List ℕ)
  solutionsCount : ℕ
  nodes : ℕ

/-- `solveBacktrackingCore(puzzle, N, B, opts)`: copy the puzzle, compute
masks and the empty-cell list, run `bt`, and package the result.  Returns
the result together with the advanced RNG counter. -/
def solveBacktrackingCore (n b : ℕ) (σ : ℕ → List ℕ → List ℕ) (t : ℕ)
    (puzzle : List ℕ) (countOnly wantMetrics : Bool) (maxSolutions : ℕ) :
    SolveResult × ℕ :=
  let g := puzzle
  let m := computeMasks n b g
  let empties := (List.range g.length).filter fun i => cell g i == 0
  let s0 : BtState := ⟨g, m, 0, 0, none, t⟩
  match bt n b countOnly maxSolutions σ empties (countZeros g + 1) s0 with
  | none => (⟨false, none, 0, 0⟩, t)
  | some (_, s) =>
    (⟨decide (0 < s.solutions), s.solvedOnce, s.solutions,
      if wantMetrics then s.nodes else 0⟩, s.rng)

/-- `solveBacktracking(p, N, B, countOnly)` (the public wrapper). -/
def solveBacktracking (n b : ℕ) (σ : ℕ → List ℕ → List ℕ) (t : ℕ)
    (p : List ℕ) (countOnly : Bool) : SolveResult × ℕ :=
  solveBacktrackingCore n b σ t p countOnly false 2

/-- `solveBacktrackingWithMetrics(p, N, B)`: first-solution mode with node
counting. -/
def solveBacktrackingWithMetrics (n b : ℕ) (σ : ℕ → List ℕ → List ℕ) (t : ℕ)
    (p : List ℕ) : SolveResult × ℕ :=
  solveBacktrackingCore n b σ t p false true 1

/-- `hasUniqueSolution(p, N, B)`: count with cutoff 2 and compare with 1. -/
def hasUniqueSolution (n b : ℕ) (σ : ℕ → List ℕ → List ℕ) (t : ℕ)
    (p : List ℕ) : Bool × ℕ :=
  let r := solveBacktrackingCore n b σ t p true false 2
  (decide (r.1.solutionsCount = 1), r.2)

/- ------------------------------------------------------------------ -/
/- Mask maintenance: paired assign/unassign agrees with recomputation. -/
/- ------------------------------------------------------------------ -/

theorem bool_eq_of_iff {a b : Bool} (h : a = true ↔ b = true) : a = b := by
  cases a <;> cases b <;> simp_all

theorem Masks.ext_fields {m1 m2 : Masks} (hr : m1.rows = m2.rows)
    (hc : m1.cols = m2.cols) (hx : m1.boxes = m2.boxes) : m1 = m2 := by
  cases m1; cases m2; simp_all

theorem sameUnit_refl (n b i : ℕ) : sameUnit n b i i := Or.inl rfl

theorem sameUnit_symm {n b i j : ℕ} (h : sameUnit n b i j) : sameUnit n b j i := by
  rcases h with h | h | h
  · exact Or.inl h.symm
  · exact Or.inr (Or.inl h.symm)
  · exact Or.inr (Or.inr h.symm)

theorem all_ne_zero_iff (g : List ℕ) :
    g.all (· != 0) = true ↔ ∀ i < g.length, cell g i ≠ 0 := by
  rw [List.all_eq_true]
  constructor
  · intro h i hi
    have := h (g[i]) (List.getElem_mem hi)
    rw [cell_eq_getElem g i hi]
    simpa using this
  · intro h x hx
    obtain ⟨i, hi, rfl⟩ := List.mem_iff_getElem.mp hx
    have := h i hi
    rw [cell_eq_getElem g i hi] at this
    simpa using this

theorem popcount_le_of_lt {m n : ℕ} (h : m < 2 ^ n) : popcount m ≤ n := by
  rw [popcount_eq_countP n m h]
  calc (List.range n).countP (m.testBit ·) ≤ (List.range n).length :=
        List.countP_le_length _
  _ = n := List.length_range n

theorem lor_ldiff_bit {x v : ℕ} (h : x.testBit (v - 1) = false) :
    andNot (x ||| bit v) (bit v) = x := by
  apply Nat.eq_of_testBit_eq
  intro k
  rw [testBit_andNot, Nat.testBit_or, testBit_bit]
  by_cases hk : k = v - 1
  · subst hk; simp [h]
  · simp [hk]

theorem used_clear_of_candidate {n b : ℕ} {m : Masks} {i v : ℕ}
    (hn : v ≤ n) (h1 : 1 ≤ v)
    (hv : (candidateMask n b i m).testBit (v - 1) = true) :
    (m.rows (rowOf n i)).testBit (v - 1) = false ∧
      (m.cols (colOf n i)).testBit (v - 1) = false ∧
      (m.boxes (boxOf n b i)).testBit (v - 1) = false := by
  rw [candidateMask_eq, Nat.testBit_xor, testBit_fullMask] at hv
  have hlt : v - 1 < n := by omega
  rw [decide_eq_true hlt] at hv
  have hused : (usedMask n b i m).testBit (v - 1) = false := by
    cases h : (usedMask n b i m).testBit (v - 1)
    · rfl
    · rw [h] at hv; simp at hv
  unfold usedMask at hused
  rw [Nat.testBit_or, Nat.testBit_or] at hused
  simp only [Bool.or_eq_false_iff] at hused
  exact ⟨hused.1.1, hused.1.2, hused.2⟩

/-- Incremental update agrees with wholesale recomputation: `assign` at an
empty cell yields exactly `computeMasks` of the updated grid. -/
theorem assign_masks_eq {n b : ℕ} {g : List ℕ} {i v : ℕ}
    (hi : i < g.length) (h0 : cell g i = 0) (h1 : 1 ≤ v) :
    (assign n b i v g (computeMasks n b g)).2 = computeMasks n b (g.set i v) := by
  have hcell : ∀ j, cell (g.set i v) j = if i = j ∧ i < g.length then v else cell g j :=
    fun j => cell_set g i j v
  apply Masks.ext_fields
  · funext r
    apply Nat.eq_of_testBit_eq
    intro k
    apply bool_eq_of_iff
    show (upd (computeMasks n b g).rows (rowOf n i)
      ((computeMasks n b g).rows (rowOf n i) ||| bit v) r).testBit k = true ↔ _
    rw [upd_apply]
    rw [computeMasks_rows_testBit]
    by_cases hr : r = rowOf n i
    · subst hr
      rw [if_pos rfl, Nat.testBit_or, testBit_bit, Bool.or_eq_true,
        computeMasks_rows_testBit, decide_eq_true_eq]
      constructor
      · rintro (⟨j, hj, hrj, hc, hk⟩ | hk)
        · refine ⟨j, by simpa using hj, hrj, ?_, ?_⟩
          · rw [hcell j]
            split_ifs with hij
            · omega
            · exact hc
          · rw [hcell j]
            split_ifs with hij
            · obtain ⟨he, _⟩ := hij
              rw [← he] at hc
              exact absurd h0 hc
            · exact hk
        · refine ⟨i, by simpa using hi, rfl, ?_, ?_⟩
          · rw [hcell i, if_pos ⟨rfl, hi⟩]; omega
          · rw [hcell i, if_pos ⟨rfl, hi⟩]; exact hk
      · rintro ⟨j, hj, hrj, hc, hk⟩
        rw [List.length_set] at hj
        rw [hcell j] at hc hk
        by_cases hij : i = j ∧ i < g.length
        · rw [if_pos hij] at hk
          exact Or.inr hk
        · rw [if_neg hij] at hc hk
          exact Or.inl ⟨j, hj, hrj, hc, hk⟩
    · rw [if_neg hr, computeMasks_rows_testBit]
      constructor
      · rintro ⟨j, hj, hrj, hc, hk⟩
        refine ⟨j, by simpa using hj, hrj, ?_, ?_⟩
        · rw [hcell j]
          split_ifs with hij
          · omega
          · exact hc
        · rw [hcell j]
          split_ifs with hij
          · obtain ⟨he, _⟩ := hij
            rw [← he] at hc
            exact absurd h0 hc
          · exact hk
      · rintro ⟨j, hj, hrj, hc, hk⟩
        rw [List.length_set] at hj
        rw [hcell j] at hc hk
        by_cases hij : i = j ∧ i < g.length
        · exfalso
          obtain ⟨he, _⟩ := hij
          subst he
          exact hr hrj.symm
        · rw [if_neg hij] at hc hk
          exact ⟨j, hj, hrj, hc, hk⟩
  · funext c
    apply Nat.eq_of_testBit_eq
    intro k
    apply bool_eq_of_iff
    show (upd (computeMasks n b g).cols (colOf n i)
      ((computeMasks n b g).cols (colOf n i) ||| bit v) c).testBit k = true ↔ _
    rw [upd_apply]
    rw [computeMasks_cols_testBit]
    by_cases hr : c = colOf n i
    · subst hr
      rw [if_pos rfl, Nat.testBit_or, testBit_bit, Bool.or_eq_true,
        computeMasks_cols_testBit, decide_eq_true_eq]
      constructor
      · rintro (⟨j, hj, hrj, hc, hk⟩ | hk)
        · refine ⟨j, by simpa using hj, hrj, ?_, ?_⟩
          · rw [hcell j]
            split_ifs with hij
            · omega
            · exact hc
          · rw [hcell j]
            split_ifs with hij
            · obtain ⟨he, _⟩ := hij
              rw [← he] at hc
              exact absurd h0 hc
            · exact hk
        · refine ⟨i, by simpa using hi, rfl, ?_, ?_⟩
          · rw [hcell i, if_pos ⟨rfl, hi⟩]; omega
          · rw [hcell i, if_pos ⟨rfl, hi⟩]; exact hk
      · rintro ⟨j, hj, hrj, hc, hk⟩
        rw [List.length_set] at hj
        rw [hcell j] at hc hk
        by_cases hij : i = j ∧ i < g.length
        · rw [if_pos hij] at hk
          exact Or.inr hk
        · rw [if_neg hij] at hc hk
          exact Or.inl ⟨j, hj, hrj, hc, hk⟩
    · rw [if_neg hr, computeMasks_cols_testBit]
      constructor
      · rintro ⟨j, hj, hrj, hc, hk⟩
        refine ⟨j, by simpa using hj, hrj, ?_, ?_⟩
        · rw [hcell j]
          split_ifs with hij
          · omega
          · exact hc
        · rw [hcell j]
          split_ifs with hij
          · obtain ⟨he, _⟩ := hij
            rw [← he] at hc
            exact absurd h0 hc
          · exact hk
      · rintro ⟨j, hj, hrj, hc, hk⟩
        rw [List.length_set] at hj
        rw [hcell j] at hc hk
        by_cases hij : i = j ∧ i < g.length
        · exfalso
          obtain ⟨he, _⟩ := hij
          subst he
          exact hr hrj.symm
        · rw [if_neg hij] at hc hk
          exact ⟨j, hj, hrj, hc, hk⟩
  · funext x
    apply Nat.eq_of_testBit_eq
    intro k
    apply bool_eq_of_iff
    show (upd (computeMasks n b g).boxes (boxOf n b i)
      ((computeMasks n b g).boxes (boxOf n b i) ||| bit v) x).testBit k = true ↔ _
    rw [upd_apply]
    rw [computeMasks_boxes_testBit]
    by_cases hr : x = boxOf n b i
    · subst hr
      rw [if_pos rfl, Nat.testBit_or, testBit_bit, Bool.or_eq_true,
        computeMasks_boxes_testBit, decide_eq_true_eq]
      constructor
      · rintro (⟨j, hj, hrj, hc, hk⟩ | hk)
        · refine ⟨j, by simpa using hj, hrj, ?_, ?_⟩
          · rw [hcell j]
            split_ifs with hij
            · omega
            · exact hc
          · rw [hcell j]
            split_ifs with hij
            · obtain ⟨he, _⟩ := hij
              rw [← he] at hc
              exact absurd h0 hc
            · exact hk
        · refine ⟨i, by simpa using hi, rfl, ?_, ?_⟩
          · rw [hcell i, if_pos ⟨rfl, hi⟩]; omega
          · rw [hcell i, if_pos ⟨rfl, hi⟩]; exact hk
      · rintro ⟨j, hj, hrj, hc, hk⟩
        rw [List.length_set] at hj
        rw [hcell j] at hc hk
        by_cases hij : i = j ∧ i < g.length
        · rw [if_pos hij] at hk
          exact Or.inr hk
        · rw [if_neg hij] at hc hk
          exact Or.inl ⟨j, hj, hrj, hc, hk⟩
    · rw [if_neg hr, computeMasks_boxes_testBit]
      constructor
      · rintro ⟨j, hj, hrj, hc, hk⟩
        refine ⟨j, by simpa using hj, hrj, ?_, ?_⟩
        · rw [hcell j]
          split_ifs with hij
          · omega
          · exact hc
        · rw [hcell j]
          split_ifs with hij
          · obtain ⟨he, _⟩ := hij
            rw [← he] at hc
            exact absurd h0 hc
          · exact hk
      · rintro ⟨j, hj, hrj, hc, hk⟩
        rw [List.length_set] at hj
        rw [hcell j] at hc hk
        by_cases hij : i = j ∧ i < g.length
        · exfalso
          obtain ⟨he, _⟩ := hij
          subst he
          exact hr hrj.symm
        · rw [if_neg hij] at hc hk
          exact ⟨j, hj, hrj, hc, hk⟩

/-- Paired operations cancel: `unassign` after `assign` of a legal digit at an
empty cell restores the grid and the three masks exactly. -/
theorem unassign_assign {n b : ℕ} {g : List ℕ} {m : Masks} {i v : ℕ}
    (h0 : cell g i = 0)
    (hr : (m.rows (rowOf n i)).testBit (v - 1) = false)
    (hc : (m.cols (colOf n i)).testBit (v - 1) = false)
    (hx : (m.boxes (boxOf n b i)).testBit (v - 1) = false) :
    unassign n b i v (assign n b i v g m).1 (assign n b i v g m).2 = (g, m) := by
  unfold assign unassign
  simp only
  refine Prod.ext ?_ ?_
  · show (g.set i v).set i 0 = g
    rw [List.set_set]
    exact set_zero_of_cell_zero g i h0
  · apply Masks.ext_fields
    · funext j
      show upd (upd m.rows (rowOf n i) (m.rows (rowOf n i) ||| bit v)) (rowOf n i)
        (andNot (upd m.rows (rowOf n i) (m.rows (rowOf n i) ||| bit v) (rowOf n i))
          (bit v)) j = m.rows j
      rw [upd_apply, upd_apply, upd_apply, if_pos rfl]
      by_cases hj : j = rowOf n i
      · rw [if_pos hj, lor_ldiff_bit hr, hj]
      · rw [if_neg hj, if_neg hj]
    · funext j
      show upd (upd m.cols (colOf n i) (m.cols (colOf n i) ||| bit v)) (colOf n i)
        (andNot (upd m.cols (colOf n i) (m.cols (colOf n i) ||| bit v) (colOf n i))
          (bit v)) j = m.cols j
      rw [upd_apply, upd_apply, upd_apply, if_pos rfl]
      by_cases hj : j = colOf n i
      · rw [if_pos hj, lor_ldiff_bit hc, hj]
      · rw [if_neg hj, if_neg hj]
    · funext j
      show upd (upd m.boxes (boxOf n b i) (m.boxes (boxOf n b i) ||| bit v)) (boxOf n b i)
        (andNot (upd m.boxes (boxOf n b i) (m.boxes (boxOf n b i) ||| bit v) (boxOf n b i))
          (bit v)) j = m.boxes j
      rw [upd_apply, upd_apply, upd_apply, if_pos rfl]
      by_cases hj : j = boxOf n b i
      · rw [if_pos hj, lor_ldiff_bit hx, hj]
      · rw [if_neg hj, if_neg hj]

/-- Consistency is preserved by writing a legal candidate into an empty cell. -/
theorem consistent_set {n b : ℕ} {g : List ℕ} {i v : ℕ}
    (hcons : Consistent n b g)
    (hfree : ∀ j < g.length, sameUnit n b i j → cell g j ≠ v) :
    Consistent n b (g.set i v) := by
  intro a ha c hcM hne hsu hnz
  rw [List.length_set] at ha hcM
  rw [cell_set g i a v] at hnz ⊢
  rw [cell_set g i c v]
  by_cases hia : i = a ∧ i < g.length
  · rw [if_pos hia] at hnz ⊢
    by_cases hic : i = c ∧ i < g.length
    · exfalso; obtain ⟨h1', _⟩ := hia; obtain ⟨h2', _⟩ := hic; exact hne (h1' ▸ h2')
    · rw [if_neg hic]
      obtain ⟨he, _⟩ := hia
      subst he
      exact fun heq => hfree c hcM hsu heq.symm
  · rw [if_neg hia] at hnz ⊢
    by_cases hic : i = c ∧ i < g.length
    · rw [if_pos hic]
      obtain ⟨he, _⟩ := hic
      subst he
      intro heq
      exact hfree a ha (sameUnit_symm hsu) heq
    · rw [if_neg hic]
      exact hcons a ha c hcM hne hsu hnz

theorem bounds_set {n : ℕ} {g : List ℕ} {i v : ℕ}
    (hb : ∀ j < g.length, cell g j ≤ n) (hv : v ≤ n) :
    ∀ j < (g.set i v).length, cell (g.set i v) j ≤ n := by
  intro j hj
  rw [List.length_set] at hj
  rw [cell_set g i j v]
  split_ifs with h
  · exact hv
  · exact hb j hj

/- ------------------------------------------------------------------ -/
/- Soundness of the MRV scan.                                          -/
/- ------------------------------------------------------------------ -/

theorem selectFinish_some {n b : ℕ} {m : Masks} {best : Option ℕ} {i cm cnt : ℕ}
    (h : selectFinish n b m best = (some i, cm, cnt)) :
    best = some i ∧ cm = candidateMask n b i m ∧ cnt = popcount cm := by
  cases best with
  | none => simp [selectFinish] at h
  | some j =>
    simp only [selectFinish, Prod.mk.injEq, Option.some.injEq] at h
    obtain ⟨rfl, rfl, h3⟩ := h
    exact ⟨rfl, rfl, h3.symm⟩

theorem selectFinish_none {n b : ℕ} {m : Masks} {best : Option ℕ} {cm cnt : ℕ}
    (h : selectFinish n b m best = (none, cm, cnt)) : best = none := by
  cases best with
  | none => rfl
  | some j => simp [selectFinish] at h

/-- Any cell returned by the scan is an empty cell from the scanned list (or
the tracked best), and the returned mask and count are its candidate data. -/
theorem selectScan_some {n b : ℕ} {g : List ℕ} {m : Masks} {P : ℕ → Prop} :
    ∀ (l : List ℕ) (best : Option ℕ) (bestCnt : ℕ) {i : ℕ} {cm cnt : ℕ},
      (∀ j ∈ l, P j) → (∀ j, best = some j → P j ∧ cell g j = 0) →
      selectScan n b g m l best bestCnt = (some i, cm, cnt) →
      P i ∧ cell g i = 0 ∧ cm = candidateMask n b i m ∧ cnt = popcount cm := by
  intro l
  induction l with
  | nil =>
    intro best bestCnt i cm cnt _ hbest h
    obtain ⟨hb, hcm, hcnt⟩ := selectFinish_some h
    obtain ⟨hP, h0⟩ := hbest i hb
    exact ⟨hP, h0, hcm, hcnt⟩
  | cons a l ih =>
    intro best bestCnt i cm cnt hl hbest h
    rw [selectScan] at h
    by_cases ha : cell g a ≠ 0
    · rw [if_pos ha] at h
      exact ih best bestCnt (fun j hj => hl j (List.mem_cons_of_mem a hj)) hbest h
    · rw [if_neg ha] at h
      push_neg at ha
      simp only at h
      by_cases hz : popcount (candidateMask n b a m) = 0
      · rw [if_pos hz] at h
        simp only [Prod.mk.injEq, Option.some.injEq] at h
        obtain ⟨rfl, rfl, rfl⟩ := h
        exact ⟨hl a (by simp), ha, rfl, hz.symm⟩
      · rw [if_neg hz] at h
        by_cases hone :
            (if popcount (candidateMask n b a m) < bestCnt
              then popcount (candidateMask n b a m) else bestCnt) = 1
        · rw [if_pos hone] at h
          obtain ⟨hb, hcm, hcnt⟩ := selectFinish_some h
          by_cases hlt : popcount (candidateMask n b a m) < bestCnt
          · rw [if_pos hlt] at hb
            cases Option.some.injEq .. ▸ hb
            exact ⟨hl a (by simp), ha, hcm, hcnt⟩
          · rw [if_neg hlt] at hb
            obtain ⟨hP, h0⟩ := hbest i hb
            exact ⟨hP, h0, hcm, hcnt⟩
        · rw [if_neg hone] at h
          refine ih _ _ (fun j hj => hl j (List.mem_cons_of_mem a hj)) ?_ h
          intro j hj
          by_cases hlt : popcount (candidateMask n b a m) < bestCnt
          · rw [if_pos hlt] at hj
            cases Option.some.injEq .. ▸ hj
            exact ⟨hl a (by simp), ha⟩
          · rw [if_neg hlt] at hj
            exact hbest j hj

/-- If the scan reports no cell, every scanned cell is filled (given that an
empty tracked minimum can only improve: fresh scans start at `1e9`). -/
theorem selectScan_none {n b : ℕ} {g : List ℕ} {m : Masks} :
    ∀ (l : List ℕ) (best : Option ℕ) (bestCnt : ℕ) {cm cnt : ℕ},
      (best = none → ∀ j, popcount (candidateMask n b j m) < bestCnt) →
      selectScan n b g m l best bestCnt = (none, cm, cnt) →
      best = none ∧ ∀ j ∈ l, cell g j ≠ 0 := by
  intro l
  induction l with
  | nil =>
    intro best bestCnt cm cnt _ h
    exact ⟨selectFinish_none h, by simp⟩
  | cons a l ih =>
    intro best bestCnt cm cnt hcap h
    rw [selectScan] at h
    by_cases ha : cell g a ≠ 0
    · rw [if_pos ha] at h
      obtain ⟨hb, hrest⟩ := ih best bestCnt hcap h
      refine ⟨hb, ?_⟩
      intro j hj
      rcases List.mem_cons.mp hj with rfl | hj
      · exact ha
      · exact hrest j hj
    · rw [if_neg ha] at h
      push_neg at ha
      simp only at h
      by_cases hz : popcount (candidateMask n b a m) = 0
      · rw [if_pos hz] at h
        simp at h
      · rw [if_neg hz] at h
        by_cases hone :
            (if popcount (candidateMask n b a m) < bestCnt
              then popcount (candidateMask n b a m) else bestCnt) = 1
        · rw [if_pos hone] at h
          have hb' := selectFinish_none h
          by_cases hlt : popcount (candidateMask n b a m) < bestCnt
          · rw [if_pos hlt] at hb'
            exact absurd hb' (by simp)
          · rw [if_neg hlt] at hb'
            exact absurd hlt (by simp [hcap hb' a])
        · rw [if_neg hone] at h
          have hcap' : (if popcount (candidateMask n b a m) < bestCnt
              then some a else best) = none →
              ∀ j, popcount (candidateMask n b j m) <
                (if popcount (candidateMask n b a m) < bestCnt
                  then popcount (candidateMask n b a m) else bestCnt) := by
            intro hb'
            by_cases hlt : popcount (candidateMask n b a m) < bestCnt
            · rw [if_pos hlt] at hb'
              exact absurd hb' (by simp)
            · rw [if_neg hlt] at hb'
              exact absurd hlt (by simp [hcap hb' a])
          obtain ⟨hb, _⟩ := ih _ _ hcap' h
          by_cases hlt : popcount (candidateMask n b a m) < bestCnt
          · rw [if_pos hlt] at hb
            exact absurd hb (by simp)
          · rw [if_neg hlt] at hb
            exact absurd hlt (by simp [hcap hb a])

/- ------------------------------------------------------------------ -/
/- Counting-mode correctness of the search.                            -/
/- ------------------------------------------------------------------ -/

/-- Invariant threaded through `bt`: masks agree with the grid, values are
in range, the grid is consistent, and the entry-time empty list `E` covers
every currently empty cell. -/
def Inv (n b : ℕ) (E : List ℕ) (s : BtState) : Prop :=
  s.m = computeMasks n b s.g ∧
  (∀ j < s.g.length, cell s.g j ≤ n) ∧
  Consistent n b s.g ∧
  (∀ j ∈ E, j < s.g.length) ∧
  (∀ j < s.g.length, cell s.g j = 0 → j ∈ E)

theorem inv_assign {n b : ℕ} {E : List ℕ} {s : BtState} {i v : ℕ}
    (hinv : Inv n b E s) (h0 : cell s.g i = 0) (hi : i < s.g.length)
    (hv : v ∈ maskToDigits n (candidateMask n b i s.m)) :
    Inv n b E { s with
      g := (assign n b i v s.g s.m).1, m := (assign n b i v s.g s.m).2,
      nodes := s.nodes + 1 } := by
  obtain ⟨hm, hb, hcons, hEb, hEz⟩ := hinv
  rw [hm] at hv
  obtain ⟨h1, hn, hfree⟩ := mem_candidates.mp hv
  have hg1 : (assign n b i v s.g s.m).1 = s.g.set i v := rfl
  refine ⟨?_, ?_, ?_, ?_, ?_⟩
  · show (assign n b i v s.g s.m).2 = computeMasks n b (assign n b i v s.g s.m).1
    rw [hg1, hm]
    exact assign_masks_eq hi h0 h1
  · show ∀ j < (s.g.set i v).length, cell (s.g.set i v) j ≤ n
    exact bounds_set hb hn
  · exact consistent_set hcons hfree
  · show ∀ j ∈ E, j < (s.g.set i v).length
    intro j hj
    rw [List.length_set]
    exact hEb j hj
  · show ∀ j < (s.g.set i v).length, cell (s.g.set i v) j = 0 → j ∈ E
    intro j hj hz
    rw [List.length_set] at hj
    rw [cell_set s.g i j v] at hz
    by_cases hij : i = j ∧ i < s.g.length
    · rw [if_pos hij] at hz; omega
    · rw [if_neg hij] at hz
      exact hEz j hj hz

/-- Reduction of one iteration of the candidate loop (the `let`s of the
source inlined). -/
theorem btLoop_cons (n b : ℕ) (next : BtState → Option (Bool × BtState))
    (i v : ℕ) (rest : List ℕ) (s : BtState) :
    btLoop n b next i (v :: rest) s =
      (match next { s with
          g := (assign n b i v s.g s.m).1
          m := (assign n b i v s.g s.m).2
          nodes := s.nodes + 1 } with
      | none => none
      | some (true, s2) => some (true, s2)
      | some (false, s2) =>
        btLoop n b next i rest { s2 with
          g := (unassign n b i v s2.g s2.m).1
          m := (unassign n b i v s2.g s2.m).2 }) := rfl

theorem inv_congr {n b : ℕ} {E : List ℕ} {s s' : BtState}
    (hg : s'.g = s.g) (hm' : s'.m = s.m) (h : Inv n b E s) : Inv n b E s' := by
  obtain ⟨h1, h2, h3, h4, h5⟩ := h
  exact ⟨by rw [hg, hm', h1], by rw [hg]; exact h2, by rw [hg]; exact h3,
    by rw [hg]; exact h4, by rw [hg]; exact h5⟩

/-- Counting semantics of the candidate loop: the solution counter advances
by the completion counts of the candidate branches, clamped at the cutoff,
and grid and masks are restored whenever the loop reports failure. -/
theorem btLoopCount_spec {n b maxS fuel : ℕ} {E : List ℕ}
    {next : BtState → Option (Bool × BtState)}
    (Hnext : ∀ s1 : BtState, countZeros s1.g < fuel → Inv n b E s1 →
      s1.solutions < maxS →
      ∃ s2, next s1 = some (decide (maxS ≤ s2.solutions), s2) ∧
        s2.solutions = min (s1.solutions + nComp n b s1.g) maxS ∧
        (¬ maxS ≤ s2.solutions → s2.g = s1.g ∧ s2.m = s1.m)) :
    ∀ (cand : List ℕ) (s : BtState) (i : ℕ),
      Inv n b E s → s.solutions < maxS → cell s.g i = 0 → i < s.g.length →
      countZeros s.g ≤ fuel →
      (∀ v ∈ cand, v ∈ maskToDigits n (candidateMask n b i s.m)) →
      ∃ s', btLoop n b next i cand s = some (decide (maxS ≤ s'.solutions), s') ∧
        s'.solutions = min (s.solutions +
          (cand.map fun v => nComp n b (s.g.set i v)).sum) maxS ∧
        (¬ maxS ≤ s'.solutions → s'.g = s.g ∧ s'.m = s.m) := by
  intro cand
  induction cand with
  | nil =>
    intro s i hinv hsol h0 hi hfuel _
    refine ⟨s, ?_, ?_, fun _ => ⟨rfl, rfl⟩⟩
    · rw [btLoop, decide_eq_false (by omega)]
    · simp
      omega
  | cons v rest ih =>
    intro s i hinv hsol h0 hi hfuel hcand
    have hv := hcand v (by simp)
    obtain ⟨h1, hn, hbit⟩ := mem_maskToDigits.mp hv
    have hzpos : 0 < countZeros s.g := (countZeros_pos_iff s.g).mpr ⟨i, hi, h0⟩
    have hzdec : countZeros (s.g.set i v) + 1 = countZeros s.g :=
      countZeros_set s.g i v hi h0 (by omega)
    have hs1g : (assign n b i v s.g s.m).1 = s.g.set i v := rfl
    have hinv1 : Inv n b E { s with
        g := (assign n b i v s.g s.m).1
        m := (assign n b i v s.g s.m).2
        nodes := s.nodes + 1 } :=
      inv_assign hinv h0 hi hv
    obtain ⟨s2, hnext, hsol2, hrest2⟩ := Hnext _
      (by show countZeros (assign n b i v s.g s.m).1 < fuel; rw [hs1g]; omega)
      hinv1 (by show s.solutions < maxS; exact hsol)
    simp only [hs1g] at hsol2 hrest2
    by_cases hms : maxS ≤ s2.solutions
    · refine ⟨s2, ?_, ?_, fun hc => absurd hms hc⟩
      · rw [btLoop_cons, hnext, decide_eq_true hms]
      · simp only [List.map_cons, List.sum_cons]
        omega
    · obtain ⟨hg2, hm2⟩ := hrest2 hms
      have hclear := used_clear_of_candidate hn h1 hbit
      have hu : unassign n b i v s2.g s2.m = (s.g, s.m) := by
        rw [hg2, hm2, ← hs1g]
        exact unassign_assign h0 hclear.1 hclear.2.1 hclear.2.2
      have hu1 : (unassign n b i v s2.g s2.m).1 = s.g := by rw [hu]
      have hu2 : (unassign n b i v s2.g s2.m).2 = s.m := by rw [hu]
      obtain ⟨s', hloop, hsol', hrest'⟩ := ih
        { s2 with
          g := (unassign n b i v s2.g s2.m).1
          m := (unassign n b i v s2.g s2.m).2 } i
        (inv_congr hu1 hu2 hinv)
        (by show s2.solutions < maxS; omega)
        (by show cell (unassign n b i v s2.g s2.m).1 i = 0; rw [hu1]; exact h0)
        (by show i < (unassign n b i v s2.g s2.m).1.length; rw [hu1]; exact hi)
        (by show countZeros (unassign n b i v s2.g s2.m).1 ≤ fuel; rw [hu1]; exact hfuel)
        (by intro w hw
            show w ∈ maskToDigits n (candidateMask n b i
              (unassign n b i v s2.g s2.m).2)
            rw [hu2]
            exact hcand w (List.mem_cons_of_mem v hw))
      simp only [hu1] at hsol'
      refine ⟨s', ?_, ?_, ?_⟩
      · rw [btLoop_cons, hnext, decide_eq_false hms]
        exact hloop
      · rw [hsol']
        simp only [List.map_cons, List.sum_cons]
        omega
      · intro hc
        obtain ⟨hg', hm'2⟩ := hrest' hc
        constructor
        · rw [hg']; exact hu1
        · rw [hm'2]; exact hu2

/-- Counting-mode main lemma: `bt` with `countOnly = true` advances the
solution counter by exactly the number of valid completions of the current
grid, clamped at `maxSolutions`, returning `true` exactly when the cutoff
was reached, and restoring grid and masks whenever it returns `false`. -/
theorem btCount_spec {n b maxS : ℕ} {σ : ℕ → List ℕ → List ℕ} {E : List ℕ}
    (Hperm : ∀ t l, (σ t l).Perm l) (hsent : n < 1000000000) :
    ∀ (fuel : ℕ) (s : BtState), countZeros s.g < fuel → Inv n b E s →
      s.solutions < maxS →
      ∃ s', bt n b true maxS σ E fuel s = some (decide (maxS ≤ s'.solutions), s') ∧
        s'.solutions = min (s.solutions + nComp n b s.g) maxS ∧
        (¬ maxS ≤ s'.solutions → s'.g = s.g ∧ s'.m = s.m) := by
  intro fuel
  induction fuel with
  | zero => intro s hz; omega
  | succ fuel ih =>
    intro s hz hinv hsol
    obtain ⟨hm, hb, hcons, hEb, hEz⟩ := hinv
    rw [bt]
    by_cases hall : s.g.all (· != 0) = true
    · rw [if_pos hall]
      have hcomplete : ∀ i < s.g.length, cell s.g i ≠ 0 := (all_ne_zero_iff s.g).mp hall
      have hvc : ValidComplete n b s.g := by
        refine ⟨?_, hcons⟩
        intro i hi
        have := hb i hi
        have := hcomplete i hi
        omega
      have hnc : nComp n b s.g = 1 := nComp_of_complete hvc
      refine ⟨{ s with
        solutions := s.solutions + 1
        solvedOnce := if !true && s.solvedOnce.isNone then some s.g
          else s.solvedOnce }, ?_, ?_, ?_⟩
      · simp only [Bool.true_and, Bool.not_true, Bool.or_false, Bool.false_and,
          Bool.if_false_left]
      · simp only
        rw [hnc]
        omega
      · intro hc
        exact ⟨rfl, rfl⟩
    · rw [if_neg hall]
      rcases hsel : selectMRV n b E s.g s.m with ⟨oi, cm, cnt⟩
      cases oi with
      | none =>
        exfalso
        have hcap : (none : Option ℕ) = none →
            ∀ j, popcount (candidateMask n b j s.m) < 1000000000 := by
          intro _ j
          have hlt : candidateMask n b j s.m < 2 ^ n := by
            rw [hm]; exact candidateMask_lt hb
          have := popcount_le_of_lt hlt
          omega
        obtain ⟨_, hfilled⟩ := selectScan_none E none 1000000000 hcap hsel
        rw [all_ne_zero_iff] at hall
        push_neg at hall
        obtain ⟨j, hj, hjz⟩ := hall
        exact hfilled j (hEz j hj hjz) hjz
      | some i =>
        obtain ⟨hiE, h0, hcm, hcnt⟩ := selectScan_some (P := (· ∈ E)) E none 1000000000
          (fun j hj => hj) (by simp) hsel
        have hi : i < s.g.length := hEb i hiE
        by_cases hz0 : cnt = 0
        · subst hz0
          have hmask0 : maskToDigits n cm = [] := by
            rw [hcm, hm]
            apply maskToDigits_nil_of_popcount_zero (candidateMask_lt hb)
            rw [← hm, ← hcm, ← hcnt]
          have hnc : nComp n b s.g = 0 := by
            have hdec := nComp_decompose (n := n) (b := b) (p := s.g) hi h0
            rw [← hm, ← hcm] at hdec
            rw [hdec, hmask0]
            simp
          refine ⟨s, ?_, ?_, fun _ => ⟨rfl, rfl⟩⟩
          · show (if (0 : ℕ) = 0 then some (false, s)
              else btLoop n b (bt n b true maxS σ E fuel) i
                (σ s.rng (maskToDigits n cm)) { s with rng := s.rng + 1 }) =
              some (decide (maxS ≤ s.solutions), s)
            rw [if_pos rfl, decide_eq_false (by omega)]
          · rw [hnc]; omega
        · have hperm := Hperm s.rng (maskToDigits n cm)
          have hloopspec := @btLoopCount_spec n b maxS fuel E
            (bt n b true maxS σ E fuel) ih
          obtain ⟨s', hloop, hsol', hrest'⟩ := hloopspec
            (σ s.rng (maskToDigits n cm)) { s with rng := s.rng + 1 } i
            ⟨hm, hb, hcons, hEb, hEz⟩ hsol h0 hi
            (by show countZeros s.g ≤ fuel; omega)
            (by intro w hw
                show w ∈ maskToDigits n (candidateMask n b i s.m)
                rw [← hcm]
                exact hperm.mem_iff.mp hw)
          refine ⟨s', ?_, ?_, hrest'⟩
          · show (if cnt = 0 then some (false, s)
              else btLoop n b (bt n b true maxS σ E fuel) i
                (σ s.rng (maskToDigits n cm)) { s with rng := s.rng + 1 }) =
              some (decide (maxS ≤ s'.solutions), s')
            rw [if_neg hz0]
            exact hloop
          · rw [hsol']
            have hsum : ((σ s.rng (maskToDigits n cm)).map
                fun v => nComp n b (s.g.set i v)).sum =
                ((maskToDigits n cm).map fun v => nComp n b (s.g.set i v)).sum :=
              (hperm.map _).sum_eq
            rw [hsum]
            have hdec := nComp_decompose (n := n) (b := b) hi h0
            rw [← hm, ← hcm] at hdec
            rw [← hdec]

/- ------------------------------------------------------------------ -/
/- Entry-point counting corollaries.                                   -/
/- ------------------------------------------------------------------ -/

/-- The entry-time empty-cell list of `solveBacktrackingCore`. -/
def emptiesOf (p : List ℕ) : List ℕ :=
  (List.range p.length).filter fun i => cell p i == 0

theorem mem_emptiesOf {p : List ℕ} {j : ℕ} :
    j ∈ emptiesOf p ↔ j < p.length ∧ cell p j = 0 := by
  unfold emptiesOf
  rw [List.mem_filter, List.mem_range]
  simp

theorem inv_entry {n b : ℕ} {p : List ℕ} {t : ℕ}
    (hb : ∀ j < p.length, cell p j ≤ n) (hcons : Consistent n b p) :
    Inv n b (emptiesOf p) ⟨p, computeMasks n b p, 0, 0, none, t⟩ := by
  refine ⟨rfl, hb, hcons, ?_, ?_⟩
  · intro j hj
    exact (mem_emptiesOf.mp hj).1
  · intro j hj hz
    exact mem_emptiesOf.mpr ⟨hj, hz⟩

/-- Counting-mode semantics of `solveBacktrackingCore` on a consistent
puzzle: the reported count is the true completion count clamped at the
cutoff. -/
theorem countSolutions_eq {n b maxS : ℕ} {σ : ℕ → List ℕ → List ℕ} {t : ℕ}
    {p : List ℕ} (Hperm : ∀ t' l, (σ t' l).Perm l) (hsent : n < 1000000000)
    (hb : ∀ j < p.length, cell p j ≤ n) (hcons : Consistent n b p)
    (hmax : 1 ≤ maxS) (wantMetrics : Bool) :
    (solveBacktrackingCore n b σ t p true wantMetrics maxS).1.solutionsCount =
      min (nComp n b p) maxS := by
  obtain ⟨s', hbt, hsol, _⟩ := btCount_spec
    (E := (List.range p.length).filter fun i => cell p i == 0) Hperm hsent
    (countZeros p + 1) ⟨p, computeMasks n b p, 0, 0, none, t⟩
    (by show countZeros p < countZeros p + 1; omega) (inv_entry hb hcons)
    (by show (0 : ℕ) < maxS; omega)
  simp only [solveBacktrackingCore]
  rw [hbt]
  simpa using hsol

/-- `hasUniqueSolution` decides `nComp = 1` on consistent puzzles. -/
theorem hasUniqueSolution_iff {n b : ℕ} {σ : ℕ → List ℕ → List ℕ} {t : ℕ}
    {p : List ℕ} (Hperm : ∀ t' l, (σ t' l).Perm l) (hsent : n < 1000000000)
    (hb : ∀ j < p.length, cell p j ≤ n) (hcons : Consistent n b p) :
    (hasUniqueSolution n b σ t p).1 = true ↔ nComp n b p = 1 := by
  unfold hasUniqueSolution
  simp only [decide_eq_true_eq]
  rw [countSolutions_eq Hperm hsent hb hcons (by omega) false]
  omega

/- ------------------------------------------------------------------ -/
/- The cutoff cap holds on all inputs, consistent or not.              -/
/- ------------------------------------------------------------------ -/

theorem btLoopCap {n b maxS : ℕ} {next : BtState → Option (Bool × BtState)}
    (Hnext : ∀ (s1 : BtState) (r : Bool) (s2 : BtState), s1.solutions < maxS →
      next s1 = some (r, s2) → s2.solutions ≤ maxS ∧ (r = false → s2.solutions < maxS)) :
    ∀ (cand : List ℕ) (s : BtState) (i : ℕ) (r : Bool) (s' : BtState),
      s.solutions < maxS → btLoop n b next i cand s = some (r, s') →
      s'.solutions ≤ maxS ∧ (r = false → s'.solutions < maxS) := by
  intro cand
  induction cand with
  | nil =>
    intro s i r s' hsol h
    rw [btLoop] at h
    simp only [Option.some.injEq, Prod.mk.injEq] at h
    obtain ⟨rfl, rfl⟩ := h
    exact ⟨by omega, fun _ => hsol⟩
  | cons v rest ih =>
    intro s i r s' hsol h
    rw [btLoop_cons] at h
    rcases hnext : next { s with
        g := (assign n b i v s.g s.m).1
        m := (assign n b i v s.g s.m).2
        nodes := s.nodes + 1 } with _ | ⟨r2, s2⟩
    · rw [hnext] at h; simp at h
    · rw [hnext] at h
      have hcap2 := Hnext _ r2 s2 (by show s.solutions < maxS; exact hsol) hnext
      cases r2 with
      | true =>
        simp only [Option.some.injEq, Prod.mk.injEq] at h
        obtain ⟨rfl, rfl⟩ := h
        exact ⟨hcap2.1, by simp⟩
      | false =>
        exact ih _ i r s' (by show s2.solutions < maxS; exact hcap2.2 rfl) h

theorem btCap {n b maxS : ℕ} {σ : ℕ → List ℕ → List ℕ} {E : List ℕ} :
    ∀ (fuel : ℕ) (s : BtState) (r : Bool) (s' : BtState), s.solutions < maxS →
      bt n b true maxS σ E fuel s = some (r, s') →
      s'.solutions ≤ maxS ∧ (r = false → s'.solutions < maxS) := by
  intro fuel
  induction fuel with
  | zero => intro s r s' _ h; rw [bt] at h; simp at h
  | succ fuel ih =>
    intro s r s' hsol h
    rw [bt] at h
    by_cases hall : s.g.all (· != 0) = true
    · rw [if_pos hall] at h
      simp only [Bool.true_and, Bool.not_true, Bool.or_false, Bool.false_and,
        Bool.if_false_left, Option.some.injEq, Prod.mk.injEq] at h
      obtain ⟨rfl, rfl⟩ := h
      constructor
      · simp only
        omega
      · intro hr
        simp only
        simp only [decide_eq_false_iff_not] at hr
        omega
    · rw [if_neg hall] at h
      rcases hsel : selectMRV n b E s.g s.m with ⟨oi, cm, cnt⟩
      rw [hsel] at h
      cases oi with
      | none =>
        have h' : some (false, s) = some (r, s') := h
        simp only [Option.some.injEq, Prod.mk.injEq] at h'
        obtain ⟨rfl, rfl⟩ := h'
        exact ⟨by omega, fun _ => hsol⟩
      | some i =>
        have h' : (if cnt = 0 then some (false, s)
            else btLoop n b (bt n b true maxS σ E fuel) i
              (σ s.rng (maskToDigits n cm)) { s with rng := s.rng + 1 }) =
            some (r, s') := h
        by_cases hz0 : cnt = 0
        · rw [if_pos hz0] at h'
          simp only [Option.some.injEq, Prod.mk.injEq] at h'
          obtain ⟨rfl, rfl⟩ := h'
          exact ⟨by omega, fun _ => hsol⟩
        · rw [if_neg hz0] at h'
          exact btLoopCap (fun s1 r1 s2 h1 h2 => ih s1 r1 s2 h1 h2) _ _ i r s'
            (by show s.solutions < maxS; exact hsol) h'

/-- The reported count never exceeds the cutoff, on every input grid. -/
theorem solutionsCount_le {n b maxS : ℕ} {σ : ℕ → List ℕ → List ℕ} {t : ℕ}
    {p : List ℕ} (wantMetrics : Bool) (hmax : 1 ≤ maxS) :
    (solveBacktrackingCore n b σ t p true wantMetrics maxS).1.solutionsCount ≤ maxS := by
  rcases hbt : bt n b true maxS σ
      ((List.range p.length).filter fun i => cell p i == 0) (countZeros p + 1)
      ⟨p, computeMasks n b p, 0, 0, none, t⟩ with _ | ⟨r, s'⟩
  · simp only [solveBacktrackingCore]
    rw [hbt]
    simp
  · have hc := btCap (countZeros p + 1) _ r s' (by show (0 : ℕ) < maxS; omega) hbt
    simp only [solveBacktrackingCore]
    rw [hbt]
    exact hc.1

/- ------------------------------------------------------------------ -/
/- Termination: the fuel never runs out and extra fuel is irrelevant.  -/
/- ------------------------------------------------------------------ -/

theorem btLoopTerm {n b Z : ℕ} {E : List ℕ}
    {next next' : BtState → Option (Bool × BtState)}
    (Hnext : ∀ s1 : BtState, countZeros s1.g + 1 = Z → (∀ j ∈ E, j < s1.g.length) →
      ∃ r s2, next s1 = some (r, s2) ∧ (r = false → s2.g = s1.g) ∧
        s2.g.length = s1.g.length)
    (Hcong : ∀ s1 : BtState, countZeros s1.g + 1 = Z → (∀ j ∈ E, j < s1.g.length) →
      next' s1 = next s1) :
    ∀ (cand : List ℕ) (s : BtState) (i : ℕ),
      (∀ v ∈ cand, v ≠ 0) → cell s.g i = 0 → i < s.g.length →
      countZeros s.g = Z → (∀ j ∈ E, j < s.g.length) →
      (∃ r s', btLoop n b next i cand s = some (r, s') ∧ (r = false → s'.g = s.g) ∧
        s'.g.length = s.g.length) ∧
      btLoop n b next' i cand s = btLoop n b next i cand s := by
  intro cand
  induction cand with
  | nil =>
    intro s i _ h0 hi hZ hEb
    exact ⟨⟨false, s, by rw [btLoop], fun _ => rfl, rfl⟩, rfl⟩
  | cons v rest ih =>
    intro s i hv h0 hi hZ hEb
    have hvne : v ≠ 0 := hv v (by simp)
    have hzdec : countZeros (s.g.set i v) + 1 = countZeros s.g :=
      countZeros_set s.g i v hi h0 hvne
    have hs1g : (assign n b i v s.g s.m).1 = s.g.set i v := rfl
    have hz1 : countZeros (assign n b i v s.g s.m).1 + 1 = Z := by
      rw [hs1g]; omega
    have hEb1 : ∀ j ∈ E, j < (assign n b i v s.g s.m).1.length := by
      intro j hj
      rw [hs1g, List.length_set]
      exact hEb j hj
    obtain ⟨r2, s2, hnext, hres2, hlen2⟩ := Hnext { s with
        g := (assign n b i v s.g s.m).1
        m := (assign n b i v s.g s.m).2
        nodes := s.nodes + 1 } hz1 hEb1
    have hcong1 := Hcong { s with
        g := (assign n b i v s.g s.m).1
        m := (assign n b i v s.g s.m).2
        nodes := s.nodes + 1 } hz1 hEb1
    cases r2 with
    | true =>
      refine ⟨⟨true, s2, ?_, by simp, ?_⟩, ?_⟩
      · rw [btLoop_cons, hnext]
      · show s2.g.length = s.g.length
        rw [hlen2]
        show (assign n b i v s.g s.m).1.length = s.g.length
        rw [hs1g, List.length_set]
      · rw [btLoop_cons, btLoop_cons, hcong1, hnext]
    | false =>
      have hg2 : s2.g = s.g.set i v := hres2 rfl
      have hu1 : (unassign n b i v s2.g s2.m).1 = s.g := by
        show s2.g.set i 0 = s.g
        rw [hg2, List.set_set]
        exact set_zero_of_cell_zero s.g i h0
      obtain ⟨⟨r', s', hloop, hres', hlen'⟩, hcong'⟩ := ih
        { s2 with
          g := (unassign n b i v s2.g s2.m).1
          m := (unassign n b i v s2.g s2.m).2 } i
        (fun w hw => hv w (List.mem_cons_of_mem v hw))
        (by show cell (unassign n b i v s2.g s2.m).1 i = 0; rw [hu1]; exact h0)
        (by show i < (unassign n b i v s2.g s2.m).1.length; rw [hu1]; exact hi)
        (by show countZeros (unassign n b i v s2.g s2.m).1 = Z; rw [hu1]; exact hZ)
        (by intro j hj
            show j < (unassign n b i v s2.g s2.m).1.length
            rw [hu1]
            exact hEb j hj)
      refine ⟨⟨r', s', ?_, ?_, ?_⟩, ?_⟩
      · rw [btLoop_cons, hnext]
        exact hloop
      · intro hr
        rw [hres' hr]
        exact hu1
      · rw [hlen']
        show (unassign n b i v s2.g s2.m).1.length = s.g.length
        rw [hu1]
      · rw [btLoop_cons, btLoop_cons, hcong1, hnext]
        exact hcong'

/-- The search always returns within `countZeros + 1` fuel, restores the
grid on failure, and is insensitive to the exact fuel once sufficient:
the recursion genuinely terminates with depth bounded by the number of
empty cells. -/
theorem btTerm {n b : ℕ} {co : Bool} {maxS : ℕ} {σ : ℕ → List ℕ → List ℕ}
    {E : List ℕ} (Hperm : ∀ t l, (σ t l).Perm l) :
    ∀ (fuel : ℕ) (s : BtState), countZeros s.g < fuel →
      (∀ j ∈ E, j < s.g.length) →
      (∃ r s', bt n b co maxS σ E fuel s = some (r, s') ∧
        (r = false → s'.g = s.g) ∧ s'.g.length = s.g.length) ∧
      (∀ fuel', countZeros s.g < fuel' →
        bt n b co maxS σ E fuel' s = bt n b co maxS σ E fuel s) := by
  intro fuel
  induction fuel with
  | zero => intro s hz; omega
  | succ fuel ih =>
    intro s hz hEb
    by_cases hall : s.g.all (· != 0) = true
    · constructor
      · refine ⟨(co && decide (maxS ≤ s.solutions + 1)) || !co,
          { s with
            solutions := s.solutions + 1
            solvedOnce := if (!co && s.solvedOnce.isNone) = true then some s.g
              else s.solvedOnce }, ?_, fun _ => rfl, rfl⟩
        rw [bt, if_pos hall]
      · intro fuel' hz'
        cases fuel' with
        | zero => omega
        | succ fuel'' => rw [bt, if_pos hall, bt, if_pos hall]
    · rcases hsel : selectMRV n b E s.g s.m with ⟨oi, cm, cnt⟩
      cases oi with
      | none =>
        constructor
        · refine ⟨false, s, ?_, fun _ => rfl, rfl⟩
          rw [bt, if_neg hall, hsel]
        · intro fuel' hz'
          cases fuel' with
          | zero => omega
          | succ fuel'' => rw [bt, if_neg hall, hsel, bt, if_neg hall, hsel]
      | some i =>
        obtain ⟨hiE, h0, hcm, hcnt⟩ := selectScan_some (P := (· ∈ E)) E none
          1000000000 (fun j hj => hj) (by simp) hsel
        have hi : i < s.g.length := hEb i hiE
        by_cases hz0 : cnt = 0
        · subst hz0
          constructor
          · refine ⟨false, s, ?_, fun _ => rfl, rfl⟩
            rw [bt, if_neg hall, hsel]
            show (if (0 : ℕ) = 0 then some (false, s)
              else btLoop n b (bt n b co maxS σ E fuel) i
                (σ s.rng (maskToDigits n cm)) { s with rng := s.rng + 1 }) =
              some (false, s)
            rw [if_pos rfl]
          · intro fuel' hz'
            cases fuel' with
            | zero => omega
            | succ fuel'' =>
              rw [bt, if_neg hall, hsel, bt, if_neg hall, hsel]
              show (if (0 : ℕ) = 0 then some (false, s)
                else btLoop n b (bt n b co maxS σ E fuel'') i
                  (σ s.rng (maskToDigits n cm)) { s with rng := s.rng + 1 }) =
                (if (0 : ℕ) = 0 then some (false, s)
                else btLoop n b (bt n b co maxS σ E fuel) i
                  (σ s.rng (maskToDigits n cm)) { s with rng := s.rng + 1 })
              rw [if_pos rfl]
              rw [if_pos rfl]
        · have hzpos : 0 < countZeros s.g := (countZeros_pos_iff s.g).mpr ⟨i, hi, h0⟩
          have hvne : ∀ v ∈ σ s.rng (maskToDigits n cm), v ≠ 0 := by
            intro v hv
            have := (Hperm s.rng (maskToDigits n cm)).mem_iff.mp hv
            obtain ⟨h1, _, _⟩ := mem_maskToDigits.mp this
            omega
          have Hnext : ∀ s1 : BtState, countZeros s1.g + 1 = countZeros s.g →
              (∀ j ∈ E, j < s1.g.length) →
              ∃ r s2, bt n b co maxS σ E fuel s1 = some (r, s2) ∧
                (r = false → s2.g = s1.g) ∧ s2.g.length = s1.g.length := by
            intro s1 hz1 hEb1
            exact (ih s1 (by omega) hEb1).1
          have hmain := @btLoopTerm n b (countZeros s.g) E
            (bt n b co maxS σ E fuel) (bt n b co maxS σ E fuel)
            Hnext (fun _ _ _ => rfl) (σ s.rng (maskToDigits n cm))
            { s with rng := s.rng + 1 } i hvne
            (by show cell s.g i = 0; exact h0)
            (by show i < s.g.length; exact hi)
            (by show countZeros s.g = countZeros s.g; rfl)
            (by intro j hj; show j < s.g.length; exact hEb j hj)
          constructor
          · obtain ⟨r, s', hloop, hres, hlen⟩ := hmain.1
            refine ⟨r, s', ?_, hres, hlen⟩
            rw [bt, if_neg hall, hsel]
            show (if cnt = 0 then some (false, s)
              else btLoop n b (bt n b co maxS σ E fuel) i
                (σ s.rng (maskToDigits n cm)) { s with rng := s.rng + 1 }) =
              some (r, s')
            rw [if_neg hz0]
            exact hloop
          · intro fuel' hz'
            cases fuel' with
            | zero => omega
            | succ fuel'' =>
              rw [bt, if_neg hall, hsel, bt, if_neg hall, hsel]
              show (if cnt = 0 then some (false, s)
                else btLoop n b (bt n b co maxS σ E fuel'') i
                  (σ s.rng (maskToDigits n cm)) { s with rng := s.rng + 1 }) =
                (if cnt = 0 then some (false, s)
                else btLoop n b (bt n b co maxS σ E fuel) i
                  (σ s.rng (maskToDigits n cm)) { s with rng := s.rng + 1 })
              rw [if_neg hz0, if_neg hz0]
              have Hcong : ∀ s1 : BtState, countZeros s1.g + 1 = countZeros s.g →
                  (∀ j ∈ E, j < s1.g.length) →
                  bt n b co maxS σ E fuel'' s1 = bt n b co maxS σ E fuel s1 := by
                intro s1 hz1 hEb1
                exact (ih s1 (by omega) hEb1).2 fuel'' (by omega)
              have hcong := @btLoopTerm n b (countZeros s.g) E
                (bt n b co maxS σ E fuel) (bt n b co maxS σ E fuel'')
                Hnext Hcong
                (σ s.rng (maskToDigits n cm)) { s with rng := s.rng + 1 } i hvne
                (by show cell s.g i = 0; exact h0)
                (by show i < s.g.length; exact hi)
                (by show countZeros s.g = countZeros s.g; rfl)
                (by intro j hj; show j < s.g.length; exact hEb j hj)
              exact hcong.2

/- ------------------------------------------------------------------ -/
/- The full-grid generator (`generateFullSolution`).                   -/
/- ------------------------------------------------------------------ -/

/-- State of the generator's search: grid, masks and the RNG counter. -/
structure GState where
  g : List ℕ
  m : Masks
  rng : ℕ

/-- The candidate loop inside `generateFullSolution`'s `bt()` (no node or
solution counters there). -/
def genBtLoop (n b : ℕ) (next : GState → Option (Bool × GState)) (i : ℕ) :
    List ℕ → GState → Option (Bool × GState)
  | [], s => some (false, s)
  | v :: rest, s =>
    let a := assign n b i v s.g s.m
    match next { s with g := a.1, m := a.2 } with
    | none => none
    | some (true, s2) => some (true, s2)
    | some (false, s2) =>
      let u := unassign n b i v s2.g s2.m
      genBtLoop n b next i rest { s2 with g := u.1, m := u.2 }

/-- The recursive `bt()` of `generateFullSolution`: selectMRV over the
shuffled fill `order` (its scan stores the best cell's mask, which equals
the recomputation done here since masks do not change during a scan);
`pick.i === -1` means the grid is full. -/
def genBt (n b : ℕ) (σ : ℕ → List ℕ → List ℕ) (order : List ℕ) :
    ℕ → GState → Option (Bool × GState)
  | 0, _ => none
  | fuel + 1, s =>
    match selectMRV n b order s.g s.m with
    | (none, _, _) => some (true, s)
    | (some i, cm, cnt) =>
      if cnt = 0 then some (false, s)
      else
        let cand := σ s.rng (maskToDigits n cm)
        genBtLoop n b (genBt n b σ order fuel) i cand { s with rng := s.rng + 1 }

/-- `generateFullSolution(N, B)`: run the generator search from the empty
grid with freshly zeroed masks and a shuffled fill order. -/
def generateFullSolution (n b : ℕ) (σ : ℕ → List ℕ → List ℕ) (t : ℕ) :
    List ℕ × ℕ :=
  let g := List.replicate (n * n) 0
  let order := σ t (List.range (n * n))
  match genBt n b σ order (countZeros g + 1) ⟨g, ⟨fun _ => 0, fun _ => 0, fun _ => 0⟩, t + 1⟩ with
  | none => (g, t + 1)
  | some (_, s) => (s.g, s.rng)

theorem genBtLoop_cons (n b : ℕ) (next : GState → Option (Bool × GState))
    (i v : ℕ) (rest : List ℕ) (s : GState) :
    genBtLoop n b next i (v :: rest) s =
      (match next { s with
          g := (assign n b i v s.g s.m).1
          m := (assign n b i v s.g s.m).2 } with
      | none => none
      | some (true, s2) => some (true, s2)
      | some (false, s2) =>
        genBtLoop n b next i rest { s2 with
          g := (unassign n b i v s2.g s2.m).1
          m := (unassign n b i v s2.g s2.m).2 }) := rfl

/-- Generator-search invariant. -/
def GInv (n b : ℕ) (order : List ℕ) (s : GState) : Prop :=
  s.m = computeMasks n b s.g ∧
  (∀ j < s.g.length, cell s.g j ≤ n) ∧
  Consistent n b s.g ∧
  (∀ j ∈ order, j < s.g.length) ∧
  (∀ j < s.g.length, cell s.g j = 0 → j ∈ order)

theorem ginv_assign {n b : ℕ} {order : List ℕ} {s : GState} {i v : ℕ}
    (hinv : GInv n b order s) (h0 : cell s.g i = 0) (hi : i < s.g.length)
    (hv : v ∈ maskToDigits n (candidateMask n b i s.m)) :
    GInv n b order { s with
      g := (assign n b i v s.g s.m).1, m := (assign n b i v s.g s.m).2 } := by
  obtain ⟨hm, hb, hcons, hEb, hEz⟩ := hinv
  rw [hm] at hv
  obtain ⟨h1, hn, hfree⟩ := mem_candidates.mp hv
  refine ⟨?_, ?_, ?_, ?_, ?_⟩
  · show (assign n b i v s.g s.m).2 = computeMasks n b (assign n b i v s.g s.m).1
    show (assign n b i v s.g s.m).2 = computeMasks n b (s.g.set i v)
    rw [hm]
    exact assign_masks_eq hi h0 h1
  · show ∀ j < (s.g.set i v).length, cell (s.g.set i v) j ≤ n
    exact bounds_set hb hn
  · exact consistent_set hcons hfree
  · show ∀ j ∈ order, j < (s.g.set i v).length
    intro j hj
    rw [List.length_set]
    exact hEb j hj
  · show ∀ j < (s.g.set i v).length, cell (s.g.set i v) j = 0 → j ∈ order
    intro j hj hz
    rw [List.length_set] at hj
    rw [cell_set s.g i j v] at hz
    by_cases hij : i = j ∧ i < s.g.length
    · rw [if_pos hij] at hz; omega
    · rw [if_neg hij] at hz
      exact hEz j hj hz

theorem ginv_congr {n b : ℕ} {order : List ℕ} {s' : GState} {s : GState}
    (hg : s'.g = s.g) (hm' : s'.m = s.m) (h : GInv n b order s) :
    GInv n b order s' := by
  obtain ⟨h1, h2, h3, h4, h5⟩ := h
  exact ⟨by rw [hg, hm', h1], by rw [hg]; exact h2, by rw [hg]; exact h3,
    by rw [hg]; exact h4, by rw [hg]; exact h5⟩

/-- First-solution semantics of the generator's candidate loop. -/
theorem genBtLoop_spec {n b fuel : ℕ} {order : List ℕ}
    {next : GState → Option (Bool × GState)}
    (Hnext : ∀ s1 : GState, countZeros s1.g < fuel → GInv n b order s1 →
      ∃ r s2, next s1 = some (r, s2) ∧
        (r = true → Completes n b s1.g s2.g) ∧
        (r = false → s2.g = s1.g ∧ s2.m = s1.m ∧ nComp n b s1.g = 0)) :
    ∀ (cand : List ℕ) (s : GState) (i : ℕ),
      GInv n b order s → cell s.g i = 0 → i < s.g.length →
      countZeros s.g ≤ fuel →
      (∀ v ∈ cand, v ∈ maskToDigits n (candidateMask n b i s.m)) →
      ∃ r s', genBtLoop n b next i cand s = some (r, s') ∧
        (r = true → Completes n b s.g s'.g) ∧
        (r = false → s'.g = s.g ∧ s'.m = s.m ∧
          (cand.map fun v => nComp n b (s.g.set i v)).sum = 0) := by
  intro cand
  induction cand with
  | nil =>
    intro s i hinv h0 hi hfuel _
    exact ⟨false, s, by rw [genBtLoop], by simp, fun _ => ⟨rfl, rfl, by simp⟩⟩
  | cons v rest ih =>
    intro s i hinv h0 hi hfuel hcand
    have hv := hcand v (by simp)
    obtain ⟨h1, hn, hbit⟩ := mem_maskToDigits.mp hv
    have hzpos : 0 < countZeros s.g := (countZeros_pos_iff s.g).mpr ⟨i, hi, h0⟩
    have hzdec : countZeros (s.g.set i v) + 1 = countZeros s.g :=
      countZeros_set s.g i v hi h0 (by omega)
    have hs1g : (assign n b i v s.g s.m).1 = s.g.set i v := rfl
    have hinv1 : GInv n b order { s with
        g := (assign n b i v s.g s.m).1
        m := (assign n b i v s.g s.m).2 } :=
      ginv_assign hinv h0 hi hv
    obtain ⟨r2, s2, hnext, hcomp2, hres2⟩ := Hnext _
      (by show countZeros (assign n b i v s.g s.m).1 < fuel; rw [hs1g]; omega) hinv1
    cases r2 with
    | true =>
      refine ⟨true, s2, ?_, ?_, by simp⟩
      · rw [genBtLoop_cons, hnext]
      · intro _
        have hc := hcomp2 rfl
        show Completes n b s.g s2.g
        have : Completes n b (s.g.set i v) s2.g := hc
        exact ((completes_set_iff hi h0 (by omega)).mp this).1
    | false =>
      obtain ⟨hg2, hm2, hnc2⟩ := hres2 rfl
      have hg2' : s2.g = (assign n b i v s.g s.m).1 := hg2
      have hm2' : s2.m = (assign n b i v s.g s.m).2 := hm2
      have hnc2' : nComp n b (s.g.set i v) = 0 := by
        rw [← hs1g]
        exact hnc2
      have hclear := used_clear_of_candidate hn h1 hbit
      have hu : unassign n b i v s2.g s2.m = (s.g, s.m) := by
        rw [hg2', hm2']
        exact unassign_assign h0 hclear.1 hclear.2.1 hclear.2.2
      have hu1 : (unassign n b i v s2.g s2.m).1 = s.g := by rw [hu]
      have hu2 : (unassign n b i v s2.g s2.m).2 = s.m := by rw [hu]
      have hinv3 : GInv n b order { s2 with
          g := (unassign n b i v s2.g s2.m).1
          m := (unassign n b i v s2.g s2.m).2 } :=
        ginv_congr hu1 hu2 hinv
      obtain ⟨r', s', hloop, hcomp', hres'⟩ := ih
        { s2 with
          g := (unassign n b i v s2.g s2.m).1
          m := (unassign n b i v s2.g s2.m).2 } i hinv3
        (by show cell (unassign n b i v s2.g s2.m).1 i = 0; rw [hu1]; exact h0)
        (by show i < (unassign n b i v s2.g s2.m).1.length; rw [hu1]; exact hi)
        (by show countZeros (unassign n b i v s2.g s2.m).1 ≤ fuel; rw [hu1]; exact hfuel)
        (by intro w hw
            show w ∈ maskToDigits n (candidateMask n b i (unassign n b i v s2.g s2.m).2)
            rw [hu2]
            exact hcand w (List.mem_cons_of_mem v hw))
      refine ⟨r', s', ?_, ?_, ?_⟩
      · rw [genBtLoop_cons, hnext]
        exact hloop
      · intro hr
        have := hcomp' hr
        show Completes n b s.g s'.g
        have heq : ({ s2 with
            g := (unassign n b i v s2.g s2.m).1
            m := (unassign n b i v s2.g s2.m).2 } : GState).g = s.g := hu1
        rw [heq] at this
        exact this
      · intro hr
        obtain ⟨hg', hm', hsum'⟩ := hres' hr
        refine ⟨by rw [hg']; exact hu1, by rw [hm']; exact hu2, ?_⟩
        simp only [List.map_cons, List.sum_cons]
        have heq : ({ s2 with
            g := (unassign n b i v s2.g s2.m).1
            m := (unassign n b i v s2.g s2.m).2 } : GState).g = s.g := hu1
        rw [heq] at hsum'
        omega

/-- First-solution semantics of the generator search: success yields a grid
completing the current one; failure restores the state and certifies that no
completion exists. -/
theorem genBt_spec {n b : ℕ} {σ : ℕ → List ℕ → List ℕ} {order : List ℕ}
    (Hperm : ∀ t l, (σ t l).Perm l) (hsent : n < 1000000000) :
    ∀ (fuel : ℕ) (s : GState), countZeros s.g < fuel → GInv n b order s →
      ∃ r s', genBt n b σ order fuel s = some (r, s') ∧
        (r = true → Completes n b s.g s'.g) ∧
        (r = false → s'.g = s.g ∧ s'.m = s.m ∧ nComp n b s.g = 0) := by
  intro fuel
  induction fuel with
  | zero => intro s hz; omega
  | succ fuel ih =>
    intro s hz hinv
    obtain ⟨hm, hb, hcons, hEb, hEz⟩ := hinv
    rw [genBt]
    rcases hsel : selectMRV n b order s.g s.m with ⟨oi, cm, cnt⟩
    cases oi with
    | none =>
      have hcap : (none : Option ℕ) = none →
          ∀ j, popcount (candidateMask n b j s.m) < 1000000000 := by
        intro _ j
        have hlt : candidateMask n b j s.m < 2 ^ n := by
          rw [hm]; exact candidateMask_lt hb
        have := popcount_le_of_lt hlt
        omega
      obtain ⟨_, hfilled⟩ := selectScan_none order none 1000000000 hcap hsel
      have hcomplete : ∀ j < s.g.length, cell s.g j ≠ 0 := by
        intro j hj hjz
        exact hfilled j (hEz j hj hjz) hjz
      refine ⟨true, s, rfl, ?_, by simp⟩
      intro _
      refine ⟨rfl, fun i _ _ => rfl, ⟨?_, hcons⟩⟩
      intro i hi
      have := hb i hi
      have := hcomplete i hi
      omega
    | some i =>
      obtain ⟨hiE, h0, hcm, hcnt⟩ := selectScan_some (P := (· ∈ order)) order none
        1000000000 (fun j hj => hj) (by simp) hsel
      have hi : i < s.g.length := hEb i hiE
      by_cases hz0 : cnt = 0
      · subst hz0
        have hmask0 : maskToDigits n cm = [] := by
          rw [hcm, hm]
          apply maskToDigits_nil_of_popcount_zero (candidateMask_lt hb)
          rw [← hm, ← hcm, ← hcnt]
        have hnc : nComp n b s.g = 0 := by
          have hdec := nComp_decompose (n := n) (b := b) (p := s.g) hi h0
          rw [← hm, ← hcm] at hdec
          rw [hdec, hmask0]
          simp
        refine ⟨false, s, ?_, by simp, fun _ => ⟨rfl, rfl, hnc⟩⟩
        show (if (0 : ℕ) = 0 then some (false, s)
          else genBtLoop n b (genBt n b σ order fuel) i
            (σ s.rng (maskToDigits n cm)) { s with rng := s.rng + 1 }) =
          some (false, s)
        rw [if_pos rfl]
      · have hperm := Hperm s.rng (maskToDigits n cm)
        obtain ⟨r', s', hloop, hcomp', hres'⟩ :=
          @genBtLoop_spec n b fuel order (genBt n b σ order fuel) ih
          (σ s.rng (maskToDigits n cm)) { s with rng := s.rng + 1 } i
          ⟨hm, hb, hcons, hEb, hEz⟩ h0 hi (by show countZeros s.g ≤ fuel; omega)
          (by intro w hw
              show w ∈ maskToDigits n (candidateMask n b i s.m)
              rw [← hcm]
              exact hperm.mem_iff.mp hw)
        refine ⟨r', s', ?_, hcomp', ?_⟩
        · show (if cnt = 0 then some (false, s)
            else genBtLoop n b (genBt n b σ order fuel) i
              (σ s.rng (maskToDigits n cm)) { s with rng := s.rng + 1 }) =
            some (r', s')
          rw [if_neg hz0]
          exact hloop
        · intro hr
          obtain ⟨hg', hm', hsum'⟩ := hres' hr
          refine ⟨hg', hm', ?_⟩
          have hsum : ((σ s.rng (maskToDigits n cm)).map
              fun v => nComp n b (s.g.set i v)).sum =
              ((maskToDigits n cm).map fun v => nComp n b (s.g.set i v)).sum :=
            (hperm.map _).sum_eq
          have hdec := nComp_decompose (n := n) (b := b) (p := s.g) hi h0
          rw [← hm, ← hcm] at hdec
          rw [hdec, ← hsum]
          exact hsum'

/- ------------------------------------------------------------------ -/
/- A complete valid grid exists for every well-formed (N, B).          -/
/- ------------------------------------------------------------------ -/

/-- The textbook valid grid for `n = b²`: cell `(r, c)` holds
`(b·r + r/b + c) mod n + 1`. -/
def canonicalGrid (n b : ℕ) : List ℕ :=
  (List.range (n * n)).map fun i => (b * (i / n) + i / n / b + i % n) % n + 1

theorem canonicalGrid_length (n b : ℕ) : (canonicalGrid n b).length = n * n := by
  unfold canonicalGrid
  rw [List.length_map, List.length_range]

theorem cell_canonicalGrid {n b i : ℕ} (hi : i < n * n) :
    cell (canonicalGrid n b) i = (b * (i / n) + i / n / b + i % n) % n + 1 := by
  have hlen : i < (canonicalGrid n b).length := by
    rw [canonicalGrid_length]; exact hi
  rw [cell_eq_getElem _ i hlen]
  unfold canonicalGrid
  simp

/-- Modulo `n = b²`, only the residue `r mod b` of the row matters in the
`b·r` term of the canonical value. -/
theorem canonical_mod_eq {n b r c : ℕ} (hn : n = b * b) :
    (b * r + r / b + c) % n = (b * (r % b) + r / b + c) % n := by
  subst hn
  have e : b * r = b * b * (r / b) + b * (r % b) := by
    conv_lhs => rw [← Nat.div_add_mod r b]
    ring
  have key : b * r + r / b + c = b * (r % b) + r / b + c + r / b * (b * b) := by
    rw [e]
    ring
  rw [key, Nat.add_mul_mod_self_right]

theorem unique_base {b x1 y1 x2 y2 : ℕ} (hb : 0 < b) (hy1 : y1 < b) (hy2 : y2 < b)
    (h : b * x1 + y1 = b * x2 + y2) : x1 = x2 ∧ y1 = y2 := by
  constructor
  · have e1 : (b * x1 + y1) / b = x1 := by
      rw [Nat.mul_add_div hb, Nat.div_eq_of_lt hy1]
      omega
    have e2 : (b * x2 + y2) / b = x2 := by
      rw [Nat.mul_add_div hb, Nat.div_eq_of_lt hy2]
      omega
    rw [← e1, ← e2, h]
  · have e1 : (b * x1 + y1) % b = y1 := by
      rw [Nat.mul_add_mod]
      exact Nat.mod_eq_of_lt hy1
    have e2 : (b * x2 + y2) % b = y2 := by
      rw [Nat.mul_add_mod]
      exact Nat.mod_eq_of_lt hy2
    rw [← e1, ← e2, h]

theorem parts_lt {b t q : ℕ} (ht : t < b) (hq : q < b) : b * t + q < b * b := by
  have h1 : b * (t + 1) ≤ b * b := Nat.mul_le_mul_left b (by omega)
  have h2 : b * (t + 1) = b * t + b := Nat.mul_succ b t
  omega

/-- The canonical grid is a complete valid grid whenever `n = b²`. -/
theorem canonical_valid {n b : ℕ} (hn : n = b * b) (hb : 0 < b) :
    ValidComplete n b (canonicalGrid n b) := by
  have hnpos : 0 < n := by subst hn; positivity
  constructor
  · intro i hi
    rw [canonicalGrid_length] at hi
    rw [cell_canonicalGrid hi]
    have := Nat.mod_lt (b * (i / n) + i / n / b + i % n) hnpos
    omega
  · intro i hiL j hjL hne hsu hnz
    rw [canonicalGrid_length] at hiL hjL
    rw [cell_canonicalGrid hiL, cell_canonicalGrid hjL]
    intro heq
    have heq' : (b * (i / n) + i / n / b + i % n) % n
        = (b * (j / n) + j / n / b + j % n) % n := by omega
    have hmod : (b * (i / n % b) + i / n / b + i % n) % n
        = (b * (j / n % b) + j / n / b + j % n) % n := by
      rw [← canonical_mod_eq hn, ← canonical_mod_eq hn]
      exact heq'
    have hr1n : i / n < n := Nat.div_lt_of_lt_mul hiL
    have hr2n : j / n < n := Nat.div_lt_of_lt_mul hjL
    have hc1n : i % n < n := Nat.mod_lt i hnpos
    have hc2n : j % n < n := Nat.mod_lt j hnpos
    have ht1 : i / n % b < b := Nat.mod_lt _ hb
    have ht2 : j / n % b < b := Nat.mod_lt _ hb
    have hq1 : i / n / b < b := Nat.div_lt_of_lt_mul (by rw [← hn]; exact hr1n)
    have hq2 : j / n / b < b := Nat.div_lt_of_lt_mul (by rw [← hn]; exact hr2n)
    have hrm1 : b * (i / n / b) + i / n % b = i / n := by
      have := Nat.div_add_mod (i / n) b
      omega
    have hrm2 : b * (j / n / b) + j / n % b = j / n := by
      have := Nat.div_add_mod (j / n) b
      omega
    have hieq : i = i / n * n + i % n := by
      have := Nat.mod_add_div' i n
      omega
    have hjeq : j = j / n * n + j % n := by
      have := Nat.mod_add_div' j n
      omega
    apply hne
    rcases hsu with hrow | hcol | hbox
    · -- same row: cancel the shared row contribution, columns must agree
      have hr : i / n = j / n := hrow
      rw [hr] at hmod
      have hcanc : i % n ≡ j % n [MOD n] :=
        Nat.ModEq.add_left_cancel' (b * (j / n % b) + j / n / b) hmod
      have hc : i % n = j % n := by
        have hthis := hcanc
        unfold Nat.ModEq at hthis
        rw [Nat.mod_eq_of_lt hc1n, Nat.mod_eq_of_lt hc2n] at hthis
        exact hthis
      calc i = i / n * n + i % n := hieq
      _ = j / n * n + j % n := by rw [hr, hc]
      _ = j := hjeq.symm
    · -- same column: cancel the column, row parts must agree
      have hc : i % n = j % n := hcol
      rw [hc] at hmod
      have hcanc : b * (i / n % b) + i / n / b ≡
          b * (j / n % b) + j / n / b [MOD n] :=
        Nat.ModEq.add_right_cancel' (j % n) hmod
      have hlt1 : b * (i / n % b) + i / n / b < n := by
        have := parts_lt ht1 hq1
        omega
      have hlt2 : b * (j / n % b) + j / n / b < n := by
        have := parts_lt ht2 hq2
        omega
      have heq2 : b * (i / n % b) + i / n / b = b * (j / n % b) + j / n / b := by
        have hthis := hcanc
        unfold Nat.ModEq at hthis
        rw [Nat.mod_eq_of_lt hlt1, Nat.mod_eq_of_lt hlt2] at hthis
        exact hthis
      obtain ⟨hteq, hqeq⟩ := unique_base hb hq1 hq2 heq2
      have hr : i / n = j / n := by
        rw [← hrm1, ← hrm2, hqeq, hteq]
      calc i = i / n * n + i % n := hieq
      _ = j / n * n + j % n := by rw [hr, hc]
      _ = j := hjeq.symm
    · -- same box: row bands and column bands agree; cancel them
      have hbox' : i / n / b * b + i % n / b = j / n / b * b + j % n / b := hbox
      have hu1 : i % n / b < b := Nat.div_lt_of_lt_mul (by rw [← hn]; exact hc1n)
      have hu2 : j % n / b < b := Nat.div_lt_of_lt_mul (by rw [← hn]; exact hc2n)
      have heqbox : b * (i / n / b) + i % n / b = b * (j / n / b) + j % n / b := by
        rw [Nat.mul_comm b (i / n / b), Nat.mul_comm b (j / n / b)]
        exact hbox'
      obtain ⟨hqeq, hueq⟩ := unique_base hb hu1 hu2 heqbox
      have hcm1 : b * (i % n / b) + i % n % b = i % n := by
        have := Nat.div_add_mod (i % n) b
        omega
      have hcm2 : b * (j % n / b) + j % n % b = j % n := by
        have := Nat.div_add_mod (j % n) b
        omega
      have hre1 : b * (i / n % b) + i / n / b + i % n
          = (b * (i / n % b) + i % n % b) + (i / n / b + b * (i % n / b)) := by
        omega
      have hre2 : b * (j / n % b) + j / n / b + j % n
          = (b * (j / n % b) + j % n % b) + (j / n / b + b * (j % n / b)) := by
        omega
      rw [hre1, hre2] at hmod
      have hsame : i / n / b + b * (i % n / b) = j / n / b + b * (j % n / b) := by
        rw [hqeq, hueq]
      rw [hsame] at hmod
      have hcanc : b * (i / n % b) + i % n % b ≡
          b * (j / n % b) + j % n % b [MOD n] :=
        Nat.ModEq.add_right_cancel' _ hmod
      have hw1 : i % n % b < b := Nat.mod_lt _ hb
      have hw2 : j % n % b < b := Nat.mod_lt _ hb
      have hlt1 : b * (i / n % b) + i % n % b < n := by
        have := parts_lt ht1 hw1
        omega
      have hlt2 : b * (j / n % b) + j % n % b < n := by
        have := parts_lt ht2 hw2
        omega
      have heq2 : b * (i / n % b) + i % n % b = b * (j / n % b) + j % n % b := by
        have hthis := hcanc
        unfold Nat.ModEq at hthis
        rw [Nat.mod_eq_of_lt hlt1, Nat.mod_eq_of_lt hlt2] at hthis
        exact hthis
      obtain ⟨hteq, hweq⟩ := unique_base hb hw1 hw2 heq2
      have hr : i / n = j / n := by
        rw [← hrm1, ← hrm2, hqeq, hteq]
      have hc : i % n = j % n := by
        rw [← hcm1, ← hcm2, hueq, hweq]
      calc i = i / n * n + i % n := hieq
      _ = j / n * n + j % n := by rw [hr, hc]
      _ = j := hjeq.symm

/- ------------------------------------------------------------------ -/
/- `generateFullSolution` produces a complete valid grid.              -/
/- ------------------------------------------------------------------ -/

theorem cell_replicate_zero (k i : ℕ) : cell (List.replicate k 0) i = 0 := by
  induction k generalizing i with
  | zero => exact cell_nil i
  | succ k ih =>
    cases i with
    | zero => rfl
    | succ i => exact ih i

theorem countZeros_replicate (k : ℕ) : countZeros (List.replicate k 0) = k := by
  unfold countZeros
  simp

theorem computeMasks_all_zero {n b : ℕ} {g : List ℕ}
    (hz : ∀ i, cell g i = 0) :
    computeMasks n b g = ⟨fun _ => 0, fun _ => 0, fun _ => 0⟩ := by
  unfold computeMasks
  have : ∀ (l : List ℕ) (m : Masks), l.foldl (cmStep n b g) m = m := by
    intro l
    induction l with
    | nil => intro m; rfl
    | cons a l ih =>
      intro m
      rw [List.foldl_cons]
      have hstep : cmStep n b g m a = m := by
        unfold cmStep
        rw [if_pos (hz a)]
      rw [hstep, ih]
  exact this _ _

/-- The grid returned by `generateFullSolution` is a valid completion of the
empty grid (for well-formed `(N, B)`). -/
theorem generateFullSolution_spec {n b : ℕ} {σ : ℕ → List ℕ → List ℕ} {t : ℕ}
    (hn : n = b * b) (hb : 0 < b) (Hperm : ∀ t' l, (σ t' l).Perm l)
    (hsent : n < 1000000000) :
    Completes n b (List.replicate (n * n) 0) (generateFullSolution n b σ t).1 := by
  have hzrep : ∀ i, cell (List.replicate (n * n) 0) i = 0 :=
    cell_replicate_zero (n * n)
  have hginv : GInv n b (σ t (List.range (n * n)))
      ⟨List.replicate (n * n) 0, ⟨fun _ => 0, fun _ => 0, fun _ => 0⟩, t + 1⟩ := by
    refine ⟨?_, ?_, ?_, ?_, ?_⟩
    · show (⟨fun _ => 0, fun _ => 0, fun _ => 0⟩ : Masks) = _
      rw [computeMasks_all_zero hzrep]
    · intro j _
      rw [hzrep j]
      omega
    · intro i hi j hj hne hsu hnz
      exact absurd (hzrep i) hnz
    · intro j hj
      rw [List.length_replicate]
      have := (Hperm t (List.range (n * n))).mem_iff.mp hj
      exact List.mem_range.mp this
    · intro j hj _
      rw [List.length_replicate] at hj
      exact (Hperm t (List.range (n * n))).mem_iff.mpr (List.mem_range.mpr hj)
  obtain ⟨r, s', hbt, hcomp, hres⟩ := genBt_spec Hperm hsent
    (countZeros (List.replicate (n * n) 0) + 1)
    ⟨List.replicate (n * n) 0, ⟨fun _ => 0, fun _ => 0, fun _ => 0⟩, t + 1⟩
    (by show countZeros (List.replicate (n * n) 0) <
      countZeros (List.replicate (n * n) 0) + 1; omega) hginv
  have hcanon : Completes n b (List.replicate (n * n) 0) (canonicalGrid n b) := by
    refine ⟨?_, ?_, canonical_valid hn hb⟩
    · rw [canonicalGrid_length, List.length_replicate]
    · intro i hi hnz
      exact absurd (hzrep i) hnz
  cases r with
  | false =>
    exfalso
    obtain ⟨_, _, hnc⟩ := hres rfl
    have : canonicalGrid n b ∈ completions n b (List.replicate (n * n) 0) :=
      mem_completions.mpr hcanon
    unfold nComp at hnc
    rw [Finset.card_eq_zero] at hnc
    rw [hnc] at this
    exact absurd this (Finset.not_mem_empty _)
  | true =>
    have hc := hcomp rfl
    simp only [generateFullSolution]
    rw [hbt]
    exact hc

/- ------------------------------------------------------------------ -/
/- `generatePuzzle`: carve clues while keeping the puzzle unique.      -/
/- ------------------------------------------------------------------ -/

/-- The carving loop of `generatePuzzle`: remove a clue, put it back if
uniqueness is lost, stop once `minClues` is reached. -/
def carveLoop (n b : ℕ) (σ : ℕ → List ℕ → List ℕ) (minClues : ℕ) :
    List ℕ → List ℕ × ℕ × ℕ → List ℕ × ℕ × ℕ
  | [], st => st
  | idx :: rest, (p, clues, t) =>
    if cell p idx = 0 then carveLoop n b σ minClues rest (p, clues, t)
    else
      let keep := cell p idx
      let p' := p.set idx 0
      let clues' := clues - 1
      let r := hasUniqueSolution n b σ t p'
      if !r.1 then carveLoop n b σ minClues rest (p'.set idx keep, clues' + 1, r.2)
      else if clues' ≤ minClues then (p', clues', r.2)
      else carveLoop n b σ minClues rest (p', clues', r.2)

/-- `generatePuzzle(N, B)`: carve a fresh full solution down toward the
size-dependent clue floor, keeping uniqueness at every accepted removal. -/
def generatePuzzle (n b : ℕ) (σ : ℕ → List ℕ → List ℕ) (t : ℕ) :
    (List ℕ × List ℕ) × ℕ :=
  let minClues := if n = 4 then 6 else 34
  let fs := generateFullSolution n b σ t
  let sol := fs.1
  let idxs := σ fs.2 (List.range (n * n))
  let st := carveLoop n b σ minClues idxs (sol, n * n, fs.2 + 1)
  ((st.1, sol), st.2.2)

theorem subgrid_props {n b : ℕ} {sol p : List ℕ} (hvc : ValidComplete n b sol)
    (hplen : p.length = sol.length)
    (hext : ∀ i < p.length, cell p i = 0 ∨ cell p i = cell sol i) :
    (∀ j < p.length, cell p j ≤ n) ∧ Consistent n b p := by
  constructor
  · intro j hj
    rcases hext j hj with h | h
    · omega
    · rw [h]
      exact (hvc.1 j (by omega)).2
  · intro i hi j hj hne hsu hnz
    rcases hext i hi with h | h
    · exact absurd h hnz
    · rcases hext j hj with h' | h'
      · rw [h']
        omega
      · rw [h, h']
        exact hvc.2 i (by omega) j (by omega) hne hsu (by rw [← h]; exact hnz)

/-- Invariant of the carving loop: the puzzle stays a sub-grid of the
solution and keeps exactly one completion. -/
theorem carveLoop_inv {n b : ℕ} {σ : ℕ → List ℕ → List ℕ} {minClues : ℕ}
    {sol : List ℕ} (Hperm : ∀ t' l, (σ t' l).Perm l) (hsent : n < 1000000000)
    (hvc : ValidComplete n b sol) :
    ∀ (idxs : List ℕ) (p : List ℕ) (clues t : ℕ),
      p.length = sol.length →
      (∀ i < p.length, cell p i = 0 ∨ cell p i = cell sol i) →
      nComp n b p = 1 →
      ((carveLoop n b σ minClues idxs (p, clues, t)).1.length = sol.length ∧
        (∀ i < (carveLoop n b σ minClues idxs (p, clues, t)).1.length,
          cell (carveLoop n b σ minClues idxs (p, clues, t)).1 i = 0 ∨
          cell (carveLoop n b σ minClues idxs (p, clues, t)).1 i = cell sol i) ∧
        nComp n b (carveLoop n b σ minClues idxs (p, clues, t)).1 = 1) := by
  intro idxs
  induction idxs with
  | nil =>
    intro p clues t hplen hext hnc
    exact ⟨hplen, hext, hnc⟩
  | cons idx rest ih =>
    intro p clues t hplen hext hnc
    rw [carveLoop]
    by_cases h0 : cell p idx = 0
    · rw [if_pos h0]
      exact ih p clues t hplen hext hnc
    · rw [if_neg h0]
      simp only []
      have hext' : ∀ i < (p.set idx 0).length,
          cell (p.set idx 0) i = 0 ∨ cell (p.set idx 0) i = cell sol i := by
        intro i hi
        rw [List.length_set] at hi
        rw [cell_set p idx i 0]
        split_ifs with hidx
        · exact Or.inl rfl
        · exact hext i hi
      have hplen' : (p.set idx 0).length = sol.length := by
        rw [List.length_set]; exact hplen
      obtain ⟨hb', hcons'⟩ := subgrid_props hvc hplen' hext'
      have huiff := hasUniqueSolution_iff (t := t) (p := p.set idx 0) Hperm hsent hb' hcons'
      by_cases hu : (hasUniqueSolution n b σ t (p.set idx 0)).1 = true
      · rw [hu]
        have hnc' : nComp n b (p.set idx 0) = 1 := huiff.mp hu
        simp only [Bool.not_true]
        rw [if_neg (by simp)]
        by_cases hcl : clues - 1 ≤ minClues
        · rw [if_pos hcl]
          exact ⟨hplen', hext', hnc'⟩
        · rw [if_neg hcl]
          exact ih _ _ _ hplen' hext' hnc'
      · have hu' : (hasUniqueSolution n b σ t (p.set idx 0)).1 = false := by
          cases h : (hasUniqueSolution n b σ t (p.set idx 0)).1
          · rfl
          · exact absurd h hu
        rw [hu']
        simp only [Bool.not_false, if_true]
        have hrestore : (p.set idx 0).set idx (cell p idx) = p := by
          rw [List.set_set]
          exact set_cell_self p idx
        rw [hrestore]
        exact ih _ _ _ hplen hext hnc

/-- Main carve corollary: the puzzle returned by `generatePuzzle` is a
sub-grid of its solution with exactly one completion, and the solution is a
complete valid grid. -/
theorem generatePuzzle_spec {n b : ℕ} {σ : ℕ → List ℕ → List ℕ} {t : ℕ}
    (hn : n = b * b) (hb : 0 < b) (Hperm : ∀ t' l, (σ t' l).Perm l)
    (hsent : n < 1000000000) :
    let r := generatePuzzle n b σ t
    r.1.2.length = n * n ∧ ValidComplete n b r.1.2 ∧
      r.1.1.length = n * n ∧
      (∀ i < r.1.1.length, cell r.1.1 i = 0 ∨ cell r.1.1 i = cell r.1.2 i) ∧
      nComp n b r.1.1 = 1 := by
  intro r
  have hfs := generateFullSolution_spec (t := t) hn hb Hperm hsent
  obtain ⟨hlen, _, hvc⟩ := hfs
  rw [List.length_replicate] at hlen
  have hsol_nc : nComp n b (generateFullSolution n b σ t).1 = 1 :=
    nComp_of_complete hvc
  have hcarve := @carveLoop_inv n b σ (if n = 4 then 6 else 34)
    (generateFullSolution n b σ t).1 Hperm hsent hvc
    (σ (generateFullSolution n b σ t).2 (List.range (n * n)))
    (generateFullSolution n b σ t).1 (n * n)
    ((generateFullSolution n b σ t).2 + 1) rfl
    (fun i hi => Or.inr rfl) hsol_nc
  obtain ⟨hclen, hcext, hcnc⟩ := hcarve
  refine ⟨hlen, hvc, ?_, ?_, ?_⟩
  · show (carveLoop n b σ (if n = 4 then 6 else 34) _ _).1.length = n * n
    rw [hclen, hlen]
  · intro i hi
    exact hcext i hi
  · exact hcnc

/- ------------------------------------------------------------------ -/
/- Units as index lists: rows, columns and boxes each contain every    -/
/- digit exactly once in a valid complete grid.                        -/
/- ------------------------------------------------------------------ -/

/-- The cell indices of row `r` (row-major layout, as in `buildIndexMaps`). -/
def rowCells (n r : ℕ) : List ℕ := (List.range n).map fun c => r * n + c

/-- The cell indices of column `c`. -/
def colCells (n c : ℕ) : List ℕ := (List.range n).map fun r => r * n + c

/-- The cell indices of box `k` (boxes are `B × B` blocks, `k = boxOf`). -/
def boxCells (n b k : ℕ) : List ℕ :=
  (List.range n).map fun j => (k / b * b + j / b) * n + (k % b * b + j % b)

theorem rowOf_encode {n r c : ℕ} (hc : c < n) : rowOf n (r * n + c) = r := by
  unfold rowOf
  have hn : 0 < n := by omega
  rw [Nat.add_comm, Nat.mul_comm, Nat.add_mul_div_left c r hn, Nat.div_eq_of_lt hc]
  omega

theorem colOf_encode {n r c : ℕ} (hc : c < n) : colOf n (r * n + c) = c := by
  unfold colOf
  rw [Nat.add_comm, Nat.add_mul_mod_self_right]
  exact Nat.mod_eq_of_lt hc

theorem encode_lt {n r c : ℕ} (hr : r < n) (hc : c < n) : r * n + c < n * n := by
  have h1 : (r + 1) * n = r * n + 1 * n := Nat.add_mul r 1 n
  have h2 : (r + 1) * n ≤ n * n := Nat.mul_le_mul_right n (by omega)
  omega

theorem encode_inj {n r1 c1 r2 c2 : ℕ} (hc1 : c1 < n) (hc2 : c2 < n)
    (h : r1 * n + c1 = r2 * n + c2) : r1 = r2 ∧ c1 = c2 := by
  have h1 : rowOf n (r1 * n + c1) = rowOf n (r2 * n + c2) := by rw [h]
  rw [rowOf_encode hc1, rowOf_encode hc2] at h1
  have h2 : colOf n (r1 * n + c1) = colOf n (r2 * n + c2) := by rw [h]
  rw [colOf_encode hc1, colOf_encode hc2] at h2
  exact ⟨h1, h2⟩

theorem boxOf_encode {n r c : ℕ} (hc : c < n) : boxOf n b (r * n + c) = r / b * b + c / b := by
  unfold boxOf
  have h1 : (r * n + c) / n = r := rowOf_encode hc
  have h2 : (r * n + c) % n = c := colOf_encode hc
  rw [h1, h2]

/-- Generic exactly-once lemma: any list of `n` pairwise-distinct in-range
indices lying in one unit of a valid complete grid carries each digit
`1..n` exactly once. -/
theorem unit_values_count {n b : ℕ} {sol : List ℕ} (hvc : ValidComplete n b sol)
    (hlen : sol.length = n * n) {L : List ℕ} (hLn : L.length = n)
    (hLd : L.Nodup) (hLb : ∀ i ∈ L, i < n * n)
    (hLu : ∀ i ∈ L, ∀ j ∈ L, sameUnit n b i j) {v : ℕ}
    (h1 : 1 ≤ v) (h2 : v ≤ n) : (L.map (cell sol)).count v = 1 := by
  have hvalsd : (L.map (cell sol)).Nodup := by
    refine List.Nodup.map_on ?_ hLd
    intro i hi j hj hcell
    by_contra hne
    have hiL : i < sol.length := by rw [hlen]; exact hLb i hi
    have hjL : j < sol.length := by rw [hlen]; exact hLb j hj
    have hnz : cell sol i ≠ 0 := by
      have := hvc.1 i hiL
      omega
    exact hvc.2 i hiL j hjL hne (hLu i hi j hj) hnz hcell
  have hsub : (L.map (cell sol)).toFinset ⊆ Finset.Icc 1 n := by
    intro x hx
    rw [List.mem_toFinset, List.mem_map] at hx
    obtain ⟨i, hi, hix⟩ := hx
    have hiL : i < sol.length := by rw [hlen]; exact hLb i hi
    have := hvc.1 i hiL
    rw [Finset.mem_Icc]
    omega
  have hcard : (Finset.Icc 1 n).card ≤ (L.map (cell sol)).toFinset.card := by
    rw [List.toFinset_card_of_nodup hvalsd, List.length_map, hLn, Nat.card_Icc]
    omega
  have heq : (L.map (cell sol)).toFinset = Finset.Icc 1 n :=
    Finset.eq_of_subset_of_card_le hsub hcard
  have hmem : v ∈ L.map (cell sol) := by
    rw [← List.mem_toFinset, heq, Finset.mem_Icc]
    omega
  exact List.count_eq_one_of_mem hvalsd hmem

theorem rowCells_spec {n r : ℕ} (hr : r < n) :
    (rowCells n r).length = n ∧ (rowCells n r).Nodup ∧
      (∀ i ∈ rowCells n r, i < n * n) ∧
      (∀ i ∈ rowCells n r, ∀ j ∈ rowCells n r, ∀ b, sameUnit n b i j) := by
  refine ⟨by simp [rowCells], ?_, ?_, ?_⟩
  · refine List.Nodup.map_on ?_ (List.nodup_range n)
    intro c1 _ c2 _ h
    omega
  · intro i hi
    rw [rowCells, List.mem_map] at hi
    obtain ⟨c, hc, rfl⟩ := hi
    exact encode_lt hr (List.mem_range.mp hc)
  · intro i hi j hj b
    rw [rowCells, List.mem_map] at hi hj
    obtain ⟨c1, hc1, rfl⟩ := hi
    obtain ⟨c2, hc2, rfl⟩ := hj
    exact Or.inl (by
      rw [rowOf_encode (List.mem_range.mp hc1), rowOf_encode (List.mem_range.mp hc2)])

theorem colCells_spec {n c : ℕ} (hc : c < n) :
    (colCells n c).length = n ∧ (colCells n c).Nodup ∧
      (∀ i ∈ colCells n c, i < n * n) ∧
      (∀ i ∈ colCells n c, ∀ j ∈ colCells n c, ∀ b, sameUnit n b i j) := by
  refine ⟨by simp [colCells], ?_, ?_, ?_⟩
  · refine List.Nodup.map_on ?_ (List.nodup_range n)
    intro r1 hr1 r2 hr2 h
    exact (encode_inj hc hc h).1
  · intro i hi
    rw [colCells, List.mem_map] at hi
    obtain ⟨r, hr, rfl⟩ := hi
    exact encode_lt (List.mem_range.mp hr) hc
  · intro i hi j hj b
    rw [colCells, List.mem_map] at hi hj
    obtain ⟨r1, hr1, rfl⟩ := hi
    obtain ⟨r2, hr2, rfl⟩ := hj
    exact Or.inr (Or.inl (by rw [colOf_encode hc, colOf_encode hc]))

theorem boxCells_spec {n b k : ℕ} (hn : n = b * b) (hb : 0 < b) (hk : k < n) :
    (boxCells n b k).length = n ∧ (boxCells n b k).Nodup ∧
      (∀ i ∈ boxCells n b k, i < n * n) ∧
      (∀ i ∈ boxCells n b k, ∀ j ∈ boxCells n b k, sameUnit n b i j) := by
  have hkd : k / b < b := Nat.div_lt_of_lt_mul (by omega)
  have hkm : k % b < b := Nat.mod_lt k hb
  have hRlt : ∀ j, j < n → k / b * b + j / b < n := by
    intro j hj
    have hjd : j / b < b := Nat.div_lt_of_lt_mul (by omega)
    have := parts_lt hkd hjd
    rw [hn, Nat.mul_comm (k / b) b]
    omega
  have hClt : ∀ j, j < n → k % b * b + j % b < n := by
    intro j hj
    have hjm : j % b < b := Nat.mod_lt j hb
    have := parts_lt hkm hjm
    rw [hn, Nat.mul_comm (k % b) b]
    omega
  have hRdiv : ∀ j, j < n → (k / b * b + j / b) / b = k / b := by
    intro j hj
    have hjd : j / b < b := Nat.div_lt_of_lt_mul (by omega)
    rw [Nat.mul_comm (k / b) b, Nat.mul_add_div hb, Nat.div_eq_of_lt hjd]
    omega
  have hCdiv : ∀ j, j < n → (k % b * b + j % b) / b = k % b := by
    intro j hj
    have hjm : j % b < b := Nat.mod_lt j hb
    rw [Nat.mul_comm (k % b) b, Nat.mul_add_div hb, Nat.div_eq_of_lt hjm]
    omega
  refine ⟨by simp [boxCells], ?_, ?_, ?_⟩
  · refine List.Nodup.map_on ?_ (List.nodup_range n)
    intro j1 hj1 j2 hj2 h
    have hj1' := List.mem_range.mp hj1
    have hj2' := List.mem_range.mp hj2
    obtain ⟨hR, hC⟩ := encode_inj (hClt j1 hj1') (hClt j2 hj2') h
    have hdiv : j1 / b = j2 / b := by omega
    have hmod : j1 % b = j2 % b := by omega
    have e1 : b * (j1 / b) + j1 % b = j1 := Nat.div_add_mod j1 b
    have e2 : b * (j2 / b) + j2 % b = j2 := Nat.div_add_mod j2 b
    rw [hdiv, hmod] at e1
    omega
  · intro i hi
    rw [boxCells, List.mem_map] at hi
    obtain ⟨j, hj, rfl⟩ := hi
    exact encode_lt (hRlt j (List.mem_range.mp hj)) (hClt j (List.mem_range.mp hj))
  · intro i hi j hj
    rw [boxCells, List.mem_map] at hi hj
    obtain ⟨j1, hj1, rfl⟩ := hi
    obtain ⟨j2, hj2, rfl⟩ := hj
    have hj1' := List.mem_range.mp hj1
    have hj2' := List.mem_range.mp hj2
    refine Or.inr (Or.inr ?_)
    rw [boxOf_encode (hClt j1 hj1'), boxOf_encode (hClt j2 hj2'),
      hRdiv j1 hj1', hRdiv j2 hj2', hCdiv j1 hj1', hCdiv j2 hj2']

/-- In a valid complete `N×N` grid, every row, column and box contains each
digit `1..N` exactly once. -/
theorem validComplete_units {n b : ℕ} {sol : List ℕ} (hn : n = b * b) (hb : 0 < b)
    (hvc : ValidComplete n b sol) (hlen : sol.length = n * n) :
    ∀ u < n, ∀ v, 1 ≤ v → v ≤ n →
      ((rowCells n u).map (cell sol)).count v = 1 ∧
      ((colCells n u).map (cell sol)).count v = 1 ∧
      ((boxCells n b u).map (cell sol)).count v = 1 := by
  intro u hu v h1 h2
  obtain ⟨hr1, hr2, hr3, hr4⟩ := rowCells_spec (n := n) (r := u) hu
  obtain ⟨hc1, hc2, hc3, hc4⟩ := colCells_spec (n := n) (c := u) hu
  obtain ⟨hb1, hb2, hb3, hb4⟩ := boxCells_spec hn hb hu
  exact ⟨unit_values_count hvc hlen hr1 hr2 hr3 (fun i hi j hj => hr4 i hi j hj b) h1 h2,
    unit_values_count hvc hlen hc1 hc2 hc3 (fun i hi j hj => hc4 i hi j hj b) h1 h2,
    unit_values_count hvc hlen hb1 hb2 hb3 hb4 h1 h2⟩

/- ------------------------------------------------------------------ -/
/- `shuffled`: a comparison sort of a copy under a random comparator.  -/
/- ------------------------------------------------------------------ -/

/-- `shuffled(arr) = arr.slice().sort(() => Math.random() - 0.5)`: a
comparison sort of a fresh copy driven by an arbitrary Boolean comparator
(the embedding of the sign of `Math.random() - 0.5`). -/
def shuffled (cmp : ℕ → ℕ → Bool) (arr : List ℕ) : List ℕ :=
  arr.mergeSort cmp

theorem shuffled_perm (cmp : ℕ → ℕ → Bool) (arr : List ℕ) :
    (shuffled cmp arr).Perm arr :=
  List.mergeSort_perm arr cmp

/- ------------------------------------------------------------------ -/
/- Set-based hint helpers: `candidatesFor`, naked and hidden singles.  -/
/- ------------------------------------------------------------------ -/

/-- `rcToIndex(r, c, N) = r * N + c`. -/
def rcToIndex (r c n : ℕ) : ℕ := r * n + c

/-- `rowIndices(i, N)`: all indices in the row of `i`. -/
def rowIndices (i n : ℕ) : List ℕ :=
  (List.range n).map fun c => rcToIndex (i / n) c n

/-- `colIndices(i, N)`: all indices in the column of `i`. -/
def colIndices (i n : ℕ) : List ℕ :=
  (List.range n).map fun r => rcToIndex r (i % n) n

/-- `boxIndices(i, N, B)`: all indices in the box of `i`, row-major. -/
def boxIndices (i n b : ℕ) : List ℕ :=
  let r := i / n
  let c := i % n
  let br := r / b * b
  let bc := c / b * b
  (List.range b).flatMap fun rr => (List.range b).map fun cc =>
    rcToIndex (br + rr) (bc + cc) n

/-- `usedInRow(i, g, N)`: the non-zero values already in the row of `i`. -/
def usedInRow (i : ℕ) (g : List ℕ) (n : ℕ) : List ℕ :=
  ((rowIndices i n).map fun j => cell g j).filter fun v => v != 0

/-- `usedInCol(i, g, N)`. -/
def usedInCol (i : ℕ) (g : List ℕ) (n : ℕ) : List ℕ :=
  ((colIndices i n).map fun j => cell g j).filter fun v => v != 0

/-- `usedInBox(i, g, N, B)`. -/
def usedInBox (i : ℕ) (g : List ℕ) (n b : ℕ) : List ℕ :=
  ((boxIndices i n b).map fun j => cell g j).filter fun v => v != 0

/-- `candidatesFor(i, g, N, B)`: the digits `1..N` not used in the row,
column or box of `i`; empty when the cell is already filled. -/
def candidatesFor (i : ℕ) (g : List ℕ) (n b : ℕ) : List ℕ :=
  if cell g i != 0 then []
  else (List.range n).filterMap fun k =>
    let v := k + 1
    if (usedInRow i g n).contains v || (usedInCol i g n).contains v ||
        (usedInBox i g n b).contains v then none else some v

/-- `findNakedSingle(g, N, B)`: the first empty cell with exactly one
candidate, with that candidate. -/
def findNakedSingle (g : List ℕ) (n b : ℕ) : Option (ℕ × ℕ) :=
  (List.range g.length).findSome? fun i =>
    if cell g i = 0 then
      match candidatesFor i g n b with
      | [v] => some (i, v)
      | _ => none
    else none

/-- One unit pass of `findHiddenSingle`: the first digit `v` whose only
possible position inside `cells` is a single empty cell. -/
def hiddenInUnit (g : List ℕ) (n b : ℕ) (cells : List ℕ) : Option (ℕ × ℕ) :=
  (List.range n).findSome? fun k =>
    let v := k + 1
    match cells.filter fun i =>
        (cell g i == 0) && (candidatesFor i g n b).contains v with
    | [i] => some (i, v)
    | _ => none

/-- The box origins visited by `for (br = 0; br < N; br += B)`. -/
def boxStarts (n b : ℕ) : List ℕ :=
  (List.range n).filter fun br => br % b == 0

/-- `findHiddenSingle(g, N, B)`: rows, then columns, then boxes. -/
def findHiddenSingle (g : List ℕ) (n b : ℕ) : Option (ℕ × ℕ) :=
  (((List.range n).findSome? fun r =>
      hiddenInUnit g n b ((List.range n).map fun c => rcToIndex r c n)).or
    ((((List.range n).findSome? fun c =>
        hiddenInUnit g n b ((List.range n).map fun r => rcToIndex r c n)).or
      ((boxStarts n b).findSome? fun br =>
        (boxStarts n b).findSome? fun bc =>
          hiddenInUnit g n b (boxIndices (rcToIndex br bc n) n b)))))

/-- One `while` step of `solveWithSingles`: naked single first, else hidden. -/
def findMove (g : List ℕ) (n b : ℕ) : Option (ℕ × ℕ) :=
  (findNakedSingle g n b).or (findHiddenSingle g n b)

/-- The `while (true)` loop of `solveWithSingles`, fuel-indexed.  Each
applied move fills an empty cell, so `countZeros g + 1` fuel always reaches
the `break`. -/
def singlesLoop (n b : ℕ) : ℕ → List ℕ → ℕ → List ℕ × ℕ
  | 0, g, steps => (g, steps)
  | fuel + 1, g, steps =>
    match findMove g n b with
    | none => (g, steps)
    | some (idx, v) => singlesLoop n b fuel (g.set idx v) (steps + 1)

/-- `solveWithSingles(original, N, B)`: apply naked/hidden singles until no
move remains; report whether the grid got fully filled, and the step count. -/
def solveWithSingles (g : List ℕ) (n b : ℕ) : Bool × ℕ :=
  let r := singlesLoop n b (countZeros g + 1) g 0
  (r.1.all fun v => v != 0, r.2)

theorem mem_candidatesFor {i : ℕ} {g : List ℕ} {n b v : ℕ}
    (h : v ∈ candidatesFor i g n b) : cell g i = 0 ∧ 1 ≤ v ∧ v ≤ n := by
  unfold candidatesFor at h
  by_cases h0 : cell g i = 0
  · refine ⟨h0, ?_⟩
    rw [if_neg (by simp [h0])] at h
    rw [List.mem_filterMap] at h
    obtain ⟨k, hk, hkv⟩ := h
    simp only [] at hkv
    split_ifs at hkv with hcond
    have hv := Option.some.inj hkv
    have := List.mem_range.mp hk
    omega
  · rw [if_pos (by simpa using h0)] at h
    exact absurd h (List.not_mem_nil v)

theorem hiddenInUnit_props {g : List ℕ} {n b : ℕ} {cells : List ℕ} {idx v : ℕ}
    (h : hiddenInUnit g n b cells = some (idx, v)) :
    idx ∈ cells ∧ cell g idx = 0 ∧ 1 ≤ v := by
  unfold hiddenInUnit at h
  obtain ⟨k, hk, hfk⟩ := List.exists_of_findSome?_eq_some h
  simp only [] at hfk
  rcases hflt : cells.filter (fun i =>
      (cell g i == 0) && (candidatesFor i g n b).contains (k + 1)) with _ | ⟨i0, rest⟩
  · rw [hflt] at hfk
    exact absurd hfk (by simp)
  · rw [hflt] at hfk
    cases rest with
    | cons _ _ => exact absurd hfk (by simp)
    | nil =>
      have heq : i0 = idx ∧ k + 1 = v := by
        have := Option.some.inj hfk
        exact ⟨congrArg Prod.fst this, congrArg Prod.snd this⟩
      have hmem : i0 ∈ cells.filter fun i =>
          (cell g i == 0) && (candidatesFor i g n b).contains (k + 1) := by
        rw [hflt]; exact List.mem_singleton.mpr rfl
      rw [List.mem_filter] at hmem
      obtain ⟨hmc, hpred⟩ := hmem
      rw [Bool.and_eq_true, beq_iff_eq] at hpred
      obtain ⟨h1, h2⟩ := heq
      refine ⟨?_, ?_, ?_⟩
      · rw [← h1]; exact hmc
      · rw [← h1]; exact hpred.1
      · omega

theorem boxStarts_mem {n b br : ℕ} (h : br ∈ boxStarts n b) :
    br < n ∧ br % b = 0 := by
  unfold boxStarts at h
  rw [List.mem_filter] at h
  refine ⟨List.mem_range.mp h.1, by simpa using h.2⟩

theorem boxStart_le {n b br : ℕ} (hn : n = b * b) (hb : 0 < b)
    (hbr : br < n) (hmod : br % b = 0) : br + b ≤ n := by
  have hdvd : b ∣ br := Nat.dvd_of_mod_eq_zero hmod
  have hq : b * (br / b) = br := Nat.mul_div_cancel' hdvd
  have hqlt : br / b < b := Nat.div_lt_of_lt_mul (by omega)
  have : b * (br / b + 1) ≤ b * b := Nat.mul_le_mul_left b (by omega)
  have hs : b * (br / b + 1) = b * (br / b) + b := Nat.mul_succ b (br / b)
  omega

theorem mem_boxIndices_lt {n b j : ℕ} (hn : n = b * b) (hb : 0 < b)
    {br bc : ℕ} (hbr : br < n) (hbrm : br % b = 0) (hbc : bc < n)
    (hbcm : bc % b = 0) (hj : j ∈ boxIndices (rcToIndex br bc n) n b) :
    j < n * n := by
  have hr : rcToIndex br bc n / n = br := rowOf_encode hbc
  have hc : rcToIndex br bc n % n = bc := colOf_encode hbc
  have hbrq : br / b * b = br := Nat.div_mul_cancel (Nat.dvd_of_mod_eq_zero hbrm)
  have hbcq : bc / b * b = bc := Nat.div_mul_cancel (Nat.dvd_of_mod_eq_zero hbcm)
  simp only [boxIndices] at hj
  rw [hr, hc, hbrq, hbcq] at hj
  rw [List.mem_flatMap] at hj
  obtain ⟨rr, hrr, hj2⟩ := hj
  rw [List.mem_map] at hj2
  obtain ⟨cc, hcc, rfl⟩ := hj2
  have hrr' := List.mem_range.mp hrr
  have hcc' := List.mem_range.mp hcc
  have h1 := boxStart_le hn hb hbr hbrm
  have h2 := boxStart_le hn hb hbc hbcm
  exact encode_lt (by omega) (by omega)

/-- Every move returned by `findMove` fills an in-range empty cell with a
non-zero value (for a well-formed board). -/
theorem findMove_props {g : List ℕ} {n b idx v : ℕ} (hn : n = b * b)
    (hb : 0 < b) (hg : g.length = n * n)
    (h : findMove g n b = some (idx, v)) :
    cell g idx = 0 ∧ idx < g.length ∧ 1 ≤ v := by
  unfold findMove at h
  rcases hns : findNakedSingle g n b with _ | mv
  · rw [hns] at h
    replace h : findHiddenSingle g n b = some (idx, v) := h
    unfold findHiddenSingle at h
    rcases hrow : (List.range n).findSome? (fun r =>
        hiddenInUnit g n b ((List.range n).map fun c => rcToIndex r c n)) with _ | mv2
    · rw [hrow] at h
      replace h : Option.or ((List.range n).findSome? fun c =>
          hiddenInUnit g n b ((List.range n).map fun r => rcToIndex r c n))
        ((boxStarts n b).findSome? fun br => (boxStarts n b).findSome? fun bc =>
          hiddenInUnit g n b (boxIndices (rcToIndex br bc n) n b)) = some (idx, v) := h
      rcases hcol : (List.range n).findSome? (fun c =>
          hiddenInUnit g n b ((List.range n).map fun r => rcToIndex r c n)) with _ | mv3
      · rw [hcol] at h
        replace h : ((boxStarts n b).findSome? fun br => (boxStarts n b).findSome? fun bc =>
            hiddenInUnit g n b (boxIndices (rcToIndex br bc n) n b)) = some (idx, v) := h
        obtain ⟨br, hbr, hfbr⟩ := List.exists_of_findSome?_eq_some h
        obtain ⟨bc, hbc, hfbc⟩ := List.exists_of_findSome?_eq_some hfbr
        obtain ⟨hmem, h0, hv1⟩ := hiddenInUnit_props hfbc
        obtain ⟨hbr1, hbr2⟩ := boxStarts_mem hbr
        obtain ⟨hbc1, hbc2⟩ := boxStarts_mem hbc
        refine ⟨h0, ?_, hv1⟩
        rw [hg]
        exact mem_boxIndices_lt hn hb hbr1 hbr2 hbc1 hbc2 hmem
      · rw [hcol] at h
        replace h : mv3 = (idx, v) := Option.some.inj h
        subst h
        obtain ⟨c, hc, hfc⟩ := List.exists_of_findSome?_eq_some hcol
        obtain ⟨hmem, h0, hv1⟩ := hiddenInUnit_props hfc
        rw [List.mem_map] at hmem
        obtain ⟨r, hr, rfl⟩ := hmem
        refine ⟨h0, ?_, hv1⟩
        rw [hg]
        exact encode_lt (List.mem_range.mp hr) (List.mem_range.mp hc)
    · rw [hrow] at h
      replace h : mv2 = (idx, v) := Option.some.inj h
      subst h
      obtain ⟨r, hr, hfr⟩ := List.exists_of_findSome?_eq_some hrow
      obtain ⟨hmem, h0, hv1⟩ := hiddenInUnit_props hfr
      rw [List.mem_map] at hmem
      obtain ⟨c, hc, rfl⟩ := hmem
      refine ⟨h0, ?_, hv1⟩
      rw [hg]
      exact encode_lt (List.mem_range.mp hr) (List.mem_range.mp hc)
  · rw [hns] at h
    replace h : mv = (idx, v) := Option.some.inj h
    subst h
    unfold findNakedSingle at hns
    obtain ⟨i, hi, hfi⟩ := List.exists_of_findSome?_eq_some hns
    by_cases h0 : cell g i = 0
    · rw [if_pos h0] at hfi
      rcases hcand : candidatesFor i g n b with _ | ⟨v0, rest⟩
      · rw [hcand] at hfi
        exact absurd hfi (by simp)
      · rw [hcand] at hfi
        cases rest with
        | cons _ _ => exact absurd hfi (by simp)
        | nil =>
          have heq := Option.some.inj hfi
          have hi' : i = idx := congrArg Prod.fst heq
          have hv' : v0 = v := congrArg Prod.snd heq
          have hvc : v0 ∈ candidatesFor i g n b := by
            rw [hcand]; exact List.mem_singleton.mpr rfl
          obtain ⟨_, hv1, _⟩ := mem_candidatesFor hvc
          refine ⟨?_, ?_, ?_⟩
          · rw [← hi']; exact h0
          · rw [← hi']; exact List.mem_range.mp hi
          · omega
    · rw [if_neg h0] at hfi
      exact absurd hfi (by simp)

/-- Fuel sufficiency for the singles loop: with fuel beyond the number of
empty cells, the loop exits through its `break` (no move remains) and the
board keeps its size. -/
theorem singlesLoop_final {n b : ℕ} (hn : n = b * b) (hb : 0 < b) :
    ∀ (fuel : ℕ) (g : List ℕ) (steps : ℕ), g.length = n * n →
      countZeros g < fuel →
      findMove (singlesLoop n b fuel g steps).1 n b = none ∧
        (singlesLoop n b fuel g steps).1.length = n * n := by
  intro fuel
  induction fuel with
  | zero => intro g steps _ hz; omega
  | succ fuel ih =>
    intro g steps hg hz
    rcases hmv : findMove g n b with _ | ⟨idx, v⟩
    · show findMove (singlesLoop n b (fuel + 1) g steps).1 n b = none ∧ _
      rw [singlesLoop, hmv]
      exact ⟨hmv, hg⟩
    · obtain ⟨h0, hidx, hv1⟩ := findMove_props hn hb hg hmv
      have hcz := countZeros_set g idx v hidx h0 (by omega)
      have hlen : (g.set idx v).length = n * n := by
        rw [List.length_set]; exact hg
      have := ih (g.set idx v) (steps + 1) hlen (by omega)
      show findMove (singlesLoop n b (fuel + 1) g steps).1 n b = none ∧ _
      rw [singlesLoop, hmv]
      exact this

/- ------------------------------------------------------------------ -/
/- Difficulty-profile generation: DIFF_CONFIG and                      -/
/- generatePuzzleForDifficulty with its try/time budgets.              -/
/- ------------------------------------------------------------------ -/

/-- One difficulty profile of `DIFF_CONFIG` (9×9 profiles). -/
structure GenCfg where
  minClues : ℕ
  maxClues : ℕ
  requireSinglesSolvable : Bool
  minSearchNodes : ℕ
  maxTries : ℕ
  maxGenMs : ℕ

def DIFF_CONFIG_intermediate : GenCfg := ⟨37, 44, true, 80, 18, 300⟩

def DIFF_CONFIG_advanced : GenCfg := ⟨28, 34, false, 300, 22, 550⟩

def DIFF_CONFIG_expert : GenCfg := ⟨19, 22, false, 1200, 36, 1400⟩

inductive Difficulty where
  | beginner
  | intermediate
  | advanced
  | expert
deriving DecidableEq

/-- `DIFF_CONFIG[diff] || DIFF_CONFIG.intermediate` (the beginner entry is
never consulted: that path returns before the lookup). -/
def diffConfig : Difficulty → GenCfg
  | .beginner => DIFF_CONFIG_intermediate
  | .intermediate => DIFF_CONFIG_intermediate
  | .advanced => DIFF_CONFIG_advanced
  | .expert => DIFF_CONFIG_expert

/-- The running `best` near-miss record of `generatePuzzleForDifficulty`. -/
structure Best where
  puzzle : List ℕ
  solution : List ℕ
  clues : ℕ
  nodes : ℕ
deriving DecidableEq

/-- `Math.abs(clues - mid)` over naturals. -/
def absDiff (a m : ℕ) : ℕ := if a ≤ m then m - a else a - m

/-- Best-tracking in the out-of-band branch: keep the clue count closest to
the middle of the band (`nodes` recorded as 0 there). -/
def updateBestMid (best : Option Best) (p sol : List ℕ) (clues mid : ℕ) :
    Option Best :=
  match best with
  | none => some ⟨p, sol, clues, 0⟩
  | some bb =>
    if absDiff clues mid < absDiff bb.clues mid then some ⟨p, sol, clues, 0⟩
    else some bb

/-- First carve loop of `generatePuzzleForDifficulty`: carve toward
`minClues`, restoring non-unique removals; break on reaching the floor or on
the deadline.  State: `(puzzle, clues, rng counter, clock counter)`. -/
def carve1 (n b : ℕ) (σ : ℕ → List ℕ → List ℕ) (τ : ℕ → ℕ)
    (minClues deadline : ℕ) :
    List ℕ → List ℕ × ℕ × ℕ × ℕ → List ℕ × ℕ × ℕ × ℕ
  | [], st => st
  | idx :: rest, (p, clues, t, clk) =>
    if cell p idx = 0 then carve1 n b σ τ minClues deadline rest (p, clues, t, clk)
    else
      let keep := cell p idx
      let r := hasUniqueSolution n b σ t (p.set idx 0)
      let p1 := if r.1 then p.set idx 0 else (p.set idx 0).set idx keep
      let clues1 := if r.1 then clues - 1 else clues
      if clues1 ≤ minClues then (p1, clues1, r.2, clk)
      else if deadline < τ clk then (p1, clues1, r.2, clk + 1)
      else carve1 n b σ τ minClues deadline rest (p1, clues1, r.2, clk + 1)

/-- Second carve loop: nudge the clue count down to `maxClues`, restoring
removals that break uniqueness or undershoot `minClues`. -/
def carve2 (n b : ℕ) (σ : ℕ → List ℕ → List ℕ) (τ : ℕ → ℕ)
    (minClues maxClues deadline : ℕ) :
    List ℕ → List ℕ × ℕ × ℕ × ℕ → List ℕ × ℕ × ℕ × ℕ
  | [], st => st
  | idx :: rest, (p, clues, t, clk) =>
    if cell p idx = 0 then
      carve2 n b σ τ minClues maxClues deadline rest (p, clues, t, clk)
    else
      let keep := cell p idx
      let r := hasUniqueSolution n b σ t (p.set idx 0)
      let bad := r.1 = false ∨ clues - 1 < minClues
      let p1 := if bad then (p.set idx 0).set idx keep else p.set idx 0
      let clues1 := if bad then clues else clues - 1
      if clues1 ≤ maxClues then (p1, clues1, r.2, clk)
      else if deadline < τ clk then (p1, clues1, r.2, clk + 1)
      else carve2 n b σ τ minClues maxClues deadline rest (p1, clues1, r.2, clk + 1)

/-- How the attempt loop ended. -/
inductive GenOutcome where
  | accepted (puzzle solution : List ℕ)
  | exhausted (best : Option Best)
deriving DecidableEq

/-- The `for (attempt = 0; attempt < MAX_TRIES; ...)` loop.  Returns the
outcome, the final rng and clock counters, and the number of attempt bodies
actually executed. -/
def attemptLoop (n b : ℕ) (σ : ℕ → List ℕ → List ℕ) (τ : ℕ → ℕ)
    (cfg : GenCfg) (deadline : ℕ) :
    ℕ → Option Best → ℕ → ℕ → GenOutcome × ℕ × ℕ × ℕ
  | 0, best, t, clk => (.exhausted best, t, clk, 0)
  | fuel + 1, best, t, clk =>
    if deadline < τ clk then (.exhausted best, t, clk + 1, 0)
    else
      let fs := generateFullSolution n b σ t
      let order := σ fs.2 (List.range (n * n))
      let c1 := carve1 n b σ τ cfg.minClues deadline order
        (fs.1, n * n, fs.2 + 1, clk + 1)
      let order2 := σ c1.2.2.1 (List.range (n * n))
      let c2 := carve2 n b σ τ cfg.minClues cfg.maxClues deadline order2
        (c1.1, c1.2.1, c1.2.2.1 + 1, c1.2.2.2)
      let p := c2.1
      let clues := c2.2.1
      if clues < cfg.minClues ∨ cfg.maxClues < clues then
        let mid := (cfg.minClues + cfg.maxClues) / 2
        let rest := attemptLoop n b σ τ cfg deadline fuel
          (updateBestMid best p fs.1 clues mid) c2.2.2.1 c2.2.2.2
        (rest.1, rest.2.1, rest.2.2.1, rest.2.2.2 + 1)
      else
        let singles := solveWithSingles p n b
        let metrics := solveBacktrackingWithMetrics n b σ c2.2.2.1 p
        let unique := hasUniqueSolution n b σ metrics.2 p
        if unique.1 = false then
          let rest := attemptLoop n b σ τ cfg deadline fuel best unique.2 c2.2.2.2
          (rest.1, rest.2.1, rest.2.2.1, rest.2.2.2 + 1)
        else
          let okSingles := if cfg.requireSinglesSolvable then singles.1 else !singles.1
          let okNodes := decide (cfg.minSearchNodes ≤ metrics.1.nodes)
          if okSingles && okNodes then (.accepted p fs.1, unique.2, c2.2.2.2, 1)
          else
            let best1 := match best with
              | none => some (⟨p, fs.1, clues, metrics.1.nodes⟩ : Best)
              | some bb =>
                if bb.nodes = 0 ∨ bb.nodes < metrics.1.nodes then
                  some (⟨p, fs.1, clues, metrics.1.nodes⟩ : Best)
                else some bb
            let rest := attemptLoop n b σ τ cfg deadline fuel best1 unique.2 c2.2.2.2
            (rest.1, rest.2.1, rest.2.2.1, rest.2.2.2 + 1)

/-- Tag describing which return path `generatePuzzleForDifficulty` took,
with the number of attempts performed (instrumentation only). -/
inductive GenReturn where
  | viaBeginner
  | viaAccepted (attempts : ℕ)
  | viaBest (attempts : ℕ)
  | viaBasic (attempts : ℕ)
deriving DecidableEq

/-- `generatePuzzleForDifficulty(diff, N, B)`: 4×4/beginner use the basic
generator; otherwise run up to `maxTries` attempts under the time deadline,
falling back to the best near-miss or a basic unique puzzle. -/
def generatePuzzleForDifficulty (n b : ℕ) (σ : ℕ → List ℕ → List ℕ)
    (τ : ℕ → ℕ) (diff : Difficulty) (t clk : ℕ) :
    (List ℕ × List ℕ) × GenReturn :=
  if n = 4 ∨ diff = .beginner then ((generatePuzzle n b σ t).1, .viaBeginner)
  else
    let cfg := diffConfig diff
    let deadline := τ clk + cfg.maxGenMs
    let r := attemptLoop n b σ τ cfg deadline cfg.maxTries none t (clk + 1)
    match r.1 with
    | .accepted p sol => ((p, sol), .viaAccepted r.2.2.2)
    | .exhausted (some bb) => ((bb.puzzle, bb.solution), .viaBest r.2.2.2)
    | .exhausted none => ((generatePuzzle n b σ r.2.1).1, .viaBasic r.2.2.2)

theorem cell_lt_length_of_ne_zero {g : List ℕ} {i : ℕ} (h : cell g i ≠ 0) :
    i < g.length := by
  by_contra hge
  exact h (cell_of_ge_length g i (by omega))

theorem countZeros_zero_out {p : List ℕ} {idx : ℕ} (h : cell p idx ≠ 0) :
    countZeros p + 1 = countZeros (p.set idx 0) := by
  have hidx : idx < p.length := cell_lt_length_of_ne_zero h
  have h0 : cell (p.set idx 0) idx = 0 := by
    rw [cell_set]
    rw [if_pos ⟨rfl, hidx⟩]
  have := countZeros_set (p.set idx 0) idx (cell p idx)
    (by rw [List.length_set]; exact hidx) h0 h
  rw [List.set_set, set_cell_self] at this
  omega

theorem countZeros_of_complete {n b : ℕ} {g : List ℕ} (hvc : ValidComplete n b g) :
    countZeros g = 0 := by
  by_contra hpos
  obtain ⟨i, hi, h0⟩ := (countZeros_pos_iff g).mp (by omega)
  have := hvc.1 i hi
  omega

/-- Invariant carried through both carve loops of the difficulty generator:
the puzzle is an `N²`-sized sub-grid of `sol` with exactly one completion,
and the `clues` counter counts its non-zero cells. -/
def CarveInv (n b : ℕ) (sol p : List ℕ) (clues : ℕ) : Prop :=
  p.length = n * n ∧
  (∀ i < p.length, cell p i = 0 ∨ cell p i = cell sol i) ∧
  nComp n b p = 1 ∧
  clues + countZeros p = n * n

theorem carveStep_unique {n b : ℕ} {σ : ℕ → List ℕ → List ℕ}
    {sol p : List ℕ} {idx t : ℕ}
    (Hperm : ∀ t' l, (σ t' l).Perm l) (hsent : n < 1000000000)
    (hvc : ValidComplete n b sol) (hsollen : sol.length = n * n)
    (hplen : p.length = n * n)
    (hext : ∀ i < p.length, cell p i = 0 ∨ cell p i = cell sol i) :
    ((hasUniqueSolution n b σ t (p.set idx 0)).1 = true ↔
      nComp n b (p.set idx 0) = 1) ∧
      (∀ i < (p.set idx 0).length,
        cell (p.set idx 0) i = 0 ∨ cell (p.set idx 0) i = cell sol i) := by
  have hext' : ∀ i < (p.set idx 0).length,
      cell (p.set idx 0) i = 0 ∨ cell (p.set idx 0) i = cell sol i := by
    intro i hi
    rw [List.length_set] at hi
    rw [cell_set p idx i 0]
    split_ifs with hidx
    · exact Or.inl rfl
    · exact hext i hi
  have hplen' : (p.set idx 0).length = sol.length := by
    rw [List.length_set, hplen, hsollen]
  obtain ⟨hb', hcons'⟩ := subgrid_props hvc hplen' hext'
  exact ⟨hasUniqueSolution_iff (t := t) Hperm hsent hb' hcons', hext'⟩

/-- `carve1` preserves the carve invariant. -/
theorem carve1_inv {n b : ℕ} {σ : ℕ → List ℕ → List ℕ} {τ : ℕ → ℕ}
    {minClues deadline : ℕ} {sol : List ℕ}
    (Hperm : ∀ t' l, (σ t' l).Perm l) (hsent : n < 1000000000)
    (hvc : ValidComplete n b sol) (hsollen : sol.length = n * n) :
    ∀ (idxs : List ℕ) (p : List ℕ) (clues t clk : ℕ),
      CarveInv n b sol p clues →
      CarveInv n b sol
        (carve1 n b σ τ minClues deadline idxs (p, clues, t, clk)).1
        (carve1 n b σ τ minClues deadline idxs (p, clues, t, clk)).2.1 := by
  intro idxs
  induction idxs with
  | nil => intro p clues t clk hinv; exact hinv
  | cons idx rest ih =>
    intro p clues t clk hinv
    obtain ⟨hplen, hext, hnc, hclue⟩ := hinv
    rw [carve1]
    by_cases h0 : cell p idx = 0
    · rw [if_pos h0]
      exact ih p clues t clk ⟨hplen, hext, hnc, hclue⟩
    · rw [if_neg h0]
      simp only []
      obtain ⟨huiff, hext'⟩ :=
        @carveStep_unique n b σ sol p idx t Hperm hsent hvc hsollen hplen hext
      have hrestore : (p.set idx 0).set idx (cell p idx) = p := by
        rw [List.set_set]
        exact set_cell_self p idx
      have hcz := countZeros_zero_out h0
      have hczle := countZeros_le_length (p.set idx 0)
      rw [List.length_set, hplen] at hczle
      have hinv1 : CarveInv n b sol
          (if (hasUniqueSolution n b σ t (p.set idx 0)).1 = true
            then p.set idx 0 else (p.set idx 0).set idx (cell p idx))
          (if (hasUniqueSolution n b σ t (p.set idx 0)).1 = true
            then clues - 1 else clues) := by
        by_cases hu : (hasUniqueSolution n b σ t (p.set idx 0)).1 = true
        · rw [if_pos hu, if_pos hu]
          refine ⟨by rw [List.length_set, hplen], hext', huiff.mp hu, by omega⟩
        · rw [if_neg hu, if_neg hu, hrestore]
          exact ⟨hplen, hext, hnc, hclue⟩
      split_ifs at hinv1 ⊢
      all_goals first
      | exact hinv1
      | exact ih _ _ _ _ hinv1

/-- `carve2` preserves the carve invariant. -/
theorem carve2_inv {n b : ℕ} {σ : ℕ → List ℕ → List ℕ} {τ : ℕ → ℕ}
    {minClues maxClues deadline : ℕ} {sol : List ℕ}
    (Hperm : ∀ t' l, (σ t' l).Perm l) (hsent : n < 1000000000)
    (hvc : ValidComplete n b sol) (hsollen : sol.length = n * n) :
    ∀ (idxs : List ℕ) (p : List ℕ) (clues t clk : ℕ),
      CarveInv n b sol p clues →
      CarveInv n b sol
        (carve2 n b σ τ minClues maxClues deadline idxs (p, clues, t, clk)).1
        (carve2 n b σ τ minClues maxClues deadline idxs (p, clues, t, clk)).2.1 := by
  intro idxs
  induction idxs with
  | nil => intro p clues t clk hinv; exact hinv
  | cons idx rest ih =>
    intro p clues t clk hinv
    obtain ⟨hplen, hext, hnc, hclue⟩ := hinv
    rw [carve2]
    by_cases h0 : cell p idx = 0
    · rw [if_pos h0]
      exact ih p clues t clk ⟨hplen, hext, hnc, hclue⟩
    · rw [if_neg h0]
      simp only []
      obtain ⟨huiff, hext'⟩ :=
        @carveStep_unique n b σ sol p idx t Hperm hsent hvc hsollen hplen hext
      have hrestore : (p.set idx 0).set idx (cell p idx) = p := by
        rw [List.set_set]
        exact set_cell_self p idx
      have hcz := countZeros_zero_out h0
      have hczle := countZeros_le_length (p.set idx 0)
      rw [List.length_set, hplen] at hczle
      have hinv1 : CarveInv n b sol
          (if (hasUniqueSolution n b σ t (p.set idx 0)).1 = false ∨ clues - 1 < minClues
            then (p.set idx 0).set idx (cell p idx) else p.set idx 0)
          (if (hasUniqueSolution n b σ t (p.set idx 0)).1 = false ∨ clues - 1 < minClues
            then clues else clues - 1) := by
        by_cases hbad : (hasUniqueSolution n b σ t (p.set idx 0)).1 = false ∨
            clues - 1 < minClues
        · rw [if_pos hbad, if_pos hbad, hrestore]
          exact ⟨hplen, hext, hnc, hclue⟩
        · rw [if_neg hbad, if_neg hbad]
          push_neg at hbad
          have hu : (hasUniqueSolution n b σ t (p.set idx 0)).1 = true := by
            have := hbad.1
            cases hx : (hasUniqueSolution n b σ t (p.set idx 0)).1
            · exact absurd hx this
            · rfl
          refine ⟨by rw [List.length_set, hplen], hext', huiff.mp hu, by omega⟩
      split_ifs at hinv1 ⊢
      all_goals first
      | exact hinv1
      | exact ih _ _ _ _ hinv1

/-- What every near-miss stored in `best` satisfies: a uniquely solvable
sub-grid of a valid complete solution. -/
def BestInv (n b : ℕ) (bb : Best) : Prop :=
  bb.puzzle.length = n * n ∧ bb.solution.length = n * n ∧
  ValidComplete n b bb.solution ∧
  (∀ i < bb.puzzle.length, cell bb.puzzle i = 0 ∨
    cell bb.puzzle i = cell bb.solution i) ∧
  nComp n b bb.puzzle = 1

/-- What holds of every pair returned through the acceptance branch. -/
def AcceptedOK (n b : ℕ) (σ : ℕ → List ℕ → List ℕ) (cfg : GenCfg)
    (p sol : List ℕ) : Prop :=
  p.length = n * n ∧ sol.length = n * n ∧ ValidComplete n b sol ∧
  (∀ i < p.length, cell p i = 0 ∨ cell p i = cell sol i) ∧
  nComp n b p = 1 ∧
  cfg.minClues ≤ n * n - countZeros p ∧ n * n - countZeros p ≤ cfg.maxClues ∧
  (solveWithSingles p n b).1 = cfg.requireSinglesSolvable ∧
  ∃ t', cfg.minSearchNodes ≤ (solveBacktrackingWithMetrics n b σ t' p).1.nodes

theorem updateBestMid_inv {n b : ℕ} {best : Option Best} {p sol : List ℕ}
    {clues mid : ℕ}
    (hbest : ∀ bb, best = some bb → BestInv n b bb)
    (hcand : BestInv n b ⟨p, sol, clues, 0⟩) :
    ∀ bb, updateBestMid best p sol clues mid = some bb → BestInv n b bb := by
  intro bb h
  unfold updateBestMid at h
  cases best with
  | none =>
    have : some (⟨p, sol, clues, 0⟩ : Best) = some bb := h
    rw [← Option.some.inj this]
    exact hcand
  | some bb0 =>
    have h' : (if absDiff clues mid < absDiff bb0.clues mid
        then some (⟨p, sol, clues, 0⟩ : Best) else some bb0) = some bb := h
    split_ifs at h' with hlt
    · rw [← Option.some.inj h']
      exact hcand
    · rw [← Option.some.inj h']
      exact hbest bb0 rfl

/-- Correctness of the attempt loop: accepted pairs satisfy the full
acceptance contract, every stored fallback satisfies `BestInv`, and the
number of executed attempts never exceeds the try budget. -/
theorem attemptLoop_spec {n b : ℕ} {σ : ℕ → List ℕ → List ℕ} {τ : ℕ → ℕ}
    {cfg : GenCfg} {deadline : ℕ}
    (hn : n = b * b) (hb : 0 < b) (Hperm : ∀ t' l, (σ t' l).Perm l)
    (hsent : n < 1000000000) :
    ∀ (fuel : ℕ) (best : Option Best) (t clk : ℕ),
      (∀ bb, best = some bb → BestInv n b bb) →
      (∀ p sol,
        (attemptLoop n b σ τ cfg deadline fuel best t clk).1 = .accepted p sol →
        AcceptedOK n b σ cfg p sol) ∧
      (∀ bb,
        (attemptLoop n b σ τ cfg deadline fuel best t clk).1 =
          .exhausted (some bb) → BestInv n b bb) ∧
      (attemptLoop n b σ τ cfg deadline fuel best t clk).2.2.2 ≤ fuel := by
  intro fuel
  induction fuel with
  | zero =>
    intro best t clk hbest
    refine ⟨?_, ?_, le_refl 0⟩
    · intro p sol h
      exact absurd h (by simp [attemptLoop])
    · intro bb h
      have h' : best = some bb := by
        have := h
        rw [attemptLoop] at this
        exact GenOutcome.exhausted.inj this
      exact hbest bb h'
  | succ fuel ih =>
    intro best t clk hbest
    rw [attemptLoop]
    by_cases hdl : deadline < τ clk
    · rw [if_pos hdl]
      refine ⟨?_, ?_, by dsimp only; omega⟩
      · intro p sol h
        exact absurd h (by simp)
      · intro bb h
        exact hbest bb (GenOutcome.exhausted.inj h)
    · rw [if_neg hdl]
      simp only []
      have hfs := generateFullSolution_spec (t := t) hn hb Hperm hsent
      obtain ⟨hfslen, _, hfsvc⟩ := hfs
      rw [List.length_replicate] at hfslen
      have hcz0 : countZeros (generateFullSolution n b σ t).1 = 0 :=
        countZeros_of_complete hfsvc
      have hinv0 : CarveInv n b (generateFullSolution n b σ t).1
          (generateFullSolution n b σ t).1 (n * n) :=
        ⟨hfslen, fun i hi => Or.inr rfl, nComp_of_complete hfsvc, by omega⟩
      have hinv1 := @carve1_inv n b σ τ cfg.minClues deadline
        (generateFullSolution n b σ t).1 Hperm hsent hfsvc hfslen
        (σ (generateFullSolution n b σ t).2 (List.range (n * n)))
        (generateFullSolution n b σ t).1 (n * n)
        ((generateFullSolution n b σ t).2 + 1) (clk + 1) hinv0
      rcases hc1v : carve1 n b σ τ cfg.minClues deadline
          (σ (generateFullSolution n b σ t).2 (List.range (n * n)))
          ((generateFullSolution n b σ t).1, n * n,
            (generateFullSolution n b σ t).2 + 1, clk + 1) with ⟨p1, clues1, t1, clk1⟩
      rw [hc1v] at hinv1
      dsimp only at hinv1
      have hinv2 := @carve2_inv n b σ τ cfg.minClues cfg.maxClues deadline
        (generateFullSolution n b σ t).1 Hperm hsent hfsvc hfslen
        (σ t1 (List.range (n * n))) p1 clues1 (t1 + 1) clk1 hinv1
      rcases hc2v : carve2 n b σ τ cfg.minClues cfg.maxClues deadline
          (σ t1 (List.range (n * n))) (p1, clues1, t1 + 1, clk1) with
        ⟨p2, clues2, t2, clk2⟩
      rw [hc2v] at hinv2
      dsimp only at hinv2 ⊢
      obtain ⟨hp2len, hp2ext, hp2nc, hp2clue⟩ := hinv2
      have hcandB : BestInv n b ⟨p2, (generateFullSolution n b σ t).1, clues2, 0⟩ :=
        ⟨hp2len, hfslen, hfsvc, hp2ext, hp2nc⟩
      by_cases hband : clues2 < cfg.minClues ∨ cfg.maxClues < clues2
      · rw [if_pos hband]
        have hub := @updateBestMid_inv n b best p2 (generateFullSolution n b σ t).1
          clues2 ((cfg.minClues + cfg.maxClues) / 2) hbest hcandB
        obtain ⟨iha, ihb, ihc⟩ := ih
          (updateBestMid best p2 (generateFullSolution n b σ t).1 clues2
            ((cfg.minClues + cfg.maxClues) / 2)) t2 clk2 hub
        exact ⟨iha, ihb, by dsimp only; omega⟩
      · rw [if_neg hband]
        by_cases huq : (hasUniqueSolution n b σ
            (solveBacktrackingWithMetrics n b σ t2 p2).2 p2).1 = false
        · rw [if_pos huq]
          obtain ⟨iha, ihb, ihc⟩ := ih best
            (hasUniqueSolution n b σ (solveBacktrackingWithMetrics n b σ t2 p2).2 p2).2
            clk2 hbest
          exact ⟨iha, ihb, by dsimp only; omega⟩
        · rw [if_neg huq]
          by_cases hok : ((if cfg.requireSinglesSolvable then (solveWithSingles p2 n b).1
              else !(solveWithSingles p2 n b).1) &&
              decide (cfg.minSearchNodes ≤
                (solveBacktrackingWithMetrics n b σ t2 p2).1.nodes)) = true
          · rw [if_pos hok]
            refine ⟨?_, ?_, by dsimp only; omega⟩
            · intro p sol h
              obtain ⟨hps, hss⟩ : p2 = p ∧ (generateFullSolution n b σ t).1 = sol := by
                have := GenOutcome.accepted.inj h
                exact ⟨this.1, this.2⟩
              subst hps
              subst hss
              rw [Bool.and_eq_true] at hok
              obtain ⟨hoksingles, hoknodes⟩ := hok
              refine ⟨hp2len, hfslen, hfsvc, hp2ext, hp2nc, by omega, by omega, ?_, ?_⟩
              · cases hflag : cfg.requireSinglesSolvable
                · rw [hflag] at hoksingles
                  rw [if_neg (by simp)] at hoksingles
                  simp only [Bool.not_eq_true'] at hoksingles
                  exact hoksingles
                · rw [hflag] at hoksingles
                  rw [if_pos rfl] at hoksingles
                  exact hoksingles
              · exact ⟨t2, of_decide_eq_true hoknodes⟩
            · intro bb h
              exact absurd h (by simp)
          · rw [if_neg hok]
            have hbest1 : ∀ bb, (match best with
                | none => some (⟨p2, (generateFullSolution n b σ t).1, clues2,
                    (solveBacktrackingWithMetrics n b σ t2 p2).1.nodes⟩ : Best)
                | some bb0 =>
                  if bb0.nodes = 0 ∨ bb0.nodes <
                      (solveBacktrackingWithMetrics n b σ t2 p2).1.nodes then
                    some (⟨p2, (generateFullSolution n b σ t).1, clues2,
                      (solveBacktrackingWithMetrics n b σ t2 p2).1.nodes⟩ : Best)
                  else some bb0) = some bb → BestInv n b bb := by
              intro bb h
              cases best with
              | none =>
                have h' : some (⟨p2, (generateFullSolution n b σ t).1, clues2,
                    (solveBacktrackingWithMetrics n b σ t2 p2).1.nodes⟩ : Best) =
                    some bb := h
                rw [← Option.some.inj h']
                exact ⟨hp2len, hfslen, hfsvc, hp2ext, hp2nc⟩
              | some bb0 =>
                have h' : (if bb0.nodes = 0 ∨ bb0.nodes <
                    (solveBacktrackingWithMetrics n b σ t2 p2).1.nodes then
                      some (⟨p2, (generateFullSolution n b σ t).1, clues2,
                        (solveBacktrackingWithMetrics n b σ t2 p2).1.nodes⟩ : Best)
                    else some bb0) = some bb := h
                split_ifs at h' with hcmp
                · rw [← Option.some.inj h']
                  exact ⟨hp2len, hfslen, hfsvc, hp2ext, hp2nc⟩
                · rw [← Option.some.inj h']
                  exact hbest bb0 rfl
            obtain ⟨iha, ihb, ihc⟩ := ih _
              (hasUniqueSolution n b σ (solveBacktrackingWithMetrics n b σ t2 p2).2 p2).2
              clk2 hbest1
            exact ⟨iha, ihb, by dsimp only; omega⟩

/-- Deadline short-circuit: when the clock has already passed the deadline
at the head of the attempt loop, no attempt body runs. -/
theorem attemptLoop_deadline {n b : ℕ} {σ : ℕ → List ℕ → List ℕ} {τ : ℕ → ℕ}
    {cfg : GenCfg} {deadline fuel : ℕ} {best : Option Best} {t clk : ℕ}
    (hdl : deadline < τ clk) :
    attemptLoop n b σ τ cfg deadline (fuel + 1) best t clk =
      (.exhausted best, t, clk + 1, 0) := by
  rw [attemptLoop, if_pos hdl]

/- ------------------------------------------------------------------ -/
/- Mask/grid agreement along arbitrary search op sequences.            -/
/- ------------------------------------------------------------------ -/

/-- On a consistent grid, clearing a filled cell and AND-NOT-ing its bit
out of the three unit masks agrees with wholesale recomputation. -/
theorem unassign_masks_eq {n b : ℕ} {g : List ℕ} {i v : ℕ}
    (hi : i < g.length) (hv : cell g i = v) (hv1 : 1 ≤ v)
    (hcons : Consistent n b g) :
    (unassign n b i v g (computeMasks n b g)).2 = computeMasks n b (g.set i 0) := by
  have hcell : ∀ j, cell (g.set i 0) j = if i = j ∧ i < g.length then 0 else cell g j :=
    fun j => cell_set g i j 0
  apply Masks.ext_fields
  · funext r
    apply Nat.eq_of_testBit_eq
    intro k
    apply bool_eq_of_iff
    show (upd (computeMasks n b g).rows (rowOf n i)
      (andNot ((computeMasks n b g).rows (rowOf n i)) (bit v)) r).testBit k = true ↔ _
    rw [upd_apply, computeMasks_rows_testBit]
    by_cases hr : r = rowOf n i
    · subst hr
      rw [if_pos rfl, testBit_andNot, Bool.and_eq_true,
        computeMasks_rows_testBit, Bool.not_eq_true', testBit_bit,
        decide_eq_false_iff_not]
      constructor
      · rintro ⟨⟨j, hj, hrj, hc, hk⟩, hkv⟩
        have hji : j ≠ i := by
          intro he
          rw [he, hv] at hk
          exact hkv hk
        refine ⟨j, by simpa using hj, hrj, ?_, ?_⟩
        · rw [hcell j, if_neg (by intro hx; exact hji hx.1.symm)]
          exact hc
        · rw [hcell j, if_neg (by intro hx; exact hji hx.1.symm)]
          exact hk
      · rintro ⟨j, hj, hrj, hc, hk⟩
        rw [List.length_set] at hj
        rw [hcell j] at hc hk
        by_cases hij : i = j ∧ i < g.length
        · rw [if_pos hij] at hc
          exact absurd rfl hc
        · rw [if_neg hij] at hc hk
          have hji : j ≠ i := by
            intro he
            exact hij ⟨he.symm, hi⟩
          refine ⟨⟨j, hj, hrj, hc, hk⟩, ?_⟩
          intro hkv
          have hvj : cell g j = v := by omega
          have hsu : sameUnit n b i j := Or.inl hrj.symm
          exact hcons i hi j hj (fun he => hji he.symm) hsu (by omega)
            (by rw [hv, hvj])
    · rw [if_neg hr, computeMasks_rows_testBit]
      constructor
      · rintro ⟨j, hj, hrj, hc, hk⟩
        have hji : j ≠ i := by
          intro he
          rw [he] at hrj
          exact hr hrj.symm
        refine ⟨j, by simpa using hj, hrj, ?_, ?_⟩
        · rw [hcell j, if_neg (by intro hx; exact hji hx.1.symm)]
          exact hc
        · rw [hcell j, if_neg (by intro hx; exact hji hx.1.symm)]
          exact hk
      · rintro ⟨j, hj, hrj, hc, hk⟩
        rw [List.length_set] at hj
        rw [hcell j] at hc hk
        by_cases hij : i = j ∧ i < g.length
        · rw [if_pos hij] at hc
          exact absurd rfl hc
        · rw [if_neg hij] at hc hk
          exact ⟨j, hj, hrj, hc, hk⟩
  · funext c
    apply Nat.eq_of_testBit_eq
    intro k
    apply bool_eq_of_iff
    show (upd (computeMasks n b g).cols (colOf n i)
      (andNot ((computeMasks n b g).cols (colOf n i)) (bit v)) c).testBit k = true ↔ _
    rw [upd_apply, computeMasks_cols_testBit]
    by_cases hr : c = colOf n i
    · subst hr
      rw [if_pos rfl, testBit_andNot, Bool.and_eq_true,
        computeMasks_cols_testBit, Bool.not_eq_true', testBit_bit,
        decide_eq_false_iff_not]
      constructor
      · rintro ⟨⟨j, hj, hrj, hc, hk⟩, hkv⟩
        have hji : j ≠ i := by
          intro he
          rw [he, hv] at hk
          exact hkv hk
        refine ⟨j, by simpa using hj, hrj, ?_, ?_⟩
        · rw [hcell j, if_neg (by intro hx; exact hji hx.1.symm)]
          exact hc
        · rw [hcell j, if_neg (by intro hx; exact hji hx.1.symm)]
          exact hk
      · rintro ⟨j, hj, hrj, hc, hk⟩
        rw [List.length_set] at hj
        rw [hcell j] at hc hk
        by_cases hij : i = j ∧ i < g.length
        · rw [if_pos hij] at hc
          exact absurd rfl hc
        · rw [if_neg hij] at hc hk
          have hji : j ≠ i := by
            intro he
            exact hij ⟨he.symm, hi⟩
          refine ⟨⟨j, hj, hrj, hc, hk⟩, ?_⟩
          intro hkv
          have hvj : cell g j = v := by omega
          have hsu : sameUnit n b i j := Or.inr (Or.inl hrj.symm)
          exact hcons i hi j hj (fun he => hji he.symm) hsu (by omega)
            (by rw [hv, hvj])
    · rw [if_neg hr, computeMasks_cols_testBit]
      constructor
      · rintro ⟨j, hj, hrj, hc, hk⟩
        have hji : j ≠ i := by
          intro he
          rw [he] at hrj
          exact hr hrj.symm
        refine ⟨j, by simpa using hj, hrj, ?_, ?_⟩
        · rw [hcell j, if_neg (by intro hx; exact hji hx.1.symm)]
          exact hc
        · rw [hcell j, if_neg (by intro hx; exact hji hx.1.symm)]
          exact hk
      · rintro ⟨j, hj, hrj, hc, hk⟩
        rw [List.length_set] at hj
        rw [hcell j] at hc hk
        by_cases hij : i = j ∧ i < g.length
        · rw [if_pos hij] at hc
          exact absurd rfl hc
        · rw [if_neg hij] at hc hk
          exact ⟨j, hj, hrj, hc, hk⟩
  · funext x
    apply Nat.eq_of_testBit_eq
    intro k
    apply bool_eq_of_iff
    show (upd (computeMasks n b g).boxes (boxOf n b i)
      (andNot ((computeMasks n b g).boxes (boxOf n b i)) (bit v)) x).testBit k = true ↔ _
    rw [upd_apply, computeMasks_boxes_testBit]
    by_cases hr : x = boxOf n b i
    · subst hr
      rw [if_pos rfl, testBit_andNot, Bool.and_eq_true,
        computeMasks_boxes_testBit, Bool.not_eq_true', testBit_bit,
        decide_eq_false_iff_not]
      constructor
      · rintro ⟨⟨j, hj, hrj, hc, hk⟩, hkv⟩
        have hji : j ≠ i := by
          intro he
          rw [he, hv] at hk
          exact hkv hk
        refine ⟨j, by simpa using hj, hrj, ?_, ?_⟩
        · rw [hcell j, if_neg (by intro hx; exact hji hx.1.symm)]
          exact hc
        · rw [hcell j, if_neg (by intro hx; exact hji hx.1.symm)]
          exact hk
      · rintro ⟨j, hj, hrj, hc, hk⟩
        rw [List.length_set] at hj
        rw [hcell j] at hc hk
        by_cases hij : i = j ∧ i < g.length
        · rw [if_pos hij] at hc
          exact absurd rfl hc
        · rw [if_neg hij] at hc hk
          have hji : j ≠ i := by
            intro he
            exact hij ⟨he.symm, hi⟩
          refine ⟨⟨j, hj, hrj, hc, hk⟩, ?_⟩
          intro hkv
          have hvj : cell g j = v := by omega
          have hsu : sameUnit n b i j := Or.inr (Or.inr hrj.symm)
          exact hcons i hi j hj (fun he => hji he.symm) hsu (by omega)
            (by rw [hv, hvj])
    · rw [if_neg hr, computeMasks_boxes_testBit]
      constructor
      · rintro ⟨j, hj, hrj, hc, hk⟩
        have hji : j ≠ i := by
          intro he
          rw [he] at hrj
          exact hr hrj.symm
        refine ⟨j, by simpa using hj, hrj, ?_, ?_⟩
        · rw [hcell j, if_neg (by intro hx; exact hji hx.1.symm)]
          exact hc
        · rw [hcell j, if_neg (by intro hx; exact hji hx.1.symm)]
          exact hk
      · rintro ⟨j, hj, hrj, hc, hk⟩
        rw [List.length_set] at hj
        rw [hcell j] at hc hk
        by_cases hij : i = j ∧ i < g.length
        · rw [if_pos hij] at hc
          exact absurd rfl hc
        · rw [if_neg hij] at hc hk
          exact ⟨j, hj, hrj, hc, hk⟩

/-- The states reachable from search entry on grid `g0` by legal paired
`assign`/`unassign` calls, with the outstanding (unmatched) assignments on a
stack: `assign` pushes, `unassign` pops its matching partner. -/
inductive SearchReach (n b : ℕ) (g0 : List ℕ) :
    List ℕ → Masks → List (ℕ × ℕ) → Prop where
  | entry : SearchReach n b g0 g0 (computeMasks n b g0) []
  | doAssign {g : List ℕ} {m : Masks} {st : List (ℕ × ℕ)} (i v : ℕ) :
      SearchReach n b g0 g m st → cell g i = 0 → i < g.length →
      v ∈ maskToDigits n (candidateMask n b i m) →
      SearchReach n b g0 (assign n b i v g m).1 (assign n b i v g m).2
        ((i, v) :: st)
  | doUnassign {g : List ℕ} {m : Masks} {st : List (ℕ × ℕ)} (i v : ℕ) :
      SearchReach n b g0 g m ((i, v) :: st) →
      SearchReach n b g0 (unassign n b i v g m).1 (unassign n b i v g m).2 st

/-- Full invariant along search op sequences: the incremental masks always
equal a wholesale recomputation, and the grid stays bounded and consistent
with its stack of outstanding assignments intact. -/
theorem searchReach_inv {n b : ℕ} {g0 : List ℕ}
    (hb0 : ∀ j < g0.length, cell g0 j ≤ n) (hcons0 : Consistent n b g0) :
    ∀ {g : List ℕ} {m : Masks} {st : List (ℕ × ℕ)},
      SearchReach n b g0 g m st →
      m = computeMasks n b g ∧ (∀ j < g.length, cell g j ≤ n) ∧
        Consistent n b g ∧ g.length = g0.length ∧
        (∀ e ∈ st, cell g e.1 = e.2 ∧ 1 ≤ e.2 ∧ e.1 < g.length) ∧
        (st.map Prod.fst).Nodup := by
  intro gf mf stf h
  induction h with
  | entry => exact ⟨rfl, hb0, hcons0, rfl, by simp, by simp⟩
  | @doAssign g m st i v hreach h0 hi hv ih =>
    obtain ⟨hm, hbd, hcons, hlen, hst, hnd⟩ := ih
    rw [hm] at hv
    rw [mem_candidates] at hv
    obtain ⟨hv1, hvn, hfree⟩ := hv
    refine ⟨?_, ?_, ?_, ?_, ?_, ?_⟩
    · rw [hm]
      show (assign n b i v g (computeMasks n b g)).2 = _
      rw [assign_masks_eq hi h0 hv1]
      rfl
    · show ∀ j < (g.set i v).length, cell (g.set i v) j ≤ n
      exact bounds_set hbd hvn
    · exact consistent_set hcons hfree
    · show (g.set i v).length = g0.length
      rw [List.length_set]
      exact hlen
    · intro e he
      rcases List.mem_cons.mp he with rfl | he

      · refine ⟨?_, hv1, ?_⟩
        · show cell (g.set i v) i = v
          rw [cell_set, if_pos ⟨rfl, hi⟩]
        · show i < (g.set i v).length
          rw [List.length_set]
          exact hi
      · obtain ⟨hc, h1, hl⟩ := hst e he
        have hne : i ≠ e.1 := by
          intro hx
          rw [← hx] at hc
          rw [h0] at hc
          omega
        refine ⟨?_, h1, ?_⟩
        · show cell (g.set i v) e.1 = e.2
          rw [cell_set, if_neg (by intro hx; exact hne hx.1)]
          exact hc
        · show e.1 < (g.set i v).length
          rw [List.length_set]
          exact hl
    · show ((((i, v) :: st).map Prod.fst).Nodup)
      rw [List.map_cons, List.nodup_cons]
      refine ⟨?_, hnd⟩
      intro hmem
      rw [List.mem_map] at hmem
      obtain ⟨e, he, hei⟩ := hmem
      obtain ⟨hc, h1, _⟩ := hst e he
      rw [hei, h0] at hc
      omega
  | @doUnassign g m st i v hreach ih =>
    obtain ⟨hm, hbd, hcons, hlen, hst, hnd⟩ := ih
    obtain ⟨hci, hv1, hil⟩ := hst (i, v) (List.mem_cons_self _ _)
    refine ⟨?_, ?_, ?_, ?_, ?_, ?_⟩
    · rw [hm]
      show (unassign n b i v g (computeMasks n b g)).2 = _
      rw [unassign_masks_eq hil hci hv1 hcons]
      rfl
    · show ∀ j < (g.set i 0).length, cell (g.set i 0) j ≤ n
      exact bounds_set hbd (by omega)
    · intro a ha c hcM hne hsu hnz
      have ha' : a < (g.set i 0).length := ha
      have hcM' : c < (g.set i 0).length := hcM
      have hnz' : cell (g.set i 0) a ≠ 0 := hnz
      show cell (g.set i 0) a ≠ cell (g.set i 0) c
      rw [List.length_set] at ha' hcM'
      rw [cell_set g i a 0] at hnz' ⊢
      rw [cell_set g i c 0]
      by_cases hia : i = a ∧ i < g.length
      · rw [if_pos hia] at hnz'
        exact absurd rfl hnz'
      · rw [if_neg hia] at hnz' ⊢
        by_cases hic : i = c ∧ i < g.length
        · rw [if_pos hic]
          omega
        · rw [if_neg hic]
          exact hcons a ha' c hcM' hne hsu hnz'
    · show (g.set i 0).length = g0.length
      rw [List.length_set]
      exact hlen
    · intro e he
      obtain ⟨hc, h1, hl⟩ := hst e (List.mem_cons_of_mem _ he)
      have hnotmem : i ∉ st.map Prod.fst := by
        rw [List.map_cons, List.nodup_cons] at hnd
        exact hnd.1
      have hne : i ≠ e.1 := by
        intro hx
        exact hnotmem (List.mem_map.mpr ⟨e, he, hx.symm⟩)
      refine ⟨?_, h1, ?_⟩
      · show cell (g.set i 0) e.1 = e.2
        rw [cell_set, if_neg (by intro hx; exact hne hx.1)]
        exact hc
      · show e.1 < (g.set i 0).length
        rw [List.length_set]
        exact hl
    · rw [List.map_cons, List.nodup_cons] at hnd
      exact hnd.2

/- ------------------------------------------------------------------ -/
/- Concrete grids used to settle the spec claims.                      -/
/- ------------------------------------------------------------------ -/

/-- A complete but internally inconsistent 4×4 grid: every cell holds 1. -/
def onesGrid : List ℕ := List.replicate 16 1

/-- A 4×4 grid with a duplicated 1 in its first row. -/
def dupGrid : List ℕ := [1, 1, 0, 0, 0, 0, 0, 0, 0, 0, 0, 0, 0, 0, 0, 0]

/-- A 4×4 position whose scan order meets a 1-candidate cell (index 0)
before a 0-candidate cell (index 15). -/
def mrvGrid : List ℕ := [0, 2, 3, 4, 4, 0, 0, 3, 0, 0, 0, 1, 0, 0, 2, 0]

theorem onesGrid_no_completion : ¬∃ h, Completes 4 2 onesGrid h := by
  rintro ⟨h, hlen, hagree, hvc⟩
  have hlen16 : h.length = 16 := hlen
  have h0 : cell h 0 = 1 := hagree 0 (by decide) (by decide)
  have h1 : cell h 1 = 1 := hagree 1 (by decide) (by decide)
  have := hvc.2 0 (by omega) 1 (by omega) (by omega) (Or.inl (by decide))
    (by rw [h0]; omega)
  rw [h0, h1] at this
  exact this rfl

/-- The zero-count short-circuit of a recursive `bt` step: an incomplete
grid whose selected cell has no candidates fails at once, state untouched. -/
theorem bt_zero_candidates {n b : ℕ} {co : Bool} {maxS : ℕ}
    {σ : ℕ → List ℕ → List ℕ} {E : List ℕ} {fuel : ℕ} {s : BtState}
    {i cm : ℕ} (hall : s.g.all (· != 0) = false)
    (hsel : selectMRV n b E s.g s.m = (some i, cm, 0)) :
    bt n b co maxS σ E (fuel + 1) s = some (false, s) := by
  rw [bt, if_neg (by rw [hall]; simp), hsel]
  rfl

/-- The greedy early stop of the MRV scan: an empty cell with exactly one
candidate ends the scan immediately, whatever remains unscanned. -/
theorem selectScan_one_stops {n b : ℕ} {g : List ℕ} {m : Masks} {i : ℕ}
    (rest : List ℕ) (best : Option ℕ) {bestCnt : ℕ} (h0 : cell g i = 0)
    (h1 : popcount (candidateMask n b i m) = 1) (hbc : 1 < bestCnt) :
    selectScan n b g m (i :: rest) best bestCnt =
      (some i, candidateMask n b i m, 1) := by
  rw [selectScan, if_neg (by rw [h0]; simp)]
  simp only []
  rw [h1]
  rw [if_neg (by omega), if_pos hbc, if_pos hbc, if_pos rfl]
  show (some i, candidateMask n b i m, popcount (candidateMask n b i m)) = _
  rw [h1]

/-- Re-counting the completions of a sub-grid of a valid solution with an
arbitrary fresh rng stream and cutoff 2 reports exactly its completion count
capped at 2. -/
theorem unique_recount {n b : ℕ} {σ2 : ℕ → List ℕ → List ℕ} {t2 : ℕ}
    {p sol : List ℕ} (Hperm2 : ∀ t' l, (σ2 t' l).Perm l)
    (hsent : n < 1000000000) (hvc : ValidComplete n b sol)
    (hplen : p.length = sol.length)
    (hext : ∀ i < p.length, cell p i = 0 ∨ cell p i = cell sol i)
    (hnc : nComp n b p = 1) :
    (solveBacktrackingCore n b σ2 t2 p true false 2).1.solutionsCount = 1 := by
  obtain ⟨hb', hcons'⟩ := subgrid_props hvc hplen hext
  rw [countSolutions_eq Hperm2 hsent hb' hcons' (by omega) false, hnc]
  simp

/-- Every pair returned by `generatePuzzleForDifficulty` — through the
beginner path, acceptance, the best near-miss or the basic fallback — is a
uniquely solvable sub-grid of a complete valid solution. -/
theorem gPFD_pair_spec {n b : ℕ} {σ : ℕ → List ℕ → List ℕ} {τ : ℕ → ℕ}
    (hn : n = b * b) (hb : 0 < b) (Hperm : ∀ t' l, (σ t' l).Perm l)
    (hsent : n < 1000000000) (diff : Difficulty) (t clk : ℕ) :
    (generatePuzzleForDifficulty n b σ τ diff t clk).1.2.length = n * n ∧
      ValidComplete n b (generatePuzzleForDifficulty n b σ τ diff t clk).1.2 ∧
      (generatePuzzleForDifficulty n b σ τ diff t clk).1.1.length = n * n ∧
      (∀ i < (generatePuzzleForDifficulty n b σ τ diff t clk).1.1.length,
        cell (generatePuzzleForDifficulty n b σ τ diff t clk).1.1 i = 0 ∨
        cell (generatePuzzleForDifficulty n b σ τ diff t clk).1.1 i =
          cell (generatePuzzleForDifficulty n b σ τ diff t clk).1.2 i) ∧
      nComp n b (generatePuzzleForDifficulty n b σ τ diff t clk).1.1 = 1 := by
  by_cases hbeg : n = 4 ∨ diff = Difficulty.beginner
  · simp only [generatePuzzleForDifficulty]
    rw [if_pos hbeg]
    exact generatePuzzle_spec (t := t) hn hb Hperm hsent
  · simp only [generatePuzzleForDifficulty]
    rw [if_neg hbeg]
    obtain ⟨ha, hbst, _⟩ := @attemptLoop_spec n b σ τ (diffConfig diff)
      (τ clk + (diffConfig diff).maxGenMs)
      hn hb Hperm hsent (diffConfig diff).maxTries none t (clk + 1)
      (fun bb h => by exact absurd h (by simp))
    rcases hout : (attemptLoop n b σ τ (diffConfig diff)
        (τ clk + (diffConfig diff).maxGenMs) (diffConfig diff).maxTries
        none t (clk + 1)).1 with ⟨p, sol⟩ | ⟨ob⟩
    · rw [hout] at ha
      obtain ⟨hplen, hslen, hsvc, hext, hnc, _⟩ := ha p sol rfl
      exact ⟨hslen, hsvc, hplen, hext, hnc⟩
    · rw [hout] at hbst
      cases ob with
      | none =>
        exact generatePuzzle_spec (t :=
          (attemptLoop n b σ τ (diffConfig diff)
            (τ clk + (diffConfig diff).maxGenMs) (diffConfig diff).maxTries
            none t (clk + 1)).2.1) hn hb Hperm hsent
      | some bb =>
        obtain ⟨hplen, hslen, hsvc, hext, hnc⟩ := hbst bb rfl
        exact ⟨hslen, hsvc, hplen, hext, hnc⟩

/- ------------------------------------------------------------------ -/
/- Claim theorems.                                                     -/
/- ------------------------------------------------------------------ -/

/-- C1: for well-formed `(N, B)` with `B² = N`, every puzzle returned by
`generatePuzzle`, and by `generatePuzzleForDifficulty` through any of its
return paths (acceptance, best near-miss, basic fallback, beginner), is
uniquely solvable: recounting its solutions with cutoff 2 under any fresh
rng stream yields exactly 1. -/
theorem claim1_generated_puzzles_unique {n b : ℕ}
    {σ σ2 : ℕ → List ℕ → List ℕ} {τ : ℕ → ℕ}
    (hn : n = b * b) (hb : 0 < b) (Hperm : ∀ t' l, (σ t' l).Perm l)
    (Hperm2 : ∀ t' l, (σ2 t' l).Perm l) (hsent : n < 1000000000) :
    (∀ t t2, (solveBacktrackingCore n b σ2 t2 (generatePuzzle n b σ t).1.1
        true false 2).1.solutionsCount = 1) ∧
    (∀ diff t clk t2, (solveBacktrackingCore n b σ2 t2
        (generatePuzzleForDifficulty n b σ τ diff t clk).1.1
        true false 2).1.solutionsCount = 1) := by
  constructor
  · intro t t2
    obtain ⟨hslen, hsvc, hplen, hext, hnc⟩ :=
      generatePuzzle_spec (t := t) hn hb Hperm hsent
    exact unique_recount Hperm2 hsent hsvc (by rw [hplen, hslen]) hext hnc
  · intro diff t clk t2
    obtain ⟨hslen, hsvc, hplen, hext, hnc⟩ :=
      gPFD_pair_spec hn hb Hperm hsent diff t clk
    exact unique_recount Hperm2 hsent hsvc (by rw [hplen, hslen]) hext hnc

theorem claim1_witness :
    (∀ t t2, (solveBacktrackingCore 4 2 (fun _ l => l) t2
        (generatePuzzle 4 2 (fun _ l => l) t).1.1
        true false 2).1.solutionsCount = 1) ∧
    (∀ diff t clk t2, (solveBacktrackingCore 4 2 (fun _ l => l) t2
        (generatePuzzleForDifficulty 4 2 (fun _ l => l) (fun _ => 0) diff t clk).1.1
        true false 2).1.solutionsCount = 1) :=
  claim1_generated_puzzles_unique (by decide) (by decide)
    (fun _ _ => List.Perm.refl _) (fun _ _ => List.Perm.refl _) (by decide)

/-- C2: for every pair returned by `generatePuzzle`, each non-zero puzzle
cell equals the same-index solution cell, and the solution is fully
populated with every row, column and box containing each digit `1..N`
exactly once. -/
theorem claim2_pair_consistent {n b : ℕ} {σ : ℕ → List ℕ → List ℕ}
    (hn : n = b * b) (hb : 0 < b) (Hperm : ∀ t' l, (σ t' l).Perm l)
    (hsent : n < 1000000000) (t : ℕ) :
    (∀ i < (generatePuzzle n b σ t).1.1.length,
      cell (generatePuzzle n b σ t).1.1 i ≠ 0 →
      cell (generatePuzzle n b σ t).1.1 i = cell (generatePuzzle n b σ t).1.2 i) ∧
    (generatePuzzle n b σ t).1.2.length = n * n ∧
    (∀ i < (generatePuzzle n b σ t).1.2.length,
      1 ≤ cell (generatePuzzle n b σ t).1.2 i ∧
      cell (generatePuzzle n b σ t).1.2 i ≤ n) ∧
    (∀ u < n, ∀ v, 1 ≤ v → v ≤ n →
      ((rowCells n u).map (cell (generatePuzzle n b σ t).1.2)).count v = 1 ∧
      ((colCells n u).map (cell (generatePuzzle n b σ t).1.2)).count v = 1 ∧
      ((boxCells n b u).map (cell (generatePuzzle n b σ t).1.2)).count v = 1) := by
  obtain ⟨hslen, hsvc, hplen, hext, hnc⟩ :=
    generatePuzzle_spec (t := t) hn hb Hperm hsent
  refine ⟨?_, hslen, hsvc.1, validComplete_units hn hb hsvc hslen⟩
  intro i hi hne
  rcases hext i hi with h | h
  · exact absurd h hne
  · exact h

theorem claim2_witness :
    (∀ i < (generatePuzzle 4 2 (fun _ l => l) 0).1.1.length,
      cell (generatePuzzle 4 2 (fun _ l => l) 0).1.1 i ≠ 0 →
      cell (generatePuzzle 4 2 (fun _ l => l) 0).1.1 i =
        cell (generatePuzzle 4 2 (fun _ l => l) 0).1.2 i) ∧
    (generatePuzzle 4 2 (fun _ l => l) 0).1.2.length = 4 * 4 ∧
    (∀ i < (generatePuzzle 4 2 (fun _ l => l) 0).1.2.length,
      1 ≤ cell (generatePuzzle 4 2 (fun _ l => l) 0).1.2 i ∧
      cell (generatePuzzle 4 2 (fun _ l => l) 0).1.2 i ≤ 4) ∧
    (∀ u < 4, ∀ v, 1 ≤ v → v ≤ 4 →
      ((rowCells 4 u).map (cell (generatePuzzle 4 2 (fun _ l => l) 0).1.2)).count v = 1 ∧
      ((colCells 4 u).map (cell (generatePuzzle 4 2 (fun _ l => l) 0).1.2)).count v = 1 ∧
      ((boxCells 4 2 u).map (cell (generatePuzzle 4 2 (fun _ l => l) 0).1.2)).count v = 1) :=
  claim2_pair_consistent (by decide) (by decide) (fun _ _ => List.Perm.refl _)
    (by decide) 0

/-- C3 (amended): the counting mode's reported `solutionsCount` never
exceeds the cutoff 2 on any input, and on bounded, internally consistent
puzzles `hasUniqueSolution` is true exactly when the puzzle has exactly one
valid completion.  (Without the consistency premise the equivalence fails:
see the counterexample.) -/
theorem claim3_cutoff_and_unique_iff {n b : ℕ} {σ : ℕ → List ℕ → List ℕ}
    {t : ℕ} {p : List ℕ} (Hperm : ∀ t' l, (σ t' l).Perm l)
    (hsent : n < 1000000000) (hbound : ∀ j < p.length, cell p j ≤ n)
    (hcons : Consistent n b p) :
    (∀ (σ2 : ℕ → List ℕ → List ℕ) (t2 : ℕ) (q : List ℕ) (wm : Bool),
      (solveBacktrackingCore n b σ2 t2 q true wm 2).1.solutionsCount ≤ 2) ∧
    ((hasUniqueSolution n b σ t p).1 = true ↔ nComp n b p = 1) :=
  ⟨fun σ2 t2 q wm => solutionsCount_le wm (by omega),
   hasUniqueSolution_iff Hperm hsent hbound hcons⟩

theorem claim3_witness :
    (∀ (σ2 : ℕ → List ℕ → List ℕ) (t2 : ℕ) (q : List ℕ) (wm : Bool),
      (solveBacktrackingCore 4 2 σ2 t2 q true wm 2).1.solutionsCount ≤ 2) ∧
    ((hasUniqueSolution 4 2 (fun _ l => l) 0 (List.replicate 16 0)).1 = true ↔
      nComp 4 2 (List.replicate 16 0) = 1) :=
  claim3_cutoff_and_unique_iff (fun _ _ => List.Perm.refl _) (by decide)
    (by decide) (by decide)

/-- C3 counterexample: the all-ones 4×4 grid is complete but inconsistent;
`hasUniqueSolution` reports `true` on it although it has no valid
completion at all. -/
theorem claim3_counterexample :
    (hasUniqueSolution 4 2 (fun _ l => l) 0 onesGrid).1 = true ∧
    ¬∃ h, Completes 4 2 onesGrid h :=
  ⟨by decide, onesGrid_no_completion⟩

/-- C4: whenever the attempt loop of `generatePuzzleForDifficulty` returns
through its acceptance branch, the accepted puzzle's clue count lies within
the profile band, `solveWithSingles` fully completes it exactly when
`requireSinglesSolvable` is true (and leaves at least one cell unresolved
when it is false), and the backtracking node metric reaches
`minSearchNodes`. -/
theorem claim4_acceptance_contract {n b : ℕ} {σ : ℕ → List ℕ → List ℕ}
    {τ : ℕ → ℕ} {cfg : GenCfg} {deadline : ℕ}
    (hn : n = b * b) (hb : 0 < b) (Hperm : ∀ t' l, (σ t' l).Perm l)
    (hsent : n < 1000000000) (fuel : ℕ) (best : Option Best) (t clk : ℕ)
    (p sol : List ℕ)
    (hbest : ∀ bb, best = some bb → BestInv n b bb)
    (hacc : (attemptLoop n b σ τ cfg deadline fuel best t clk).1 =
      GenOutcome.accepted p sol) :
    (cfg.minClues ≤ n * n - countZeros p ∧
      n * n - countZeros p ≤ cfg.maxClues) ∧
    (solveWithSingles p n b).1 = cfg.requireSinglesSolvable ∧
    (cfg.requireSinglesSolvable = false →
      ∃ i < n * n, cell (singlesLoop n b (countZeros p + 1) p 0).1 i = 0) ∧
    (∃ t2, cfg.minSearchNodes ≤
      (solveBacktrackingWithMetrics n b σ t2 p).1.nodes) := by
  obtain ⟨ha, _, _⟩ := attemptLoop_spec hn hb Hperm hsent fuel best t clk hbest
  obtain ⟨hplen, hslen, hsvc, hext, hnc, hlo, hhi, hsing, hnodes⟩ := ha p sol hacc
  refine ⟨⟨hlo, hhi⟩, hsing, ?_, hnodes⟩
  intro hflag
  rw [hflag] at hsing
  have hall : ((singlesLoop n b (countZeros p + 1) p 0).1.all fun v => v != 0) =
      false := hsing
  rw [List.all_eq_false] at hall
  obtain ⟨x, hx, hxv⟩ := hall
  rw [List.mem_iff_getElem] at hx
  obtain ⟨i, hilen, hival⟩ := hx
  have hflen : (singlesLoop n b (countZeros p + 1) p 0).1.length = n * n :=
    (singlesLoop_final hn hb _ p 0 hplen (by omega)).2
  refine ⟨i, by rw [← hflen]; exact hilen, ?_⟩
  have hcell : cell (singlesLoop n b (countZeros p + 1) p 0).1 i = x := by
    unfold cell
    rw [List.getD_eq_getElem _ _ hilen]
    exact hival
  rw [hcell]
  simpa using hxv

set_option maxRecDepth 100000 in
set_option maxHeartbeats 4000000 in
theorem claim4_witness :
    ((⟨0, 1, true, 0, 1, 1000⟩ : GenCfg).minClues ≤ 1 * 1 - countZeros [0] ∧
      1 * 1 - countZeros [0] ≤ (⟨0, 1, true, 0, 1, 1000⟩ : GenCfg).maxClues) ∧
    (solveWithSingles [0] 1 1).1 =
      (⟨0, 1, true, 0, 1, 1000⟩ : GenCfg).requireSinglesSolvable ∧
    ((⟨0, 1, true, 0, 1, 1000⟩ : GenCfg).requireSinglesSolvable = false →
      ∃ i < 1 * 1, cell (singlesLoop 1 1 (countZeros [0] + 1) [0] 0).1 i = 0) ∧
    (∃ t2, (⟨0, 1, true, 0, 1, 1000⟩ : GenCfg).minSearchNodes ≤
      (solveBacktrackingWithMetrics 1 1 (fun _ l => l) t2 [0]).1.nodes) :=
  @claim4_acceptance_contract 1 1 (fun _ l => l) (fun _ => 0)
    ⟨0, 1, true, 0, 1, 1000⟩ 1000 (by decide) (by decide)
    (fun _ _ => List.Perm.refl _) (by decide) 1 none 0 0 [0] [1]
    (fun bb h => Option.noConfusion h) (by decide)

/-- C5: `generatePuzzleForDifficulty` executes at most `maxTries` attempt
bodies, stops running attempts as soon as the wall-clock deadline has
passed, and never fails: every return path (acceptance, best near-miss,
basic fallback, beginner) produces a uniquely solvable sub-grid of a
complete valid solution. -/
theorem claim5_budget_graceful {n b : ℕ} {σ : ℕ → List ℕ → List ℕ}
    {τ : ℕ → ℕ} (hn : n = b * b) (hb : 0 < b)
    (Hperm : ∀ t' l, (σ t' l).Perm l) (hsent : n < 1000000000)
    (diff : Difficulty) (t clk : ℕ) :
    (∀ k, ((generatePuzzleForDifficulty n b σ τ diff t clk).2 =
          GenReturn.viaAccepted k ∨
        (generatePuzzleForDifficulty n b σ τ diff t clk).2 =
          GenReturn.viaBest k ∨
        (generatePuzzleForDifficulty n b σ τ diff t clk).2 =
          GenReturn.viaBasic k) →
      k ≤ (diffConfig diff).maxTries) ∧
    (¬(n = 4 ∨ diff = Difficulty.beginner) →
      τ clk + (diffConfig diff).maxGenMs < τ (clk + 1) →
      (generatePuzzleForDifficulty n b σ τ diff t clk).2 =
          GenReturn.viaBest 0 ∨
        (generatePuzzleForDifficulty n b σ τ diff t clk).2 =
          GenReturn.viaBasic 0) ∧
    ((generatePuzzleForDifficulty n b σ τ diff t clk).1.2.length = n * n ∧
      ValidComplete n b (generatePuzzleForDifficulty n b σ τ diff t clk).1.2 ∧
      (generatePuzzleForDifficulty n b σ τ diff t clk).1.1.length = n * n ∧
      (∀ i < (generatePuzzleForDifficulty n b σ τ diff t clk).1.1.length,
        cell (generatePuzzleForDifficulty n b σ τ diff t clk).1.1 i = 0 ∨
        cell (generatePuzzleForDifficulty n b σ τ diff t clk).1.1 i =
          cell (generatePuzzleForDifficulty n b σ τ diff t clk).1.2 i) ∧
      nComp n b (generatePuzzleForDifficulty n b σ τ diff t clk).1.1 = 1) := by
  refine ⟨?_, ?_, gPFD_pair_spec hn hb Hperm hsent diff t clk⟩
  · intro k hk
    by_cases hbeg : n = 4 ∨ diff = Difficulty.beginner
    · exfalso
      simp only [generatePuzzleForDifficulty] at hk
      rw [if_pos hbeg] at hk
      rcases hk with h | h | h
      · exact GenReturn.noConfusion h
      · exact GenReturn.noConfusion h
      · exact GenReturn.noConfusion h
    · obtain ⟨_, _, hcnt⟩ := @attemptLoop_spec n b σ τ (diffConfig diff)
        (τ clk + (diffConfig diff).maxGenMs)
        hn hb Hperm hsent (diffConfig diff).maxTries none t (clk + 1)
        (fun bb h => by exact absurd h (by simp))
      simp only [generatePuzzleForDifficulty] at hk
      rw [if_neg hbeg] at hk
      rcases hout : (attemptLoop n b σ τ (diffConfig diff)
          (τ clk + (diffConfig diff).maxGenMs) (diffConfig diff).maxTries
          none t (clk + 1)).1 with ⟨p, sol⟩ | ⟨ob⟩
      · rw [hout] at hk
        rcases hk with h | h | h
        · have := GenReturn.viaAccepted.inj h
          omega
        · exact GenReturn.noConfusion h
        · exact GenReturn.noConfusion h
      · rw [hout] at hk
        cases ob with
        | none =>
          rcases hk with h | h | h
          · exact GenReturn.noConfusion h
          · exact GenReturn.noConfusion h
          · have := GenReturn.viaBasic.inj h
            omega
        | some bb =>
          rcases hk with h | h | h
          · exact GenReturn.noConfusion h
          · have := GenReturn.viaBest.inj h
            omega
          · exact GenReturn.noConfusion h
  · intro hbeg hdl
    simp only [generatePuzzleForDifficulty]
    rw [if_neg hbeg]
    rcases hmt : (diffConfig diff).maxTries with _ | f
    · right
      rfl
    · have hstop := @attemptLoop_deadline n b σ τ (diffConfig diff)
        (τ clk + (diffConfig diff).maxGenMs) f none t (clk + 1) hdl
      rw [hstop]
      right
      rfl

theorem claim5_witness :
    (∀ k, ((generatePuzzleForDifficulty 1 1 (fun _ l => l) (fun c => c * 1000)
          Difficulty.intermediate 0 0).2 = GenReturn.viaAccepted k ∨
        (generatePuzzleForDifficulty 1 1 (fun _ l => l) (fun c => c * 1000)
          Difficulty.intermediate 0 0).2 = GenReturn.viaBest k ∨
        (generatePuzzleForDifficulty 1 1 (fun _ l => l) (fun c => c * 1000)
          Difficulty.intermediate 0 0).2 = GenReturn.viaBasic k) →
      k ≤ (diffConfig Difficulty.intermediate).maxTries) ∧
    (¬(1 = 4 ∨ Difficulty.intermediate = Difficulty.beginner) →
      (fun c => c * 1000) 0 + (diffConfig Difficulty.intermediate).maxGenMs <
        (fun c => c * 1000) (0 + 1) →
      (generatePuzzleForDifficulty 1 1 (fun _ l => l) (fun c => c * 1000)
          Difficulty.intermediate 0 0).2 = GenReturn.viaBest 0 ∨
        (generatePuzzleForDifficulty 1 1 (fun _ l => l) (fun c => c * 1000)
          Difficulty.intermediate 0 0).2 = GenReturn.viaBasic 0) ∧
    ((generatePuzzleForDifficulty 1 1 (fun _ l => l) (fun c => c * 1000)
        Difficulty.intermediate 0 0).1.2.length = 1 * 1 ∧
      ValidComplete 1 1 (generatePuzzleForDifficulty 1 1 (fun _ l => l)
        (fun c => c * 1000) Difficulty.intermediate 0 0).1.2 ∧
      (generatePuzzleForDifficulty 1 1 (fun _ l => l) (fun c => c * 1000)
        Difficulty.intermediate 0 0).1.1.length = 1 * 1 ∧
      (∀ i < (generatePuzzleForDifficulty 1 1 (fun _ l => l) (fun c => c * 1000)
          Difficulty.intermediate 0 0).1.1.length,
        cell (generatePuzzleForDifficulty 1 1 (fun _ l => l) (fun c => c * 1000)
          Difficulty.intermediate 0 0).1.1 i = 0 ∨
        cell (generatePuzzleForDifficulty 1 1 (fun _ l => l) (fun c => c * 1000)
          Difficulty.intermediate 0 0).1.1 i =
          cell (generatePuzzleForDifficulty 1 1 (fun _ l => l) (fun c => c * 1000)
            Difficulty.intermediate 0 0).1.2 i) ∧
      nComp 1 1 (generatePuzzleForDifficulty 1 1 (fun _ l => l)
        (fun c => c * 1000) Difficulty.intermediate 0 0).1.1 = 1) :=
  claim5_budget_graceful (by decide) (by decide) (fun _ _ => List.Perm.refl _)
    (by decide) Difficulty.intermediate 0 0

/-- C6 (amended): `computeMasks` is a total function: it returns the three
mask arrays on every input grid, consistent or not, with bit `k` of each
unit mask set exactly when some non-zero cell of that unit holds digit
`k + 1`.  No failure path exists in the code (see the counterexample for an
inconsistent grid flowing through `computeMasks` and the solver normally). -/
theorem claim6_computeMasks_total (n b : ℕ) (g : List ℕ) (u k : ℕ) :
    (((computeMasks n b g).rows u).testBit k = true ↔
      ∃ i < g.length, rowOf n i = u ∧ cell g i ≠ 0 ∧ k = cell g i - 1) ∧
    (((computeMasks n b g).cols u).testBit k = true ↔
      ∃ i < g.length, colOf n i = u ∧ cell g i ≠ 0 ∧ k = cell g i - 1) ∧
    (((computeMasks n b g).boxes u).testBit k = true ↔
      ∃ i < g.length, boxOf n b i = u ∧ cell g i ≠ 0 ∧ k = cell g i - 1) :=
  ⟨computeMasks_rows_testBit n b g u k, computeMasks_cols_testBit n b g u k,
    computeMasks_boxes_testBit n b g u k⟩

set_option maxRecDepth 100000 in
set_option maxHeartbeats 4000000 in
/-- C6 counterexample: a grid with two 1s in one row is inconsistent, yet
`computeMasks` returns its mask arrays and `solveBacktracking` returns an
ordinary unsolved result — nothing fails fast, no error is raised. -/
theorem claim6_counterexample :
    ¬Consistent 4 2 dupGrid ∧ (computeMasks 4 2 dupGrid).rows 0 = 1 ∧
    (solveBacktracking 4 2 (fun _ l => l) 0 dupGrid false).1.solved = false :=
  ⟨by decide, by decide, by decide⟩

/-- C7 (amended): what the cell-selection step actually guarantees: a
selected cell is an empty cell of the scanned list with its candidate mask
and popcount; a step whose selected count is zero fails at once without
recursion and without touching the state; and the scan stops at the first
cell with exactly one candidate — so a zero-candidate cell later in scan
order may never be seen (see the counterexample). -/
theorem claim7_selection_behavior (n b : ℕ) :
    (∀ (E g : List ℕ) (m : Masks) (i cm cnt : ℕ),
      selectMRV n b E g m = (some i, cm, cnt) →
      i ∈ E ∧ cell g i = 0 ∧ cm = candidateMask n b i m ∧ cnt = popcount cm) ∧
    (∀ (co : Bool) (maxS : ℕ) (σ : ℕ → List ℕ → List ℕ) (E : List ℕ)
      (fuel : ℕ) (s : BtState) (i cm : ℕ),
      s.g.all (· != 0) = false → selectMRV n b E s.g s.m = (some i, cm, 0) →
      bt n b co maxS σ E (fuel + 1) s = some (false, s)) ∧
    (∀ (g : List ℕ) (m : Masks) (i : ℕ) (rest : List ℕ) (best : Option ℕ)
      (bestCnt : ℕ), cell g i = 0 → popcount (candidateMask n b i m) = 1 →
      1 < bestCnt →
      selectScan n b g m (i :: rest) best bestCnt =
        (some i, candidateMask n b i m, 1)) := by
  refine ⟨?_, ?_, ?_⟩
  · intro E g m i cm cnt hsel
    exact selectScan_some (P := (· ∈ E)) E none 1000000000
      (fun j hj => hj) (by simp) hsel
  · intro co maxS σ E fuel s i cm hall hsel
    exact bt_zero_candidates hall hsel
  · intro g m i rest best bestCnt h0 h1 hbc
    exact selectScan_one_stops rest best h0 h1 hbc

/-- C7 counterexample: in `mrvGrid`, cell 15 is empty with zero candidates,
yet the scan (which meets the 1-candidate cell 0 first) selects cell 0 with
count 1 — it neither picks the fewest-candidate cell nor fails. -/
theorem claim7_counterexample :
    cell mrvGrid 15 = 0 ∧
    15 ∈ ((List.range mrvGrid.length).filter fun i => cell mrvGrid i == 0) ∧
    popcount (candidateMask 4 2 15 (computeMasks 4 2 mrvGrid)) = 0 ∧
    selectMRV 4 2 ((List.range mrvGrid.length).filter fun i => cell mrvGrid i == 0)
      mrvGrid (computeMasks 4 2 mrvGrid) = (some 0, 1, 1) ∧
    popcount (candidateMask 4 2 0 (computeMasks 4 2 mrvGrid)) = 1 :=
  ⟨by decide, by decide, by decide, by decide, by decide⟩

/-- C8: from masks computed at search entry, after any sequence of legal
paired `assign`/`unassign` operations, the incrementally maintained masks
equal a wholesale recomputation from the current grid: bit `v - 1` is set
in a unit mask exactly when some cell of that unit holds `v`. -/
theorem claim8_mask_agreement {n b : ℕ} {g0 g : List ℕ} {m : Masks}
    {st : List (ℕ × ℕ)} (hb0 : ∀ j < g0.length, cell g0 j ≤ n)
    (hcons0 : Consistent n b g0) (hreach : SearchReach n b g0 g m st) :
    m = computeMasks n b g ∧
    (∀ u k, ((m.rows u).testBit k = true ↔
      ∃ i < g.length, rowOf n i = u ∧ cell g i ≠ 0 ∧ k = cell g i - 1)) ∧
    (∀ u k, ((m.cols u).testBit k = true ↔
      ∃ i < g.length, colOf n i = u ∧ cell g i ≠ 0 ∧ k = cell g i - 1)) ∧
    (∀ u k, ((m.boxes u).testBit k = true ↔
      ∃ i < g.length, boxOf n b i = u ∧ cell g i ≠ 0 ∧ k = cell g i - 1)) := by
  obtain ⟨hm, _, _, _, _, _⟩ := searchReach_inv hb0 hcons0 hreach
  subst hm
  exact ⟨rfl, fun u k => computeMasks_rows_testBit n b g u k,
    fun u k => computeMasks_cols_testBit n b g u k,
    fun u k => computeMasks_boxes_testBit n b g u k⟩

set_option maxRecDepth 100000 in
theorem claim8_witness :
    (assign 4 2 0 1 (List.replicate 16 0)
        (computeMasks 4 2 (List.replicate 16 0))).2 =
      computeMasks 4 2 (assign 4 2 0 1 (List.replicate 16 0)
        (computeMasks 4 2 (List.replicate 16 0))).1 ∧
    (∀ u k, (((assign 4 2 0 1 (List.replicate 16 0)
        (computeMasks 4 2 (List.replicate 16 0))).2.rows u).testBit k = true ↔
      ∃ i < (assign 4 2 0 1 (List.replicate 16 0)
        (computeMasks 4 2 (List.replicate 16 0))).1.length,
        rowOf 4 i = u ∧ cell (assign 4 2 0 1 (List.replicate 16 0)
          (computeMasks 4 2 (List.replicate 16 0))).1 i ≠ 0 ∧
        k = cell (assign 4 2 0 1 (List.replicate 16 0)
          (computeMasks 4 2 (List.replicate 16 0))).1 i - 1)) ∧
    (∀ u k, (((assign 4 2 0 1 (List.replicate 16 0)
        (computeMasks 4 2 (List.replicate 16 0))).2.cols u).testBit k = true ↔
      ∃ i < (assign 4 2 0 1 (List.replicate 16 0)
        (computeMasks 4 2 (List.replicate 16 0))).1.length,
        colOf 4 i = u ∧ cell (assign 4 2 0 1 (List.replicate 16 0)
          (computeMasks 4 2 (List.replicate 16 0))).1 i ≠ 0 ∧
        k = cell (assign 4 2 0 1 (List.replicate 16 0)
          (computeMasks 4 2 (List.replicate 16 0))).1 i - 1)) ∧
    (∀ u k, (((assign 4 2 0 1 (List.replicate 16 0)
        (computeMasks 4 2 (List.replicate 16 0))).2.boxes u).testBit k = true ↔
      ∃ i < (assign 4 2 0 1 (List.replicate 16 0)
        (computeMasks 4 2 (List.replicate 16 0))).1.length,
        boxOf 4 2 i = u ∧ cell (assign 4 2 0 1 (List.replicate 16 0)
          (computeMasks 4 2 (List.replicate 16 0))).1 i ≠ 0 ∧
        k = cell (assign 4 2 0 1 (List.replicate 16 0)
          (computeMasks 4 2 (List.replicate 16 0))).1 i - 1)) :=
  claim8_mask_agreement (by decide) (by decide)
    (SearchReach.doAssign 0 1 SearchReach.entry (by decide) (by decide) (by decide))

/-- C9: the backtracking search always terminates on every input: with fuel
one beyond the number of empty cells (hence at most `N² + 1`) `bt` returns
a result, extra fuel never changes it (the recursion depth is bounded by
the empty-cell count), and a failed search returns with the grid restored
exactly. -/
theorem claim9_termination {n b : ℕ} {co : Bool} {maxS : ℕ}
    {σ : ℕ → List ℕ → List ℕ} {E : List ℕ}
    (Hperm : ∀ t l, (σ t l).Perm l) (s : BtState) (fuel : ℕ)
    (hz : countZeros s.g < fuel) (hE : ∀ j ∈ E, j < s.g.length) :
    (∃ r s', bt n b co maxS σ E fuel s = some (r, s') ∧
      (r = false → s'.g = s.g) ∧ s'.g.length = s.g.length) ∧
    (∀ fuel', countZeros s.g < fuel' →
      bt n b co maxS σ E fuel' s = bt n b co maxS σ E fuel s) ∧
    bt n b co maxS σ E (s.g.length + 1) s = bt n b co maxS σ E fuel s := by
  obtain ⟨hex, hstable⟩ := btTerm Hperm fuel s hz hE
  refine ⟨hex, hstable, ?_⟩
  apply hstable
  have := countZeros_le_length s.g
  omega

theorem claim9_witness :
    (∃ r s', bt 4 2 true 2 (fun _ l => l) []
        1 ⟨[], ⟨fun _ => 0, fun _ => 0, fun _ => 0⟩, 0, 0, none, 0⟩ =
        some (r, s') ∧ (r = false → s'.g = []) ∧ s'.g.length = ([] : List ℕ).length) ∧
    (∀ fuel', countZeros ([] : List ℕ) < fuel' →
      bt 4 2 true 2 (fun _ l => l) [] fuel'
          ⟨[], ⟨fun _ => 0, fun _ => 0, fun _ => 0⟩, 0, 0, none, 0⟩ =
        bt 4 2 true 2 (fun _ l => l) [] 1
          ⟨[], ⟨fun _ => 0, fun _ => 0, fun _ => 0⟩, 0, 0, none, 0⟩) ∧
    bt 4 2 true 2 (fun _ l => l) [] (([] : List ℕ).length + 1)
        ⟨[], ⟨fun _ => 0, fun _ => 0, fun _ => 0⟩, 0, 0, none, 0⟩ =
      bt 4 2 true 2 (fun _ l => l) [] 1
        ⟨[], ⟨fun _ => 0, fun _ => 0, fun _ => 0⟩, 0, 0, none, 0⟩ :=
  claim9_termination (fun _ _ => List.Perm.refl _)
    ⟨[], ⟨fun _ => 0, fun _ => 0, fun _ => 0⟩, 0, 0, none, 0⟩ 1
    (by decide) (by intro j hj; exact absurd hj (List.not_mem_nil j))

/-- C10: `shuffled` returns a permutation of its input for every comparator
the random sort may produce: same length and the same multiplicity of every
element, so no digit or index is ever added, dropped or duplicated. -/
theorem claim10_shuffled_perm (cmp : ℕ → ℕ → Bool) (arr : List ℕ) :
    (shuffled cmp arr).Perm arr ∧ (shuffled cmp arr).length = arr.length ∧
    ∀ x, (shuffled cmp arr).count x = arr.count x := by
  have h := shuffled_perm cmp arr
  exact ⟨h, h.length_eq, fun x => h.count_eq x⟩

end Sudoku
